import Mathlib

/-!
# k-NN indexes (`TreeIndex.cpp`, `HNSW.cpp`): a shallow embedding

The development embeds the three index engines of the repository:

* `DataVector` (the value type of both translation units),
* `KDTreeIndex` and `RPTreeIndex` (`TreeIndex.cpp`),
* `HNSWGraph` (`HNSW.cpp`).

Conventions of the embedding.

* `double` is modelled by `ℝ`; `sqrt`, `pow(x, 2)` and `std::abs` are the real
  functions.  Definitions that compare reals are therefore not executable,
  they are evaluated in proofs by rewriting.
* `std::vector<T>` is `List T`.  An index that is out of range in the source is
  undefined behaviour; the embedding reads a default there (`0`, `[]`) and the
  theorems carry the hypotheses (common dimension) under which every access
  of the source is in range.
* `std::priority_queue` is modelled by the list of its elements in the order
  in which successive `top()`/`pop()` calls deliver them; `top()` on an empty
  queue is undefined behaviour and is modelled by `none`.
* `int` against `size_t` comparisons convert the `int` to a 64-bit unsigned
  value (`toSizeT`).
* `std::sort` is specified only up to its postcondition, so the build
  functions take an arbitrary conforming implementation (`StdSort`).
* The pseudo-random generators are modelled by the stream of values they
  deliver (`Gen` for the Gaussian draws of the RP-tree, a function
  `Nat → Nat` for the layer draws of the HNSW build).
* Node ids and layers of the HNSW graph are `int` in the source and never
  negative; they are natural numbers here. The parameters `M`, `maxM`, `maxM0`,
  `k` and `ef` stay integers, and a comparison is made at the type at which the
  source makes it. The product `M * 2` of the constructor is an `int` product,
  taken with two's complement wrap-around (`wrapInt32`); it is `2 M` for
  `-2^30 ≤ M < 2^30`.
* The `while` loop of the layer searches runs on fuel; the fuel handed to it is
  a bound on its iterations (`searchLayer_fuel_sufficient`).
-/

noncomputable section

/-! ## DataVector -/

/-- The class `DataVector`: a `std::vector<double>`. -/
abbrev DataVector := List ℝ

/-- Reading `v[i]` for an `int` index (`DataVector::operator[]`). -/
def DataVector.get (v : DataVector) (i : Int) : ℝ := v.getD i.toNat 0

/-- The method `DataVector::dist`: the loop `s += pow(v[i]-other.v[i], 2)` over
the indices of the receiver, then `sqrt(s)`. -/
def DataVector.dist (v other : DataVector) : ℝ :=
  Real.sqrt ((List.range v.length).foldl
    (fun s i => s + (v.getD i 0 - other.getD i 0) ^ 2) 0)

/-- The method `DataVector::operator*`: the inner product, accumulated over the
indices of the receiver. -/
def DataVector.dot (v other : DataVector) : ℝ :=
  (List.range v.length).foldl (fun res i => res + v.getD i 0 * other.getD i 0) 0

/-- Conversion of an `int` to `size_t` (64 bit), as done by the usual
arithmetic conversions in `pq.size() > k`. -/
def toSizeT (k : Int) : Nat := (k % 2 ^ 64).toNat

/-! ## The max-heap of distances used by the tree searches -/

/-- A `std::priority_queue<double>`: its elements, largest first. -/
abbrev PQ := List ℝ

/-- The call `pq.push(d)`. -/
def PQ.push (d : ℝ) (pq : PQ) : PQ := List.orderedInsert (fun a b => a ≥ b) d pq

/-- The call `pq.top()`; it is undefined on an empty queue. -/
def PQ.top (pq : PQ) : Option ℝ := pq.head?

/-- The call `pq.pop()`. -/
def PQ.pop (pq : PQ) : PQ := pq.tail

/-! ## Tree nodes -/

/-- The struct `TreeIndex::Node`; `null` stands for a null pointer. A leaf holds
its bucket of points, an internal node holds `splitDim`, `splitVal`,
`projDir` and its two children. -/
inductive Node where
  | null : Node
  | leaf (points : List DataVector) : Node
  | internal (splitDim : Int) (splitVal : ℝ) (projDir : DataVector)
      (left right : Node) : Node

/-- The points stored in the leaves below a node, left to right. -/
def Node.leafPoints : Node → List DataVector
  | .null => []
  | .leaf points => points
  | .internal _ _ _ left right => left.leafPoints ++ right.leafPoints

/-- A conforming implementation of `std::sort` for a comparator of the form
`key(a) < key(b)`: the result is a permutation of the input in which the keys
are in ascending order. The order among equal keys is left open. -/
structure StdSort where
  sortBy : (DataVector → ℝ) → List DataVector → List DataVector
  perm : ∀ key l, (sortBy key l).Perm l
  sorted : ∀ key l, (sortBy key l).Sorted (fun a b => key a ≤ key b)

/-- Insertion sort is one conforming implementation of `std::sort`. -/
def StdSort.insertion : StdSort where
  sortBy key l := l.insertionSort (fun a b => key a ≤ key b)
  perm key l := List.perm_insertionSort _ l
  sorted key l := by
    haveI : IsTotal DataVector (fun a b => key a ≤ key b) := ⟨fun a b => le_total _ _⟩
    haveI : IsTrans DataVector (fun a b => key a ≤ key b) := ⟨fun a b c => le_trans⟩
    exact List.sorted_insertionSort _ l

/-! ## KDTreeIndex -/

/-- The largest element of a non-empty list (`std::minmax_element`, second
component). -/
def listMax : List ℝ → ℝ
  | [] => 0
  | x :: xs => xs.foldl max x

/-- The smallest element of a non-empty list (`std::minmax_element`, first
component). -/
def listMin : List ℝ → ℝ
  | [] => 0
  | x :: xs => xs.foldl min x

/-- The value `spread` of the loop body of `KDTreeIndex::build` for dimension
`i`: largest minus smallest `i`-th coordinate over the slice. -/
def KDTreeIndex.spread (l : List DataVector) (i : Nat) : ℝ :=
  listMax (l.map fun a => a.get i) - listMin (l.map fun a => a.get i)

/-- The max-spread loop of `KDTreeIndex::build`: the final `(splitDim, maxSpread)`,
starting from `(0, -1)` and running over the dimensions of the first point. -/
def KDTreeIndex.chooseSplit (l : List DataVector) : Int × ℝ :=
  (List.range (l.headD []).length).foldl
    (fun st i => if KDTreeIndex.spread l i > st.2 then ((i : Int), KDTreeIndex.spread l i) else st)
    (0, -1)

/-- The function `KDTreeIndex::build` on the slice `l`. -/
def KDTreeIndex.build (S : StdSort) (l : List DataVector) : Node :=
  if h : l.length ≤ 100 then Node.leaf l
  else
    let splitDim := (KDTreeIndex.chooseSplit l).1
    let sorted := S.sortBy (fun a => a.get splitDim) l
    let mid := l.length / 2
    Node.internal splitDim ((sorted.getD mid []).get splitDim) []
      (KDTreeIndex.build S (sorted.take mid)) (KDTreeIndex.build S (sorted.drop mid))
termination_by l.length
decreasing_by
  · simp only [List.length_take]
    omega
  · simp only [List.length_drop, (S.perm _ l).length_eq]
    omega

/-- The function `KDTreeIndex::Maketree`: the new root. -/
def KDTreeIndex.Maketree (S : StdSort) (dataset : List DataVector) : Node :=
  KDTreeIndex.build S dataset

/-- The leaf loop of `searchRecursive`: push the distance of every point, pop
when the queue holds more than `k` elements. -/
def leafScan (target : DataVector) (k : Int) (points : List DataVector) (pq : PQ) : PQ :=
  points.foldl
    (fun pq p =>
      let pq1 := PQ.push (target.dist p) pq
      if pq1.length > toSizeT k then PQ.pop pq1 else pq1)
    pq

/-- The tail of `searchRecursive` at an internal node: search `nearer`, then
search `farther` when `pq.size() < k || gap < pq.top()`. -/
def descend (k : Int) (gap : ℝ) (nearer farther : PQ → Option PQ) (pq : PQ) : Option PQ :=
  (nearer pq).bind fun pq1 =>
    if pq1.length < toSizeT k then farther pq1
    else
      match PQ.top pq1 with
      | none => none
      | some t => if gap < t then farther pq1 else some pq1

/-- The function `KDTreeIndex::searchRecursive`; `none` when `top()` is called on
an empty queue. -/
def KDTreeIndex.searchRecursive : Node → DataVector → Int → PQ → Option PQ
  | .null, _, _, pq => some pq
  | .leaf points, target, k, pq => some (leafScan target k points pq)
  | .internal splitDim splitVal _ left right, target, k, pq =>
    if target.get splitDim ≤ splitVal then
      descend k |target.get splitDim - splitVal|
        (fun q => KDTreeIndex.searchRecursive left target k q)
        (fun q => KDTreeIndex.searchRecursive right target k q) pq
    else
      descend k |target.get splitDim - splitVal|
        (fun q => KDTreeIndex.searchRecursive right target k q)
        (fun q => KDTreeIndex.searchRecursive left target k q) pq

/-- The function `KDTreeIndex::searchKNearest`: drain the queue, reverse. -/
def KDTreeIndex.searchKNearest (root : Node) (target : DataVector) (k : Int) :
    Option (List ℝ) :=
  (KDTreeIndex.searchRecursive root target k []).map List.reverse

/-! ## RPTreeIndex -/

/-- The static generator `gen` of `RPTreeIndex::build` together with the
normal distribution: the stream of samples and the number already drawn. -/
structure Gen where
  samples : Nat → ℝ
  pos : Nat

/-- The loop `dir[i] = dist(gen)` for a direction of dimension `d`. -/
def Gen.drawDir (g : Gen) (d : Nat) : DataVector × Gen :=
  ((List.range d).map fun i => g.samples (g.pos + i), { g with pos := g.pos + d })

/-- The function `RPTreeIndex::build` on the slice `l`, threading the static
generator. -/
def RPTreeIndex.build (S : StdSort) (g : Gen) (l : List DataVector) : Node × Gen :=
  if h : l.length ≤ 100 then (Node.leaf l, g)
  else
    let dg := g.drawDir (l.headD []).length
    let sorted := S.sortBy (fun a => a.dot dg.1) l
    let mid := l.length / 2
    let lt := RPTreeIndex.build S dg.2 (sorted.take mid)
    let rt := RPTreeIndex.build S lt.2 (sorted.drop mid)
    (Node.internal (-1) ((sorted.getD mid []).dot dg.1) dg.1 lt.1 rt.1, rt.2)
termination_by l.length
decreasing_by
  · simp only [List.length_take]
    omega
  · simp only [List.length_drop, (S.perm _ l).length_eq]
    omega

/-- The function `RPTreeIndex::Maketree`: the new root and the generator state
left behind. -/
def RPTreeIndex.Maketree (S : StdSort) (g : Gen) (dataset : List DataVector) : Node × Gen :=
  RPTreeIndex.build S g dataset

/-- The function `RPTreeIndex::searchRecursive`. -/
def RPTreeIndex.searchRecursive : Node → DataVector → Int → PQ → Option PQ
  | .null, _, _, pq => some pq
  | .leaf points, target, k, pq => some (leafScan target k points pq)
  | .internal _ splitVal projDir left right, target, k, pq =>
    if target.dot projDir ≤ splitVal then
      descend k |target.dot projDir - splitVal|
        (fun q => RPTreeIndex.searchRecursive left target k q)
        (fun q => RPTreeIndex.searchRecursive right target k q) pq
    else
      descend k |target.dot projDir - splitVal|
        (fun q => RPTreeIndex.searchRecursive right target k q)
        (fun q => RPTreeIndex.searchRecursive left target k q) pq

/-- The function `RPTreeIndex::searchKNearest`. -/
def RPTreeIndex.searchKNearest (root : Node) (target : DataVector) (k : Int) :
    Option (List ℝ) :=
  (RPTreeIndex.searchRecursive root target k []).map List.reverse

/-! ## Auxiliary definitions for the statements -/

/-- One iteration of the leaf loop. -/
def leafStep (target : DataVector) (k : Int) (pq : PQ) (p : DataVector) : PQ :=
  if (PQ.push (target.dist p) pq).length > toSizeT k then PQ.pop (PQ.push (target.dist p) pq)
  else PQ.push (target.dist p) pq

/-- The queue `pq` holds the `K` smallest values of the list `A` of all values
offered so far: it is sorted, has at most `K` elements, and the values dropped
(`rest`) are all at least as large as the values kept. -/
def Keeps (K : Nat) (pq : PQ) (A : List ℝ) : Prop :=
  pq.Sorted (fun a b => a ≥ b) ∧ pq.length ≤ K ∧
    ∃ rest : List ℝ, (pq ++ rest).Perm A ∧ (∀ r ∈ pq, ∀ x ∈ rest, r ≤ x) ∧
      (rest ≠ [] → pq.length = K)

/-- Brute-force k-NN over a list of distances: sort ascending, keep the first `K`. -/
def kSmallest (K : Nat) (A : List ℝ) : List ℝ :=
  (A.insertionSort (fun a b => a ≤ b)).take K

/-- The sum of squares under the root of `DataVector::dist`. -/
def sqSum (v other : DataVector) : ℝ :=
  ((List.range v.length).map fun i => (v.getD i 0 - other.getD i 0) ^ 2).sum

/-- Every internal node has a split dimension in `[0, d)`, the points below
its left child are on the low side of `splitVal` and the points below its right
child on the high side. -/
def Node.KDOrdered (d : Nat) : Node → Prop
  | .null => True
  | .leaf _ => True
  | .internal splitDim splitVal _ left right =>
    (0 ≤ splitDim ∧ splitDim.toNat < d) ∧
    (∀ p ∈ left.leafPoints, p.get splitDim ≤ splitVal) ∧
    (∀ p ∈ right.leafPoints, splitVal ≤ p.get splitDim) ∧
    left.KDOrdered d ∧ right.KDOrdered d

/-- Brute-force k-NN: the distances from `q` to all points of the dataset,
sorted in ascending order, cut after the first `K`. -/
def bruteForceKNN (dataset : List DataVector) (q : DataVector) (K : Nat) : List ℝ :=
  kSmallest K (dataset.map q.dist)

/-- The standard-basis vectors of dimension `d` (the dataset of scenario S1
for `d = 10`). -/
def stdBasis (d : Nat) : List DataVector :=
  (List.range d).map fun i => (List.range d).map fun j => if i = j then (1 : ℝ) else 0

/-- The point of Euclidean `n`-space with the first `n` coordinates of `v`. -/
def DataVector.toEuclidean (n : Nat) (v : DataVector) : EuclideanSpace ℝ (Fin n) :=
  fun i => v.getD i 0

/-! ## HNSWGraph -/

/-- The struct `HNSWGraph::Node`: `neighbors[layer]` is the list of neighbor ids
at that layer. -/
structure HNode where
  id : Nat
  neighbors : List (List Nat)
  maxLayer : Nat

/-- A value-initialised `Node`, as created by `nodes.resize`. -/
def HNode.empty : HNode := ⟨0, [], 0⟩

/-- The state of an `HNSWGraph` object (the random generator is modelled by the
sequence of layers it delivers, see `HNSWGraph.buildIndex`). -/
structure HNSWGraph where
  nodes : List HNode
  data : List DataVector
  M : Int
  maxM : Int
  maxM0 : Int
  maxLayer : Nat
  entryPoint : Nat

/-- The value an `int` (32 bit, two's complement) holds for an arithmetic result `x`:
`x` itself when `-2^31 ≤ x < 2^31`, otherwise `x` reduced modulo `2^32` into that
range. -/
def wrapInt32 (x : Int) : Int := (x + 2 ^ 31) % 2 ^ 32 - 2 ^ 31

/-- The constructor `HNSWGraph::HNSWGraph(M, ml)`: `maxM(M), maxM0(M * 2)`, the product
being computed in `int`. -/
def HNSWGraph.init (M : Int) : HNSWGraph :=
  ⟨[], [], M, M, wrapInt32 (M * 2), 0, 0⟩

/-- The value of `std::numeric_limits<double>::max()`. -/
def DBL_MAX : ℝ := 2 ^ 1024 - 2 ^ 971

/-- The comparison `operator<` of `std::pair<double, int>`. -/
def pairLt (a b : ℝ × Nat) : Prop := a.1 < b.1 ∨ (¬ b.1 < a.1 ∧ a.2 < b.2)

instance pairLtDecidable (a b : ℝ × Nat) : Decidable (pairLt a b) := by
  unfold pairLt
  infer_instance

/-- The call `push` on a `std::priority_queue<std::pair<double, int>>` (a max-heap): the
elements are kept greatest first. -/
def maxPush (x : ℝ × Nat) (h : List (ℝ × Nat)) : List (ℝ × Nat) :=
  List.orderedInsert (fun a b => ¬ pairLt a b) x h

/-- The call `push` on a priority queue with `std::greater` (a min-heap): the elements
are kept least first. -/
def minPush (x : ℝ × Nat) (h : List (ℝ × Nat)) : List (ℝ × Nat) :=
  List.orderedInsert (fun a b => ¬ pairLt b a) x h

/-- The local variables of `searchLayer` and `searchLayerGreedy`: the set
`visited`, the heap `candidates` of pairs `(-d, id)` (top first), the heap
`nearest` of pairs `(d, id)` (top first) and `lowerBound`. -/
structure SearchState where
  visited : List Nat
  candidates : List (ℝ × Nat)
  nearest : List (ℝ × Nat)
  lowerBound : ℝ

/-- The list `nodes[curr].neighbors[layer]`. -/
def HNSWGraph.nbrs (g : HNSWGraph) (layer curr : Nat) : List Nat :=
  (g.nodes.getD curr HNode.empty).neighbors.getD layer []

/-- The distance `query.dist(data[id])`. -/
def HNSWGraph.distTo (g : HNSWGraph) (query : DataVector) (id : Nat) : ℝ :=
  query.dist (g.data.getD id [])

/-- The body of the loop over the entry points (the same in both searches). -/
def HNSWGraph.seedStep (g : HNSWGraph) (query : DataVector) (s : SearchState) (ep : Nat) :
    SearchState :=
  { visited := ep :: s.visited
    candidates := maxPush (-(g.distTo query ep), ep) s.candidates
    nearest := minPush (g.distTo query ep, ep) s.nearest
    lowerBound := min s.lowerBound (g.distTo query ep) }

/-- The state before the first entry point is processed. -/
def SearchState.start : SearchState := ⟨[], [], [], DBL_MAX⟩

/-- The body of the loop over the neighbors in `searchLayer`. -/
def HNSWGraph.expandStep (g : HNSWGraph) (query : DataVector) (s : SearchState)
    (neighbor : Nat) : SearchState :=
  if neighbor ∈ s.visited then s
  else if g.distTo query neighbor < s.lowerBound ∨ s.nearest.length < toSizeT g.M then
    { visited := neighbor :: s.visited
      candidates := maxPush (-(g.distTo query neighbor), neighbor) s.candidates
      nearest := minPush (g.distTo query neighbor, neighbor) s.nearest
      lowerBound := min s.lowerBound (g.distTo query neighbor) }
  else { s with visited := neighbor :: s.visited }

/-- The body of the loop over the neighbors in `searchLayerGreedy`. -/
def HNSWGraph.expandStepGreedy (g : HNSWGraph) (query : DataVector) (ef : Int)
    (s : SearchState) (neighbor : Nat) : SearchState :=
  if neighbor ∈ s.visited then s
  else if g.distTo query neighbor < s.lowerBound ∨ (s.nearest.length : Int) < ef then
    if ((minPush (g.distTo query neighbor, neighbor) s.nearest).length : Int) > ef then
      { visited := neighbor :: s.visited
        candidates := maxPush (-(g.distTo query neighbor), neighbor) s.candidates
        nearest := (minPush (g.distTo query neighbor, neighbor) s.nearest).tail
        lowerBound := ((minPush (g.distTo query neighbor, neighbor) s.nearest).headD (0, 0)).1 }
    else
      { visited := neighbor :: s.visited
        candidates := maxPush (-(g.distTo query neighbor), neighbor) s.candidates
        nearest := minPush (g.distTo query neighbor, neighbor) s.nearest
        lowerBound := min s.lowerBound (g.distTo query neighbor) }
  else { s with visited := neighbor :: s.visited }

/-- The `while (!candidates.empty())` loop of both searches, for at most `fuel`
iterations: stop on an empty heap or when the best candidate is farther than
`lowerBound`, otherwise pop it and run `step` over its neighbors. -/
def searchLoop (step : SearchState → Nat → SearchState) (nbrs : Nat → List Nat) :
    Nat → SearchState → SearchState
  | 0, s => s
  | fuel + 1, s =>
    match s.candidates with
    | [] => s
    | top :: rest =>
      if -top.1 > s.lowerBound then s
      else searchLoop step nbrs fuel ((nbrs top.2).foldl step { s with candidates := rest })

/-- A bound on the number of iterations of the `while` loop at a layer: every
iteration pops one candidate, and a candidate is an entry point or an id met
for the first time in a neighbor list of that layer. -/
def HNSWGraph.searchFuel (g : HNSWGraph) (entryPoints : List Nat) (layer : Nat) : Nat :=
  entryPoints.length + (g.nodes.map fun nd => (nd.neighbors.getD layer []).length).sum + 1

/-- The function `HNSWGraph::searchLayer`. -/
def HNSWGraph.searchLayer (g : HNSWGraph) (query : DataVector) (entryPoints : List Nat)
    (layer : Nat) : List Nat :=
  ((searchLoop (g.expandStep query) (g.nbrs layer) (g.searchFuel entryPoints layer)
    (entryPoints.foldl (g.seedStep query) SearchState.start)).nearest).map Prod.snd

/-- The function `HNSWGraph::searchLayerGreedy`. -/
def HNSWGraph.searchLayerGreedy (g : HNSWGraph) (query : DataVector) (entryPoints : List Nat)
    (layer : Nat) (ef : Int) : List Nat :=
  ((searchLoop (g.expandStepGreedy query ef) (g.nbrs layer) (g.searchFuel entryPoints layer)
    (entryPoints.foldl (g.seedStep query) SearchState.start)).nearest).map Prod.snd

/-- The call `v.resize(n)` with new elements equal to `d`. -/
def resize {α : Type} (l : List α) (n : Nat) (d : α) : List α :=
  l.take n ++ List.replicate (n - l.length) d

/-- Replace `nodes[j].neighbors[lc]` by its image under `f`. -/
def HNSWGraph.updNeighbors (g : HNSWGraph) (j lc : Nat) (f : List Nat → List Nat) :
    HNSWGraph :=
  { g with
    nodes := g.nodes.set j
      ⟨(g.nodes.getD j HNode.empty).id,
        (g.nodes.getD j HNode.empty).neighbors.set lc (f (g.nbrs lc j)),
        (g.nodes.getD j HNode.empty).maxLayer⟩ }

/-- The body of the loop `for (int candidate : candidates)` of `buildIndex`: link in
both directions, then drop the last element of the candidate's list when it
holds more than `cap` ids. -/
def HNSWGraph.linkStep (i lc : Nat) (cap : Int) (g : HNSWGraph) (candidate : Nat) :
    HNSWGraph :=
  if (((g.updNeighbors i lc fun l => l ++ [candidate]).updNeighbors candidate lc
      fun l => l ++ [i]).nbrs lc candidate).length > cap then
    ((g.updNeighbors i lc fun l => l ++ [candidate]).updNeighbors candidate lc
      fun l => l ++ [i]).updNeighbors candidate lc List.dropLast
  else
    (g.updNeighbors i lc fun l => l ++ [candidate]).updNeighbors candidate lc fun l => l ++ [i]

/-- The body of the descent loops of `buildIndex` and `searchKNearest`: search the
layer and continue from the first result, if there is one. -/
def HNSWGraph.descentStep (g : HNSWGraph) (query : DataVector) (searchEps : List Nat)
    (lc : Nat) : List Nat :=
  match g.searchLayer query searchEps lc with
  | [] => searchEps
  | best :: _ => [best]

/-- The layers `hi, hi - 1, ..., lo + 1` visited by `for (lc = hi; lc > lo; --lc)`. -/
def layersAbove (hi lo : Nat) : List Nat := (List.range' (lo + 1) (hi - lo)).reverse

/-- The layers `hi, hi - 1, ..., 0` visited by `for (lc = hi; lc >= 0; --lc)`. -/
def layersDownFrom (hi : Nat) : List Nat := (List.range (hi + 1)).reverse

/-- The body of the insertion loop of `buildIndex` for the new node `i`: search the
layer with `ef = 200`, link every candidate, continue from the candidates. -/
def HNSWGraph.insertLayer (i : Nat) (query : DataVector) (st : HNSWGraph × List Nat)
    (lc : Nat) : HNSWGraph × List Nat :=
  ((st.1.searchLayerGreedy query st.2 lc 200).foldl
      (HNSWGraph.linkStep i lc (if lc = 0 then st.1.maxM0 else st.1.maxM)) st.1,
    st.1.searchLayerGreedy query st.2 lc 200)

/-- The assignments to `nodes[i]` at the start of an iteration of `buildIndex`. -/
def HNSWGraph.allocNode (g : HNSWGraph) (i layer : Nat) : HNSWGraph :=
  { g with
    nodes := g.nodes.set i
      ⟨i, resize (g.nodes.getD i HNode.empty).neighbors (layer + 1) [], layer⟩ }

/-- One iteration of the main loop of `buildIndex`: insert point `i` with the drawn
`layer`. -/
def HNSWGraph.insertNode (dataset : List DataVector) (g : HNSWGraph) (i layer : Nat) :
    HNSWGraph :=
  if i = 0 then { g.allocNode i layer with entryPoint := 0, maxLayer := layer }
  else
    if layer >
        ((layersDownFrom (min layer g.maxLayer)).foldl
          (HNSWGraph.insertLayer i (dataset.getD i []))
          (g.allocNode i layer,
            (layersAbove g.maxLayer layer).foldl
              ((g.allocNode i layer).descentStep (dataset.getD i [])) [g.entryPoint])).1.maxLayer
    then
      { ((layersDownFrom (min layer g.maxLayer)).foldl
          (HNSWGraph.insertLayer i (dataset.getD i []))
          (g.allocNode i layer,
            (layersAbove g.maxLayer layer).foldl
              ((g.allocNode i layer).descentStep (dataset.getD i [])) [g.entryPoint])).1 with
        maxLayer := layer, entryPoint := i }
    else
      ((layersDownFrom (min layer g.maxLayer)).foldl
        (HNSWGraph.insertLayer i (dataset.getD i []))
        (g.allocNode i layer,
          (layersAbove g.maxLayer layer).foldl
            ((g.allocNode i layer).descentStep (dataset.getD i [])) [g.entryPoint])).1

/-- The state of `buildIndex` after the first `n` iterations of its main loop;
`layers i` is the value `getRandomLayer()` returns for point `i`. -/
def HNSWGraph.buildUpTo (g : HNSWGraph) (dataset : List DataVector) (layers : Nat → Nat)
    (n : Nat) : HNSWGraph :=
  (List.range n).foldl (fun g i => HNSWGraph.insertNode dataset g i (layers i))
    { g with data := dataset, nodes := resize g.nodes dataset.length HNode.empty }

/-- The function `HNSWGraph::buildIndex`. -/
def HNSWGraph.buildIndex (g : HNSWGraph) (dataset : List DataVector) (layers : Nat → Nat) :
    HNSWGraph :=
  g.buildUpTo dataset layers dataset.length

/-- The function `HNSWGraph::searchKNearest`. -/
def HNSWGraph.searchKNearest (g : HNSWGraph) (query : DataVector) (k ef : Int) : List ℝ :=
  (((g.searchLayerGreedy query
      ((layersAbove g.maxLayer 0).foldl (g.descentStep query) [g.entryPoint]) 0 (max ef k)).take
    (min k (g.searchLayerGreedy query
      ((layersAbove g.maxLayer 0).foldl (g.descentStep query) [g.entryPoint]) 0
        (max ef k)).length).toNat).map (g.distTo query))

/-- What both neighbor-loop bodies have in common: a visited neighbor changes
nothing, a new neighbor is marked visited and adds at most one candidate. -/
def StepOK (step : SearchState → Nat → SearchState) : Prop :=
  ∀ (s : SearchState) (n : Nat),
    (n ∈ s.visited → step s n = s) ∧
    (n ∉ s.visited → (step s n).visited = n :: s.visited ∧
      (step s n).candidates.length ≤ s.candidates.length + 1)

/-- All ids stored in the neighbor lists of a layer. -/
def HNSWGraph.layerIds (g : HNSWGraph) (layer : Nat) : List Nat :=
  (g.nodes.map fun nd => nd.neighbors.getD layer []).flatten

/-- The quantity that decreases in every iteration of the `while` loop: the number
of candidates plus the number of ids of the layer not yet visited. -/
def searchMeasure (U : List Nat) (s : SearchState) : Nat :=
  s.candidates.length + (U.dedup.filter fun x => x ∉ s.visited).length

/-- What holds of the local variables of a layer search throughout: `nearest` is
in heap order, carries the true distance `D id` with every id, holds no id
twice and only visited ids, and all ids in `nearest` and `candidates` satisfy
`P` (a property of ids that the neighbor lists of the layer respect). -/
def SearchInv (D : Nat → ℝ) (P : Nat → Prop) (s : SearchState) : Prop :=
  s.nearest.Sorted (fun a b => ¬ pairLt b a) ∧
  (∀ x ∈ s.nearest, x.1 = D x.2) ∧
  (s.nearest.map Prod.snd).Nodup ∧
  (∀ x ∈ s.nearest, x.2 ∈ s.visited) ∧
  (∀ x ∈ s.nearest, P x.2) ∧
  (∀ x ∈ s.candidates, P x.2)

/-- The cap that `buildIndex` applies at layer `l`: `maxM0` at layer 0, `maxM` above. -/
def HNSWGraph.cap (g : HNSWGraph) (l : Nat) : Int := if l = 0 then g.maxM0 else g.maxM

/-- Node `x` exists and has a neighbor list for layer `l`: the accesses
`nodes[x].neighbors[l]` are in range. -/
def HNSWGraph.HasLayer (g : HNSWGraph) (x l : Nat) : Prop :=
  x < g.nodes.length ∧ l < (g.nodes.getD x HNode.empty).neighbors.length

instance hasLayerDecidable (g : HNSWGraph) (x l : Nat) : Decidable (g.HasLayer x l) := by
  unfold HNSWGraph.HasLayer
  infer_instance

/-- The graph `g1` differs from `g` at most in the contents of neighbor lists: same
number of nodes, same number of layers and same `maxLayer` in every node,
same parameters, data, `maxLayer` and `entryPoint`. -/
def Frame (g g1 : HNSWGraph) : Prop :=
  g1.nodes.length = g.nodes.length ∧
  (∀ j, (g1.nodes.getD j HNode.empty).neighbors.length
      = (g.nodes.getD j HNode.empty).neighbors.length ∧
    (g1.nodes.getD j HNode.empty).maxLayer = (g.nodes.getD j HNode.empty).maxLayer) ∧
  g1.data = g.data ∧ g1.M = g.M ∧ g1.maxM = g.maxM ∧ g1.maxM0 = g.maxM0 ∧
  g1.maxLayer = g.maxLayer ∧ g1.entryPoint = g.entryPoint

/-- Every id stored in a list of layer `l` is one of the first `n` nodes, is stored
in the list of one of the first `n` nodes, was drawn a layer of at least
`l`, and is not stored in its own list. -/
def LayerV (layers : Nat → Nat) (n : Nat) (g : HNSWGraph) (l : Nat) : Prop :=
  ∀ j x, x ∈ g.nbrs l j → x < n ∧ j < n ∧ l ≤ layers x ∧ x ≠ j

/-- A link from an older node to a newer node has its reverse link. -/
def LayerA (g : HNSWGraph) (l : Nat) : Prop :=
  ∀ i j, j < i → i ∈ g.nbrs l j → j ∈ g.nbrs l i

/-- A link from a newer node to an older node has its reverse link, unless the
list of the older node holds at least `cap` ids. -/
def LayerB (g : HNSWGraph) (l : Nat) : Prop :=
  ∀ i j, j < i → j ∈ g.nbrs l i → i ∈ g.nbrs l j ∨ g.cap l ≤ (g.nbrs l j).length

/-- The state of the graph after the first `n` of `N` points were inserted with the
drawn `layers`: the first `n` nodes are allocated with their layers, the
others are untouched, the entry point is a node of largest layer, and the
three layer invariants hold at every layer. -/
structure BuildInv (N : Nat) (layers : Nat → Nat) (n : Nat) (g : HNSWGraph) : Prop where
  len : g.nodes.length = N
  le : n ≤ N
  inserted : ∀ j, j < n →
    (g.nodes.getD j HNode.empty).neighbors.length = layers j + 1 ∧
    (g.nodes.getD j HNode.empty).maxLayer = layers j
  fresh : ∀ j, n ≤ j → (g.nodes.getD j HNode.empty).neighbors = []
  entry : 0 < n →
    g.entryPoint < n ∧ layers g.entryPoint = g.maxLayer ∧ ∀ j, j < n → layers j ≤ g.maxLayer
  valid : ∀ l, LayerV layers n g l
  fwd : ∀ l, LayerA g l
  bwd : ∀ l, LayerB g l

/-! ## A small concrete build: `M = 1`, four copies of the point `(0)`, all layers 0 -/

/-- Four copies of the point `(0)`. -/
def zeros4 : List DataVector := List.replicate 4 [0]

/-- The graph with `M = 1` after `data = dataset; nodes.resize(4)`. -/
def H0 : HNSWGraph :=
  ⟨[HNode.empty, HNode.empty, HNode.empty, HNode.empty], zeros4, 1, 1, 2, 0, 0⟩

/-- The graph after the insertion of point 0. -/
def H1 : HNSWGraph :=
  ⟨[⟨0, [[]], 0⟩, HNode.empty, HNode.empty, HNode.empty], zeros4, 1, 1, 2, 0, 0⟩

/-- The graph after the insertion of point 1. -/
def H2 : HNSWGraph :=
  ⟨[⟨0, [[1]], 0⟩, ⟨1, [[0]], 0⟩, HNode.empty, HNode.empty], zeros4, 1, 1, 2, 0, 0⟩

/-- The graph after the insertion of point 2. -/
def H3 : HNSWGraph :=
  ⟨[⟨0, [[1, 2]], 0⟩, ⟨1, [[0, 2]], 0⟩, ⟨2, [[0, 1]], 0⟩, HNode.empty], zeros4, 1, 1, 2, 0, 0⟩

/-- The graph after the insertion of point 3: node 3 lists all three older nodes,
none of them lists node 3. -/
def H4 : HNSWGraph :=
  ⟨[⟨0, [[1, 2]], 0⟩, ⟨1, [[0, 2]], 0⟩, ⟨2, [[0, 1]], 0⟩, ⟨3, [[0, 1, 2]], 0⟩],
    zeros4, 1, 1, 2, 0, 0⟩

/-- After `n` insertions of identical points that all drew layer 0, while no list
has reached its cap: node 0 is the entry point and every inserted node lists
all other inserted nodes in ascending order of id. -/
def ZeroComplete (n : Nat) (g : HNSWGraph) : Prop :=
  g.entryPoint = 0 ∧ g.maxLayer = 0 ∧
    ∀ j, g.nbrs 0 j = if j < n then (List.range n).erase j else []

/-- The graph built with the default `M = 16` from 34 copies of the point `(0)`, all
layer draws 0. -/
def zeroGraph34 : HNSWGraph :=
  (HNSWGraph.init 16).buildIndex (List.replicate 34 [0]) (fun _ => 0)

/-- All nodes of the tree rooted at a node, the root first. -/
def Node.subnodes : Node → List Node
  | .null => [.null]
  | .leaf points => [.leaf points]
  | .internal splitDim splitVal projDir left right =>
    .internal splitDim splitVal projDir left right :: (left.subnodes ++ right.subnodes)

/-- The field `splitDim` of a node (`-1` unless `build` assigned it). -/
def Node.splitDim : Node → Int
  | .internal splitDim _ _ _ _ => splitDim
  | _ => -1

/-! ## A second concrete build: default `M = 16`, the points `(2)` and `(1)`, layers 0 -/

/-- The dataset: point 0 is `(2)`, point 1 is `(1)`. -/
def farNear : List DataVector := [[2], [1]]

/-- The graph with `M = 16` after `data = dataset; nodes.resize(2)`. -/
def G0 : HNSWGraph := ⟨[HNode.empty, HNode.empty], farNear, 16, 16, 32, 0, 0⟩

/-- The graph after the insertion of point 0. -/
def G1 : HNSWGraph := ⟨[⟨0, [[]], 0⟩, HNode.empty], farNear, 16, 16, 32, 0, 0⟩

/-- The graph after the insertion of point 1: the two nodes list each other. -/
def G2 : HNSWGraph := ⟨[⟨0, [[1]], 0⟩, ⟨1, [[0]], 0⟩], farNear, 16, 16, 32, 0, 0⟩

/-! ## A concrete dataset for the RP-tree: 101 points on a line -/

/-- Fifty copies of the point `(-10)` followed by 51 copies of the point `(6)`. -/
def rpData : List DataVector := List.replicate 50 [-10] ++ List.replicate 51 [6]

/-- A generator whose first sample is `2` and whose later samples are `1`. -/
def rpGen : Gen := ⟨fun i => if i = 0 then 2 else 1, 0⟩

/-- The field `projDir` of a node (empty unless `build` assigned it). -/
def Node.projDir : Node → DataVector
  | .internal _ _ projDir _ _ => projDir
  | _ => []

/-- The local variables of `searchLayer` when its `while` loop has ended; the function
returns the ids of `nearest`, `visited` holds every node met during the search. -/
def HNSWGraph.searchLayerState (g : HNSWGraph) (query : DataVector) (entryPoints : List Nat)
    (layer : Nat) : SearchState :=
  searchLoop (g.expandStep query) (g.nbrs layer) (g.searchFuel entryPoints layer)
    (entryPoints.foldl (g.seedStep query) SearchState.start)

/-- What holds of the local variables of `searchLayer` throughout: `nearest` is in heap
order and carries the true distance of visited ids, and every visited node and
every candidate is at least as far from the query as some element of
`nearest`. -/
def MinInv (D : Nat → ℝ) (s : SearchState) : Prop :=
  s.nearest.Sorted (fun a b => ¬ pairLt b a) ∧
  (∀ x ∈ s.nearest, x.1 = D x.2 ∧ x.2 ∈ s.visited) ∧
  (∀ v ∈ s.visited, ∃ y ∈ s.nearest, y.1 ≤ D v) ∧
  (∀ c ∈ s.candidates, ∃ y ∈ s.nearest, y.1 ≤ -c.1)

/-- What holds of the local variables of `searchLayerGreedy` when every node is at
distance 0 from the query: `lowerBound` is 0, every candidate carries the
distance 0, and a visited id is in `nearest` unless `nearest` holds `ef` elements
(nothing is ever popped from `nearest` in that case). -/
def ZeroInv (ef : Int) (s : SearchState) : Prop :=
  s.lowerBound = 0 ∧ (∀ c ∈ s.candidates, c.1 = 0) ∧
  (∀ v ∈ s.visited, v ∈ s.nearest.map Prod.snd ∨ ef ≤ (s.nearest.length : Int))

/-! ## Scenario S3: 200 copies of the origin of dimension 4 -/

/-- The dataset of scenario S3. -/
def zeros200 : List DataVector := List.replicate 200 [0, 0, 0, 0]

/-- After `n` insertions: every inserted node lists, at layer 0, each of the first
five inserted nodes other than itself, and no layer-0 list holds more than `n`
ids. -/
def FirstFive (n : Nat) (g : HNSWGraph) : Prop :=
  (∀ j, j < n → ∀ x, x < min n 5 → x ≠ j → x ∈ g.nbrs 0 j) ∧
  (∀ j, (g.nbrs 0 j).length ≤ n)

/-- Every neighbor list holds no id twice and at most `max(cap, 200)` ids, where
`200` is the `ef` of the searches of `buildIndex`. -/
def NbrsOK (g : HNSWGraph) : Prop :=
  ∀ l j, (g.nbrs l j).Nodup ∧ ((g.nbrs l j).length : Int) ≤ max (g.cap l) 200

/-! ## The accesses of the layer searches -/

/-- One call of a layer search: the graph at the time of the call, the query, the
entry points, the layer, and the `ef` of `searchLayerGreedy` (`none` stands for
`searchLayer`). -/
structure SearchCall where
  graph : HNSWGraph
  query : DataVector
  entryPoints : List Nat
  layer : Nat
  ef : Option Int

/-- The body of the neighbor loop of the search that is called. -/
def SearchCall.step (c : SearchCall) : SearchState → Nat → SearchState :=
  match c.ef with
  | none => c.graph.expandStep c.query
  | some ef => c.graph.expandStepGreedy c.query ef

/-- The list that the call returns. -/
def SearchCall.result (c : SearchCall) : List Nat :=
  match c.ef with
  | none => c.graph.searchLayer c.query c.entryPoints c.layer
  | some ef => c.graph.searchLayerGreedy c.query c.entryPoints c.layer ef

/-- The ids `neighbor` for which the loop over a neighbor list reads
`data[neighbor]`: those not yet visited when their turn comes. -/
def stepDataReads (step : SearchState → Nat → SearchState) :
    List Nat → SearchState → List Nat
  | [], _ => []
  | n :: ns, s =>
    if n ∈ s.visited then stepDataReads step ns (step s n)
    else n :: stepDataReads step ns (step s n)

/-- The ids `curr` for which the `while` loop reads `nodes[curr].neighbors[layer]`
during its first `fuel` iterations. -/
def loopListReads (step : SearchState → Nat → SearchState) (nbrs : Nat → List Nat) :
    Nat → SearchState → List Nat
  | 0, _ => []
  | fuel + 1, s =>
    match s.candidates with
    | [] => []
    | top :: rest =>
      if -top.1 > s.lowerBound then []
      else top.2 ::
        loopListReads step nbrs fuel ((nbrs top.2).foldl step { s with candidates := rest })

/-- The ids for which the `while` loop reads `data[neighbor]` during its first `fuel`
iterations. -/
def loopDataReads (step : SearchState → Nat → SearchState) (nbrs : Nat → List Nat) :
    Nat → SearchState → List Nat
  | 0, _ => []
  | fuel + 1, s =>
    match s.candidates with
    | [] => []
    | top :: rest =>
      if -top.1 > s.lowerBound then []
      else stepDataReads step (nbrs top.2) { s with candidates := rest } ++
        loopDataReads step nbrs fuel ((nbrs top.2).foldl step { s with candidates := rest })

/-- The ids `curr` of the accesses `nodes[curr].neighbors[layer]` of a call, for a run
of at most `fuel` iterations of its `while` loop. -/
def SearchCall.listReads (c : SearchCall) (fuel : Nat) : List Nat :=
  loopListReads c.step (c.graph.nbrs c.layer) fuel
    (c.entryPoints.foldl (c.graph.seedStep c.query) SearchState.start)

/-- The ids of the accesses `data[id]` of a call: the entry points, then the new
neighbors met by the `while` loop. -/
def SearchCall.dataReads (c : SearchCall) (fuel : Nat) : List Nat :=
  c.entryPoints ++ loopDataReads c.step (c.graph.nbrs c.layer) fuel
    (c.entryPoints.foldl (c.graph.seedStep c.query) SearchState.start)

/-- The calls of `searchLayer` made by a descent loop over the layers `ls`, starting
from the entry points `eps`. -/
def HNSWGraph.descentCalls (g : HNSWGraph) (query : DataVector) :
    List Nat → List Nat → List SearchCall
  | [], _ => []
  | lc :: ls, eps =>
    ⟨g, query, eps, lc, none⟩ :: HNSWGraph.descentCalls g query ls (g.descentStep query eps lc)

/-- The calls of `searchLayerGreedy` made by the insertion loop of `buildIndex` for the
new node `i` over the layers `ls`. -/
def insertCalls (i : Nat) (query : DataVector) :
    List Nat → HNSWGraph × List Nat → List SearchCall
  | [], _ => []
  | lc :: ls, st =>
    ⟨st.1, query, st.2, lc, some 200⟩ ::
      insertCalls i query ls (HNSWGraph.insertLayer i query st lc)

/-- The layer searches called by one iteration of the main loop of `buildIndex`. -/
def HNSWGraph.insertNodeCalls (dataset : List DataVector) (g : HNSWGraph) (i layer : Nat) :
    List SearchCall :=
  if i = 0 then []
  else
    (g.allocNode i layer).descentCalls (dataset.getD i []) (layersAbove g.maxLayer layer)
        [g.entryPoint] ++
      insertCalls i (dataset.getD i []) (layersDownFrom (min layer g.maxLayer))
        (g.allocNode i layer,
          (layersAbove g.maxLayer layer).foldl
            ((g.allocNode i layer).descentStep (dataset.getD i [])) [g.entryPoint])

/-- The layer searches called by `buildIndex`, in order. -/
def HNSWGraph.buildCalls (g : HNSWGraph) (dataset : List DataVector) (layers : Nat → Nat) :
    List SearchCall :=
  ((List.range dataset.length).map fun i =>
    (g.buildUpTo dataset layers i).insertNodeCalls dataset i (layers i)).flatten

/-- The layer searches called by `searchKNearest`, in order. -/
def HNSWGraph.queryCalls (g : HNSWGraph) (query : DataVector) (k ef : Int) :
    List SearchCall :=
  g.descentCalls query (layersAbove g.maxLayer 0) [g.entryPoint] ++
    [⟨g, query, (layersAbove g.maxLayer 0).foldl (g.descentStep query) [g.entryPoint], 0,
      some (max ef k)⟩]

/-- Every stored id is another node that has a list at the layer where it is
stored (so it was inserted, with `maxLayer` at least that layer) and has a data
point. -/
def HNSWGraph.StoredOK (g : HNSWGraph) : Prop :=
  ∀ l j x, x ∈ g.nbrs l j →
    x ≠ j ∧ g.HasLayer x l ∧ l ≤ (g.nodes.getD x HNode.empty).maxLayer ∧ x < g.data.length

/-- The entry points of the call have a list at the layer of the call, and every
access `nodes[curr].neighbors[layer]` and `data[id]` of the call is in range,
however long its `while` loop runs. -/
def SearchCall.InRange (c : SearchCall) : Prop :=
  (∀ ep ∈ c.entryPoints, c.graph.HasLayer ep c.layer ∧
    c.layer ≤ (c.graph.nodes.getD ep HNode.empty).maxLayer ∧ ep < c.graph.data.length) ∧
  (∀ fuel, ∀ id ∈ c.listReads fuel, c.graph.HasLayer id c.layer) ∧
  (∀ fuel, ∀ id ∈ c.dataReads fuel, id < c.graph.data.length)

/-- The facts about a call from which its accesses are seen to be in range: the
graph has `N` nodes and data points, the first `m` nodes are allocated with
their drawn layers, the stored ids are valid for `m` nodes, at the layer
of the call they are among the first `n` nodes, and so are the distinct entry
points, which were drawn at least the layer of the call. -/
def CallOK (N : Nat) (layers : Nat → Nat) (m n : Nat) (c : SearchCall) : Prop :=
  c.graph.nodes.length = N ∧ c.graph.data.length = N ∧ n ≤ m ∧ m ≤ N ∧
  (∀ j, j < m → (c.graph.nodes.getD j HNode.empty).neighbors.length = layers j + 1 ∧
    (c.graph.nodes.getD j HNode.empty).maxLayer = layers j) ∧
  (∀ l, LayerV layers m c.graph l) ∧ LayerV layers n c.graph c.layer ∧
  c.entryPoints.Nodup ∧ (∀ ep ∈ c.entryPoints, ep < n ∧ c.layer ≤ layers ep)

/-! # Theorems -/

/-! ## Auxiliary facts: conversions and the heap model -/

theorem toSizeT_of_nonneg {k : Int} (h0 : 0 ≤ k) (h1 : k < 2 ^ 64) : toSizeT k = k.toNat := by
  unfold toSizeT
  rw [Int.emod_eq_of_lt h0 h1]

theorem toSizeT_pos {k : Int} (h1 : 1 ≤ k) (h2 : k < 2 ^ 31) : 1 ≤ toSizeT k := by
  rw [toSizeT_of_nonneg (by omega) (by omega)]
  omega

theorem toSizeT_neg {k : Int} (h1 : -(2 ^ 31) ≤ k) (h2 : k < 0) :
    toSizeT k = (2 ^ 64 + k).toNat := by
  unfold toSizeT
  omega

theorem PQ.push_sorted (d : ℝ) (pq : PQ) (h : pq.Sorted (fun a b => a ≥ b)) :
    (PQ.push d pq).Sorted (fun a b => a ≥ b) := by
  haveI : IsTotal ℝ (fun a b => a ≥ b) := ⟨fun a b => le_total b a⟩
  haveI : IsTrans ℝ (fun a b => a ≥ b) := ⟨fun a b c hab hbc => le_trans hbc hab⟩
  exact List.Sorted.orderedInsert d pq h

theorem PQ.push_length (d : ℝ) (pq : PQ) : (PQ.push d pq).length = pq.length + 1 :=
  List.orderedInsert_length _ pq d

theorem PQ.push_perm (d : ℝ) (pq : PQ) : (PQ.push d pq).Perm (d :: pq) :=
  List.perm_orderedInsert _ d pq

theorem PQ.pop_sorted (pq : PQ) (h : pq.Sorted (fun a b => a ≥ b)) :
    (PQ.pop pq).Sorted (fun a b => a ≥ b) :=
  List.Sorted.tail h

theorem leafScan_eq (target : DataVector) (k : Int) (points : List DataVector) (pq : PQ) :
    leafScan target k points pq = points.foldl (leafStep target k) pq := rfl

theorem leafStep_sorted (target : DataVector) (k : Int) (pq : PQ) (p : DataVector)
    (h : pq.Sorted (fun a b => a ≥ b)) : (leafStep target k pq p).Sorted (fun a b => a ≥ b) := by
  unfold leafStep
  split
  · exact PQ.pop_sorted _ (PQ.push_sorted _ _ h)
  · exact PQ.push_sorted _ _ h

theorem leafScan_sorted (target : DataVector) (k : Int) (points : List DataVector) :
    ∀ pq : PQ, pq.Sorted (fun a b => a ≥ b) →
      (leafScan target k points pq).Sorted (fun a b => a ≥ b) := by
  induction points with
  | nil => intro pq h; exact h
  | cons p ps ih =>
    intro pq h
    rw [leafScan_eq, List.foldl_cons, ← leafScan_eq]
    exact ih _ (leafStep_sorted target k pq p h)

theorem leafStep_length (target : DataVector) (k : Int) (pq : PQ) (p : DataVector)
    (h : pq.length ≤ toSizeT k) :
    (leafStep target k pq p).length = min (toSizeT k) (pq.length + 1) := by
  unfold leafStep
  split
  · rename_i hgt
    rw [PQ.push_length] at hgt
    simp only [PQ.pop, List.length_tail, PQ.push_length]
    omega
  · rename_i hgt
    rw [PQ.push_length] at hgt
    rw [PQ.push_length]
    omega

theorem leafScan_length (target : DataVector) (k : Int) (points : List DataVector) :
    ∀ pq : PQ, pq.length ≤ toSizeT k →
      (leafScan target k points pq).length = min (toSizeT k) (pq.length + points.length) := by
  induction points with
  | nil => intro pq h; simp [leafScan]; omega
  | cons p ps ih =>
    intro pq h
    rw [leafScan_eq, List.foldl_cons, ← leafScan_eq]
    have h1 := leafStep_length target k pq p h
    rw [ih _ (by rw [h1]; omega), h1, List.length_cons]
    omega

/-! ## The bounded heap keeps the smallest distances -/

theorem Keeps.nil (K : Nat) : Keeps K [] [] :=
  ⟨List.sorted_nil, Nat.zero_le _, [], by simp, by simp, by simp⟩

theorem Keeps.perm {K : Nat} {pq : PQ} {A B : List ℝ} (h : Keeps K pq A) (hp : A.Perm B) :
    Keeps K pq B := by
  obtain ⟨hs, hl, rest, hperm, hle, hfull⟩ := h
  exact ⟨hs, hl, rest, hperm.trans hp, hle, hfull⟩

theorem Keeps.step {K : Nat} {k : Int} (hk : toSizeT k = K) {pq : PQ} {A : List ℝ}
    (h : Keeps K pq A) (target p : DataVector) :
    Keeps K (leafStep target k pq p) (target.dist p :: A) := by
  obtain ⟨hs, hl, rest, hperm, hle, hfull⟩ := h
  refine ⟨leafStep_sorted target k pq p hs, ?_, ?_⟩
  · rw [leafStep_length target k pq p (by omega)]
    omega
  · unfold leafStep
    rw [PQ.push_length, hk]
    by_cases hgt : pq.length + 1 > K
    · rw [if_pos hgt]
      have hlen : pq.length = K := by omega
      cases pq with
      | nil =>
        refine ⟨target.dist p :: rest, ?_, ?_, ?_⟩
        · simpa [PQ.push, PQ.pop] using hperm
        · simp [PQ.push, PQ.pop]
        · intro _
          simp only [PQ.push, PQ.pop, List.orderedInsert, List.tail_cons]
          exact hlen
      | cons b l =>
        by_cases hdb : target.dist p ≥ b
        · refine ⟨target.dist p :: rest, ?_, ?_, ?_⟩
          · simp only [PQ.push, PQ.pop, List.orderedInsert, if_pos hdb, List.tail_cons]
            exact (List.perm_middle).trans (List.Perm.cons _ hperm)
          · simp only [PQ.push, PQ.pop, List.orderedInsert, if_pos hdb, List.tail_cons]
            intro r hr x hx
            rcases List.mem_cons.1 hx with rfl | hx
            · rcases List.mem_cons.1 hr with rfl | hr
              · exact hdb
              · exact le_trans (List.rel_of_sorted_cons hs r hr) hdb
            · exact hle r hr x hx
          · intro _
            simp only [PQ.push, PQ.pop, List.orderedInsert, if_pos hdb, List.tail_cons]
            exact hlen
        · refine ⟨b :: rest, ?_, ?_, ?_⟩
          · simp only [PQ.push, PQ.pop, List.orderedInsert, if_neg hdb, List.tail_cons]
            have h1 : (List.orderedInsert (fun a b => a ≥ b) (target.dist p) l).Perm
                (target.dist p :: l) := List.perm_orderedInsert _ _ _
            have h2 : (List.orderedInsert (fun a b => a ≥ b) (target.dist p) l ++ b :: rest).Perm
                ((target.dist p :: l) ++ b :: rest) := List.Perm.append_right _ h1
            refine h2.trans ?_
            have h3 : ((target.dist p :: l) ++ b :: rest).Perm
                (target.dist p :: (b :: l ++ rest)) := by
              simp only [List.cons_append]
              exact List.Perm.cons _ List.perm_middle
            exact h3.trans (List.Perm.cons _ hperm)
          · simp only [PQ.push, PQ.pop, List.orderedInsert, if_neg hdb, List.tail_cons]
            intro r hr x hx
            have hr1 : r = target.dist p ∨ r ∈ l := by
              have := (List.perm_orderedInsert (fun a b : ℝ => a ≥ b) (target.dist p) l).mem_iff.1 hr
              simpa using this
            have hdb1 : target.dist p ≤ b := le_of_lt (not_le.1 hdb)
            rcases List.mem_cons.1 hx with rfl | hx
            · rcases hr1 with rfl | hr1
              · exact hdb1
              · exact List.rel_of_sorted_cons hs r hr1
            · rcases hr1 with rfl | hr1
              · exact le_trans hdb1 (hle b (List.mem_cons_self _ _) x hx)
              · exact hle r (List.mem_cons_of_mem _ hr1) x hx
          · intro _
            simp only [PQ.push, PQ.pop, List.orderedInsert, if_neg hdb, List.tail_cons,
              List.orderedInsert_length]
            simpa using hlen
    · rw [if_neg hgt]
      have hrest : rest = [] := by
        by_contra hne
        have := hfull hne
        omega
      subst hrest
      refine ⟨[], ?_, by simp, by simp⟩
      simp only [List.append_nil] at hperm ⊢
      exact (PQ.push_perm _ _).trans (List.Perm.cons _ hperm)

theorem Keeps.scan {K : Nat} {k : Int} (hk : toSizeT k = K) (target : DataVector)
    (points : List DataVector) :
    ∀ (pq : PQ) (A : List ℝ), Keeps K pq A →
      Keeps K (leafScan target k points pq) (points.map target.dist ++ A) := by
  induction points with
  | nil => intro pq A h; simpa [leafScan] using h
  | cons p ps ih =>
    intro pq A h
    rw [leafScan_eq, List.foldl_cons, ← leafScan_eq]
    refine (ih _ _ (Keeps.step hk h target p)).perm ?_
    simp only [List.map_cons, List.cons_append]
    exact List.perm_middle

theorem Keeps.prune {K : Nat} {pq : PQ} {A B : List ℝ} (h : Keeps K pq A) (hfull : K ≤ pq.length)
    {t : ℝ} (ht : PQ.top pq = some t) (hB : ∀ x ∈ B, t ≤ x) : Keeps K pq (B ++ A) := by
  obtain ⟨hs, hl, rest, hperm, hle, -⟩ := h
  refine ⟨hs, hl, rest ++ B, ?_, ?_, fun _ => by omega⟩
  · rw [← List.append_assoc]
    exact (List.perm_append_comm).trans (List.Perm.append_left _ hperm)
  · intro r hr x hx
    rcases List.mem_append.1 hx with hx | hx
    · exact hle r hr x hx
    · cases pq with
      | nil => simp at hr
      | cons b l =>
        simp only [PQ.top, List.head?_cons, Option.some.injEq] at ht
        subst ht
        rcases List.mem_cons.1 hr with rfl | hr
        · exact hB x hx
        · exact le_trans (List.rel_of_sorted_cons hs r hr) (hB x hx)

theorem Keeps.result {K : Nat} {pq : PQ} {A : List ℝ} (h : Keeps K pq A) :
    pq.reverse = kSmallest K A := by
  obtain ⟨hs, hl, rest, hperm, hle, hfull⟩ := h
  have hrs : (pq.reverse).Sorted (fun a b => a ≤ b) := by
    unfold List.Sorted
    rw [List.pairwise_reverse]
    exact hs
  have hsort : A.insertionSort (fun a b => a ≤ b) =
      pq.reverse ++ rest.insertionSort (fun a b => a ≤ b) := by
    apply List.eq_of_perm_of_sorted (r := fun a b : ℝ => a ≤ b)
    · refine (List.perm_insertionSort _ A).trans (hperm.symm.trans ?_)
      exact List.Perm.append (List.reverse_perm pq).symm (List.perm_insertionSort _ rest).symm
    · exact List.sorted_insertionSort _ A
    · unfold List.Sorted
      rw [List.pairwise_append]
      refine ⟨hrs, List.sorted_insertionSort _ rest, ?_⟩
      intro a ha b hb
      exact hle a (List.mem_reverse.1 ha) b
        ((List.perm_insertionSort (fun a b : ℝ => a ≤ b) rest).mem_iff.1 hb)
  unfold kSmallest
  rw [hsort]
  by_cases hr : rest = []
  · subst hr
    simp only [List.insertionSort, List.append_nil]
    rw [List.take_of_length_le (by simpa using hl)]
  · have hlen := hfull hr
    rw [List.take_append_of_le_length (by simp [hlen])]
    rw [List.take_of_length_le (by simp [hlen])]

/-! ## Distances -/

theorem foldl_add_eq_sum {α : Type} (f : α → ℝ) (l : List α) :
    ∀ a : ℝ, l.foldl (fun s i => s + f i) a = a + (l.map f).sum := by
  induction l with
  | nil => intro a; simp
  | cons x xs ih =>
    intro a
    rw [List.foldl_cons, ih, List.map_cons, List.sum_cons, add_assoc]

theorem DataVector.dist_eq (v other : DataVector) : v.dist other = Real.sqrt (sqSum v other) := by
  unfold DataVector.dist sqSum
  rw [foldl_add_eq_sum, zero_add]

theorem DataVector.dist_nonneg (v other : DataVector) : 0 ≤ v.dist other := by
  rw [DataVector.dist_eq]
  exact Real.sqrt_nonneg _

/-- A coordinate difference never exceeds the distance. -/
theorem DataVector.abs_sub_le_dist (v other : DataVector) (i : Nat) (hi : i < v.length) :
    |v.getD i 0 - other.getD i 0| ≤ v.dist other := by
  rw [DataVector.dist_eq, ← Real.sqrt_sq_eq_abs]
  apply Real.sqrt_le_sqrt
  unfold sqSum
  apply List.single_le_sum
  · intro x hx
    obtain ⟨j, -, rfl⟩ := List.mem_map.1 hx
    exact sq_nonneg _
  · exact List.mem_map.2 ⟨i, List.mem_range.2 hi, rfl⟩

/-! ## The tree built by `KDTreeIndex::build` -/

theorem KDTreeIndex.chooseSplit_range_aux (l : List DataVector) (d : Nat) :
    ∀ (is : List Nat) (st : Int × ℝ), (∀ i ∈ is, i < d) → (0 ≤ st.1 ∧ st.1.toNat < d) →
      (0 ≤ (is.foldl (fun st i => if KDTreeIndex.spread l i > st.2
          then ((i : Int), KDTreeIndex.spread l i) else st) st).1 ∧
        (is.foldl (fun st i => if KDTreeIndex.spread l i > st.2
          then ((i : Int), KDTreeIndex.spread l i) else st) st).1.toNat < d) := by
  intro is
  induction is with
  | nil => intro st _ h; exact h
  | cons i is ih =>
    intro st his h
    rw [List.foldl_cons]
    apply ih
    · intro j hj
      exact his j (List.mem_cons_of_mem _ hj)
    · split
      · have := his i (List.mem_cons_self _ _)
        simp only [Int.toNat_ofNat]
        exact ⟨Int.natCast_nonneg _, this⟩
      · exact h

theorem KDTreeIndex.chooseSplit_range (l : List DataVector) (d : Nat) (hd : 0 < d)
    (hl : (l.headD []).length = d) :
    0 ≤ (KDTreeIndex.chooseSplit l).1 ∧ (KDTreeIndex.chooseSplit l).1.toNat < d := by
  unfold KDTreeIndex.chooseSplit
  apply KDTreeIndex.chooseSplit_range_aux l d
  · intro i hi
    rw [hl] at hi
    exact List.mem_range.1 hi
  · simpa using hd

theorem KDTreeIndex.build_leaf (S : StdSort) (l : List DataVector) (h : l.length ≤ 100) :
    KDTreeIndex.build S l = Node.leaf l := by
  rw [KDTreeIndex.build, dif_pos h]

theorem KDTreeIndex.build_internal (S : StdSort) (l : List DataVector) (h : ¬ l.length ≤ 100) :
    KDTreeIndex.build S l =
      Node.internal (KDTreeIndex.chooseSplit l).1
        (((S.sortBy (fun a => a.get (KDTreeIndex.chooseSplit l).1) l).getD (l.length / 2) []).get
          (KDTreeIndex.chooseSplit l).1) []
        (KDTreeIndex.build S
          ((S.sortBy (fun a => a.get (KDTreeIndex.chooseSplit l).1) l).take (l.length / 2)))
        (KDTreeIndex.build S
          ((S.sortBy (fun a => a.get (KDTreeIndex.chooseSplit l).1) l).drop (l.length / 2))) := by
  rw [KDTreeIndex.build, dif_neg h]

/-- The leaves of the KD-tree hold a permutation of the input. -/
theorem KDTreeIndex.build_leafPoints (S : StdSort) :
    ∀ (n : Nat) (l : List DataVector), l.length = n →
      ((KDTreeIndex.build S l).leafPoints).Perm l := by
  intro n
  induction n using Nat.strong_induction_on with
  | _ n ih =>
    intro l hl
    by_cases h : l.length ≤ 100
    · rw [KDTreeIndex.build_leaf S l h]
      exact List.Perm.refl _
    · rw [KDTreeIndex.build_internal S l h]
      simp only [Node.leafPoints]
      have hlen := (S.perm (fun a => a.get (KDTreeIndex.chooseSplit l).1) l).length_eq
      have h1 := ih ((S.sortBy (fun a => a.get (KDTreeIndex.chooseSplit l).1) l).take
        (l.length / 2)).length (by rw [List.length_take]; omega) _ rfl
      have h2 := ih ((S.sortBy (fun a => a.get (KDTreeIndex.chooseSplit l).1) l).drop
        (l.length / 2)).length (by rw [List.length_drop]; omega) _ rfl
      refine (List.Perm.append h1 h2).trans ?_
      rw [List.take_append_drop]
      exact S.perm _ l

/-- In a list sorted by `key`, the elements before position `mid` have a key at
most that of the element at `mid`, the elements from `mid` on at least that. -/
theorem sorted_split (key : DataVector → ℝ) (L : List DataVector) (mid : Nat)
    (hs : L.Sorted (fun a b => key a ≤ key b)) (hmid : mid < L.length) :
    (∀ p ∈ L.take mid, key p ≤ key (L.getD mid [])) ∧
    (∀ p ∈ L.drop mid, key (L.getD mid []) ≤ key p) := by
  have hget : L.getD mid [] = L[mid] := by
    rw [List.getD_eq_getElem?_getD, List.getElem?_eq_getElem hmid]
    rfl
  rw [hget]
  have hsplit : L = L.take mid ++ (L[mid] :: L.drop (mid + 1)) := by
    rw [← List.drop_eq_getElem_cons hmid, List.take_append_drop]
  have hs1 : (L.take mid ++ (L[mid] :: L.drop (mid + 1))).Pairwise
      (fun a b => key a ≤ key b) := by
    rw [← hsplit]
    exact hs
  rw [List.pairwise_append] at hs1
  obtain ⟨-, h2, h3⟩ := hs1
  constructor
  · intro p hp
    exact h3 p hp _ (List.mem_cons_self _ _)
  · intro p hp
    rw [List.drop_eq_getElem_cons hmid] at hp
    rcases List.mem_cons.1 hp with rfl | hp
    · exact le_refl _
    · exact List.rel_of_pairwise_cons h2 hp

theorem KDTreeIndex.build_ordered (S : StdSort) (d : Nat) (hd : 0 < d) :
    ∀ (n : Nat) (l : List DataVector), l.length = n → (∀ p ∈ l, p.length = d) →
      (KDTreeIndex.build S l).KDOrdered d := by
  intro n
  induction n using Nat.strong_induction_on with
  | _ n ih =>
    intro l hl hdim
    by_cases h : l.length ≤ 100
    · rw [KDTreeIndex.build_leaf S l h]
      trivial
    · rw [KDTreeIndex.build_internal S l h]
      have hperm := S.perm (fun a => a.get (KDTreeIndex.chooseSplit l).1) l
      have hlen := hperm.length_eq
      have hsorted := S.sorted (fun a => a.get (KDTreeIndex.chooseSplit l).1) l
      have hhead : (l.headD []).length = d := by
        cases l with
        | nil => simp at h
        | cons a t => exact hdim a (List.mem_cons_self _ _)
      have hsp := sorted_split (fun a => a.get (KDTreeIndex.chooseSplit l).1) _ (l.length / 2)
        hsorted (by omega)
      have hdimS : ∀ p ∈ S.sortBy (fun a => a.get (KDTreeIndex.chooseSplit l).1) l,
          p.length = d := fun p hp => hdim p (hperm.mem_iff.1 hp)
      refine ⟨KDTreeIndex.chooseSplit_range l d hd hhead, ?_, ?_, ?_, ?_⟩
      · intro p hp
        have hp1 := (KDTreeIndex.build_leafPoints S _ _ rfl).mem_iff.1 hp
        exact hsp.1 p hp1
      · intro p hp
        have hp1 := (KDTreeIndex.build_leafPoints S _ _ rfl).mem_iff.1 hp
        exact hsp.2 p hp1
      · exact ih ((S.sortBy (fun a => a.get (KDTreeIndex.chooseSplit l).1) l).take
          (l.length / 2)).length (by rw [List.length_take]; omega) _ rfl
          (fun p hp => hdimS p (List.mem_of_mem_take hp))
      · exact ih ((S.sortBy (fun a => a.get (KDTreeIndex.chooseSplit l).1) l).drop
          (l.length / 2)).length (by rw [List.length_drop]; omega) _ rfl
          (fun p hp => hdimS p (List.mem_of_mem_drop hp))

/-! ## Exactness of the KD-tree search -/

theorem descend_keeps {K : Nat} {k : Int} (hk : toSizeT k = K) (hK : 1 ≤ K) (gap : ℝ)
    (near far : PQ → Option PQ) (Dn Df : List ℝ)
    (hnear : ∀ pq A, Keeps K pq A → ∃ pq1, near pq = some pq1 ∧ Keeps K pq1 (Dn ++ A))
    (hfar : ∀ pq A, Keeps K pq A → ∃ pq1, far pq = some pq1 ∧ Keeps K pq1 (Df ++ A))
    (hgap : ∀ x ∈ Df, gap ≤ x) (pq : PQ) (A : List ℝ) (h : Keeps K pq A) :
    ∃ pq2, descend k gap near far pq = some pq2 ∧ Keeps K pq2 (Df ++ (Dn ++ A)) := by
  obtain ⟨pq1, h1, hk1⟩ := hnear pq A h
  unfold descend
  rw [h1, Option.some_bind, hk]
  by_cases hlt : pq1.length < K
  · rw [if_pos hlt]
    exact hfar pq1 _ hk1
  · rw [if_neg hlt]
    cases pq1 with
    | nil => simp at hlt; omega
    | cons t l =>
      simp only [PQ.top, List.head?_cons]
      by_cases hg : gap < t
      · rw [if_pos hg]
        exact hfar _ _ hk1
      · rw [if_neg hg]
        refine ⟨t :: l, rfl, ?_⟩
        exact Keeps.prune hk1 (by omega) rfl
          (fun x hx => le_trans (not_lt.1 hg) (hgap x hx))

theorem KDTreeIndex.searchRecursive_keeps {K : Nat} {k : Int} (hk : toSizeT k = K) (hK : 1 ≤ K)
    (d : Nat) (target : DataVector) (ht : target.length = d) :
    ∀ node : Node, node.KDOrdered d → ∀ (pq : PQ) (A : List ℝ), Keeps K pq A →
      ∃ pq1, KDTreeIndex.searchRecursive node target k pq = some pq1 ∧
        Keeps K pq1 (node.leafPoints.map target.dist ++ A) := by
  intro node
  induction node with
  | null =>
    intro _ pq A h
    exact ⟨pq, rfl, by simpa [Node.leafPoints] using h⟩
  | leaf points =>
    intro _ pq A h
    exact ⟨_, rfl, Keeps.scan hk target points pq A h⟩
  | internal splitDim splitVal projDir left right ihl ihr =>
    intro hord pq A h
    obtain ⟨⟨hsd0, hsd⟩, hleft, hright, hol, hor⟩ := hord
    have hcoord : ∀ p : DataVector, |target.get splitDim - p.get splitDim| ≤ target.dist p := by
      intro p
      exact DataVector.abs_sub_le_dist target p splitDim.toNat (by omega)
    simp only [KDTreeIndex.searchRecursive, Node.leafPoints, List.map_append]
    by_cases hc : target.get splitDim ≤ splitVal
    · rw [if_pos hc]
      obtain ⟨pq2, h2, hk2⟩ := descend_keeps hk hK |target.get splitDim - splitVal|
        (fun q => KDTreeIndex.searchRecursive left target k q)
        (fun q => KDTreeIndex.searchRecursive right target k q)
        (left.leafPoints.map target.dist) (right.leafPoints.map target.dist)
        (fun pq A h => ihl hol pq A h) (fun pq A h => ihr hor pq A h)
        (by
          intro x hx
          obtain ⟨p, hp, rfl⟩ := List.mem_map.1 hx
          have h1 := hright p hp
          have h2 := hcoord p
          rw [abs_le] at h2
          rw [abs_le]
          constructor <;> linarith [h2.1, h2.2, DataVector.dist_nonneg target p])
        pq A h
      refine ⟨pq2, h2, hk2.perm ?_⟩
      rw [← List.append_assoc]
      exact List.Perm.append_right _ List.perm_append_comm
    · rw [if_neg hc]
      obtain ⟨pq2, h2, hk2⟩ := descend_keeps hk hK |target.get splitDim - splitVal|
        (fun q => KDTreeIndex.searchRecursive right target k q)
        (fun q => KDTreeIndex.searchRecursive left target k q)
        (right.leafPoints.map target.dist) (left.leafPoints.map target.dist)
        (fun pq A h => ihr hor pq A h) (fun pq A h => ihl hol pq A h)
        (by
          intro x hx
          obtain ⟨p, hp, rfl⟩ := List.mem_map.1 hx
          have h1 := hleft p hp
          have h2 := hcoord p
          rw [abs_le] at h2
          rw [abs_le]
          constructor <;> linarith [h2.1, h2.2, DataVector.dist_nonneg target p, not_le.1 hc])
        pq A h
      refine ⟨pq2, h2, ?_⟩
      rw [List.append_assoc]
      exact hk2

theorem kSmallest_length (K : Nat) (A : List ℝ) : (kSmallest K A).length = min K A.length := by
  unfold kSmallest
  rw [List.length_take, List.length_insertionSort]

theorem kSmallest_sorted (K : Nat) (A : List ℝ) : (kSmallest K A).Sorted (fun a b => a ≤ b) := by
  unfold kSmallest
  exact List.Pairwise.sublist (List.take_sublist _ _) (List.sorted_insertionSort _ A)

/-- C1: on a dataset of `N` vectors of common dimension `d ≥ 1` (`N ≥ 1` is not even
needed), for a query of dimension `d` and an `int` `k ≥ 1`,
`KDTreeIndex::searchKNearest` after `Maketree` returns the brute-force k-NN
list: the `min(k, N)` smallest distances in ascending order. -/
theorem KDTreeIndex.searchKNearest_exact (S : StdSort) (dataset : List DataVector) (d : Nat)
    (q : DataVector) (k : Int) (hd : 1 ≤ d)
    (hdim : ∀ p ∈ dataset, p.length = d) (hq : q.length = d) (hk : 1 ≤ k) (hk31 : k < 2 ^ 31) :
    KDTreeIndex.searchKNearest (KDTreeIndex.Maketree S dataset) q k
        = some (bruteForceKNN dataset q k.toNat) ∧
      (bruteForceKNN dataset q k.toNat).length = min k.toNat dataset.length ∧
      (bruteForceKNN dataset q k.toNat).Sorted (fun a b => a ≤ b) := by
  have hK : toSizeT k = k.toNat := toSizeT_of_nonneg (by omega) (by omega)
  obtain ⟨pq1, h1, hk1⟩ := KDTreeIndex.searchRecursive_keeps hK (by omega) d q hq
    (KDTreeIndex.build S dataset) (KDTreeIndex.build_ordered S d hd _ dataset rfl hdim)
    [] [] (Keeps.nil _)
  refine ⟨?_, ?_, kSmallest_sorted _ _⟩
  · unfold KDTreeIndex.searchKNearest KDTreeIndex.Maketree
    rw [h1, Option.map_some', hk1.result, List.append_nil]
    unfold bruteForceKNN kSmallest
    congr 2
    apply List.eq_of_perm_of_sorted (r := fun a b : ℝ => a ≤ b)
    · refine (List.perm_insertionSort _ _).trans (List.Perm.trans ?_ (List.perm_insertionSort _ _).symm)
      exact List.Perm.map _ (KDTreeIndex.build_leafPoints S _ dataset rfl)
    · exact List.sorted_insertionSort _ _
    · exact List.sorted_insertionSort _ _
  · unfold bruteForceKNN
    rw [kSmallest_length, List.length_map]

theorem sum_map_range (f : Nat → ℝ) (n : Nat) :
    ((List.range n).map f).sum = ∑ i in Finset.range n, f i := by
  induction n with
  | zero => simp
  | succ n ih =>
    rw [List.range_succ, List.map_append, List.sum_append, ih, Finset.sum_range_succ]
    simp

theorem dist_zero_stdBasis (d : Nat) :
    ∀ p ∈ stdBasis d, DataVector.dist (List.replicate d 0) p = 1 := by
  intro p hp
  unfold stdBasis at hp
  obtain ⟨i, hi, rfl⟩ := List.mem_map.1 hp
  rw [List.mem_range] at hi
  rw [DataVector.dist_eq]
  unfold sqSum
  have : ((List.range (List.replicate d (0:ℝ)).length).map fun j =>
      ((List.replicate d (0:ℝ)).getD j 0 -
        ((List.range d).map fun j => if i = j then (1 : ℝ) else 0).getD j 0) ^ 2)
      = (List.range d).map fun j => if i = j then (1 : ℝ) else 0 := by
    rw [List.length_replicate]
    apply List.map_congr_left
    intro j hj
    rw [List.mem_range] at hj
    simp [List.getD_eq_getElem?_getD, hj]
  rw [this, sum_map_range, Finset.sum_ite_eq]
  simp [hi]

theorem bruteForce_stdBasis : bruteForceKNN (stdBasis 10) (List.replicate 10 0) 3 = [1, 1, 1] := by
  unfold bruteForceKNN kSmallest
  have h : (stdBasis 10).map (DataVector.dist (List.replicate 10 0)) = List.replicate 10 1 := by
    rw [List.eq_replicate_iff]
    refine ⟨by simp [stdBasis], ?_⟩
    intro b hb
    obtain ⟨p, hp, rfl⟩ := List.mem_map.1 hb
    exact dist_zero_stdBasis 10 p hp
  rw [h]
  simp [List.replicate, List.insertionSort, List.orderedInsert]

/-- Scenario S1 as an instance of C1: for the ten standard-basis vectors of `R^10` and
the zero query, the KD-tree 3-NN distances are `[1, 1, 1]`. -/
theorem KDTreeIndex.searchKNearest_exact_witness :
    KDTreeIndex.searchKNearest (KDTreeIndex.Maketree StdSort.insertion (stdBasis 10))
      (List.replicate 10 0) 3 = some [1, 1, 1] := by
  rw [← bruteForce_stdBasis]
  exact (KDTreeIndex.searchKNearest_exact StdSort.insertion (stdBasis 10) 10
    (List.replicate 10 0) 3 (by decide) (by simp [stdBasis]) (by simp) (by decide)
    (by decide)).1

/-! ## Size of the result of the tree searches -/

theorem descend_length {K : Nat} {k : Int} (hk : toSizeT k = K) (hK : 1 ≤ K) (gap : ℝ)
    (near far : PQ → Option PQ) (n1 n2 : Nat)
    (hnear : ∀ pq : PQ, pq.length ≤ K →
      ∃ pq1 : PQ, near pq = some pq1 ∧ pq1.length = min K (pq.length + n1))
    (hfar : ∀ pq : PQ, pq.length ≤ K →
      ∃ pq1 : PQ, far pq = some pq1 ∧ pq1.length = min K (pq.length + n2))
    (pq : PQ) (h : pq.length ≤ K) :
    ∃ pq2 : PQ, descend k gap near far pq = some pq2 ∧
      pq2.length = min K (pq.length + (n1 + n2)) := by
  obtain ⟨pq1, h1, hl1⟩ := hnear pq h
  unfold descend
  rw [h1, Option.some_bind, hk]
  by_cases hlt : pq1.length < K
  · rw [if_pos hlt]
    obtain ⟨pq2, h2, hl2⟩ := hfar pq1 (by omega)
    exact ⟨pq2, h2, by omega⟩
  · rw [if_neg hlt]
    cases pq1 with
    | nil => simp at hlt; omega
    | cons t l =>
      simp only [PQ.top, List.head?_cons]
      by_cases hg : gap < t
      · rw [if_pos hg]
        obtain ⟨pq2, h2, hl2⟩ := hfar (t :: l) (by omega)
        exact ⟨pq2, h2, by omega⟩
      · rw [if_neg hg]
        exact ⟨t :: l, rfl, by omega⟩

theorem kd_searchRecursive_length {K : Nat} {k : Int} (hk : toSizeT k = K) (hK : 1 ≤ K)
    (target : DataVector) :
    ∀ (node : Node) (pq : PQ), pq.length ≤ K →
      ∃ pq1 : PQ, KDTreeIndex.searchRecursive node target k pq = some pq1 ∧
        pq1.length = min K (pq.length + node.leafPoints.length) := by
  intro node
  induction node with
  | null => intro pq h; exact ⟨pq, rfl, by simp [Node.leafPoints]; omega⟩
  | leaf points =>
    intro pq h
    exact ⟨_, rfl, by rw [leafScan_length target k points pq (by omega), hk]; rfl⟩
  | internal splitDim splitVal projDir left right ihl ihr =>
    intro pq h
    simp only [KDTreeIndex.searchRecursive, Node.leafPoints, List.length_append]
    by_cases hc : target.get splitDim ≤ splitVal
    · rw [if_pos hc]
      exact descend_length hk hK _ _ _ _ _ ihl ihr pq h
    · rw [if_neg hc, Nat.add_comm left.leafPoints.length]
      exact descend_length hk hK _ _ _ _ _ ihr ihl pq h

theorem rp_searchRecursive_length {K : Nat} {k : Int} (hk : toSizeT k = K) (hK : 1 ≤ K)
    (target : DataVector) :
    ∀ (node : Node) (pq : PQ), pq.length ≤ K →
      ∃ pq1 : PQ, RPTreeIndex.searchRecursive node target k pq = some pq1 ∧
        pq1.length = min K (pq.length + node.leafPoints.length) := by
  intro node
  induction node with
  | null => intro pq h; exact ⟨pq, rfl, by simp [Node.leafPoints]; omega⟩
  | leaf points =>
    intro pq h
    exact ⟨_, rfl, by rw [leafScan_length target k points pq (by omega), hk]; rfl⟩
  | internal splitDim splitVal projDir left right ihl ihr =>
    intro pq h
    simp only [RPTreeIndex.searchRecursive, Node.leafPoints, List.length_append]
    by_cases hc : target.dot projDir ≤ splitVal
    · rw [if_pos hc]
      exact descend_length hk hK _ _ _ _ _ ihl ihr pq h
    · rw [if_neg hc, Nat.add_comm left.leafPoints.length]
      exact descend_length hk hK _ _ _ _ _ ihr ihl pq h

theorem rp_build_leaf (S : StdSort) (g : Gen) (l : List DataVector) (h : l.length ≤ 100) :
    RPTreeIndex.build S g l = (Node.leaf l, g) := by
  rw [RPTreeIndex.build, dif_pos h]

theorem rp_build_internal (S : StdSort) (g : Gen) (l : List DataVector) (h : ¬ l.length ≤ 100) :
    RPTreeIndex.build S g l =
      (Node.internal (-1)
        (((S.sortBy (fun a => a.dot (g.drawDir (l.headD []).length).1) l).getD
          (l.length / 2) []).dot (g.drawDir (l.headD []).length).1)
        (g.drawDir (l.headD []).length).1
        (RPTreeIndex.build S (g.drawDir (l.headD []).length).2
          ((S.sortBy (fun a => a.dot (g.drawDir (l.headD []).length).1) l).take
            (l.length / 2))).1
        (RPTreeIndex.build S
          (RPTreeIndex.build S (g.drawDir (l.headD []).length).2
            ((S.sortBy (fun a => a.dot (g.drawDir (l.headD []).length).1) l).take
              (l.length / 2))).2
          ((S.sortBy (fun a => a.dot (g.drawDir (l.headD []).length).1) l).drop
            (l.length / 2))).1,
        (RPTreeIndex.build S
          (RPTreeIndex.build S (g.drawDir (l.headD []).length).2
            ((S.sortBy (fun a => a.dot (g.drawDir (l.headD []).length).1) l).take
              (l.length / 2))).2
          ((S.sortBy (fun a => a.dot (g.drawDir (l.headD []).length).1) l).drop
            (l.length / 2))).2) := by
  rw [RPTreeIndex.build, dif_neg h]

/-- The leaves of the RP-tree hold a permutation of the input, whatever the
generator delivers. -/
theorem rp_build_leafPoints (S : StdSort) :
    ∀ (n : Nat) (g : Gen) (l : List DataVector), l.length = n →
      ((RPTreeIndex.build S g l).1.leafPoints).Perm l := by
  intro n
  induction n using Nat.strong_induction_on with
  | _ n ih =>
    intro g l hl
    by_cases h : l.length ≤ 100
    · rw [rp_build_leaf S g l h]
      exact List.Perm.refl _
    · rw [rp_build_internal S g l h]
      simp only [Node.leafPoints]
      have hlen := (S.perm (fun a => a.dot (g.drawDir (l.headD []).length).1) l).length_eq
      have h1 := ih ((S.sortBy (fun a => a.dot (g.drawDir (l.headD []).length).1) l).take
        (l.length / 2)).length (by rw [List.length_take]; omega)
        (g.drawDir (l.headD []).length).2 _ rfl
      have h2 := ih ((S.sortBy (fun a => a.dot (g.drawDir (l.headD []).length).1) l).drop
        (l.length / 2)).length (by rw [List.length_drop]; omega)
        (RPTreeIndex.build S (g.drawDir (l.headD []).length).2
            ((S.sortBy (fun a => a.dot (g.drawDir (l.headD []).length).1) l).take
              (l.length / 2))).2 _ rfl
      refine (List.Perm.append h1 h2).trans ?_
      rw [List.take_append_drop]
      exact S.perm _ l

/-- C2: for every dataset of `N` vectors, every query and every `int` `k ≥ 1`, the
list returned by `searchKNearest` of the built KD-tree, and of the built
RP-tree for every state of the direction generator, has exactly `min(k, N)`
elements. -/
theorem tree_searchKNearest_length (S : StdSort) (g : Gen) (dataset : List DataVector)
    (q : DataVector) (k : Int) (hk : 1 ≤ k) (hk31 : k < 2 ^ 31) :
    (∃ res, KDTreeIndex.searchKNearest (KDTreeIndex.Maketree S dataset) q k = some res ∧
      res.length = min k.toNat dataset.length) ∧
    (∃ res, RPTreeIndex.searchKNearest (RPTreeIndex.Maketree S g dataset).1 q k = some res ∧
      res.length = min k.toNat dataset.length) := by
  have hK : toSizeT k = k.toNat := toSizeT_of_nonneg (by omega) (by omega)
  constructor
  · obtain ⟨pq1, h1, hl1⟩ := kd_searchRecursive_length hK (by omega) q
      (KDTreeIndex.build S dataset) [] (by simp)
    refine ⟨pq1.reverse, ?_, ?_⟩
    · unfold KDTreeIndex.searchKNearest KDTreeIndex.Maketree
      rw [h1, Option.map_some']
    · rw [List.length_reverse, hl1, (KDTreeIndex.build_leafPoints S _ dataset rfl).length_eq]
      simp
  · obtain ⟨pq1, h1, hl1⟩ := rp_searchRecursive_length hK (by omega) q
      (RPTreeIndex.build S g dataset).1 [] (by simp)
    refine ⟨pq1.reverse, ?_, ?_⟩
    · unfold RPTreeIndex.searchKNearest RPTreeIndex.Maketree
      rw [h1, Option.map_some']
    · rw [List.length_reverse, hl1, (rp_build_leafPoints S _ g dataset rfl).length_eq]
      simp

/-- An instance of C2 with `k > N`: three points, `k = 5`, both trees return all three
distances. -/
theorem tree_searchKNearest_length_witness :
    (∃ res, KDTreeIndex.searchKNearest
        (KDTreeIndex.Maketree StdSort.insertion [[0, 0], [1, 0], [0, 1]]) [0, 0] 5 = some res ∧
      res.length = 3) ∧
    (∃ res, RPTreeIndex.searchKNearest
        (RPTreeIndex.Maketree StdSort.insertion ⟨fun _ => 1, 0⟩ [[0, 0], [1, 0], [0, 1]]).1
        [0, 0] 5 = some res ∧
      res.length = 3) :=
  tree_searchKNearest_length StdSort.insertion ⟨fun _ => 1, 0⟩ [[0, 0], [1, 0], [0, 1]] [0, 0] 5
    (by decide) (by decide)

/-- C6: the multiset union of the leaf buckets of the tree produced by
`KDTreeIndex::build`, and by `RPTreeIndex::build` for every state of the
direction generator, equals the multiset of input vectors. -/
theorem tree_build_exhaustive (S : StdSort) (g : Gen) (dataset : List DataVector) :
    ((KDTreeIndex.build S dataset).leafPoints : Multiset DataVector) = (dataset : Multiset _) ∧
    ((RPTreeIndex.build S g dataset).1.leafPoints : Multiset DataVector)
      = (dataset : Multiset _) :=
  ⟨Quotient.sound (KDTreeIndex.build_leafPoints S _ dataset rfl),
    Quotient.sound (rp_build_leafPoints S _ g dataset rfl)⟩

/-! ## `k ≤ 0` in the tree searches -/

/-- C5 (evaluation at the failing input): with `k = -1` the comparison
`pq.size() > k` converts `k` to `2^64 - 1`, nothing is ever popped, and the
search over the one-point dataset `{(0)}` returns the one distance `[0]` instead
of the empty list, for the KD-tree and for the RP-tree. -/
theorem tree_search_negative_k (S : StdSort) (g : Gen) :
    KDTreeIndex.searchKNearest (KDTreeIndex.Maketree S [[0]]) [0] (-1) = some [0] ∧
    RPTreeIndex.searchKNearest (RPTreeIndex.Maketree S g [[0]]).1 [0] (-1) = some [0] := by
  have h1 : toSizeT (-1) = 2 ^ 64 - 1 := by
    rw [toSizeT_neg (by decide) (by decide)]
    rfl
  have hd : DataVector.dist [0] [0] = 0 := by
    simp [DataVector.dist]
  constructor
  · unfold KDTreeIndex.searchKNearest KDTreeIndex.Maketree
    rw [KDTreeIndex.build_leaf S _ (by simp)]
    simp [KDTreeIndex.searchRecursive, leafScan, PQ.push, h1, hd]
  · unfold RPTreeIndex.searchKNearest RPTreeIndex.Maketree
    rw [rp_build_leaf S g _ (by simp)]
    simp [RPTreeIndex.searchRecursive, leafScan, PQ.push, h1, hd]

theorem leafScan_zero (target : DataVector) (points : List DataVector) :
    leafScan target 0 points [] = [] := by
  have h := leafScan_length target 0 points [] (by simp)
  have h0 : toSizeT 0 = 0 := rfl
  rw [h0] at h
  exact List.length_eq_zero.1 (by omega)

theorem descend_zero (gap : ℝ) (near far : PQ → Option PQ)
    (hnear : near [] = none ∨ near [] = some []) : descend 0 gap near far [] = none := by
  unfold descend
  rcases hnear with h | h
  · rw [h]
    rfl
  · rw [h]
    rfl

theorem kd_searchRecursive_zero (target : DataVector) :
    ∀ node : Node, KDTreeIndex.searchRecursive node target 0 [] = none ∨
      KDTreeIndex.searchRecursive node target 0 [] = some [] := by
  intro node
  induction node with
  | null => right; rfl
  | leaf points => right; simp [KDTreeIndex.searchRecursive, leafScan_zero]
  | internal splitDim splitVal projDir left right ihl ihr =>
    left
    simp only [KDTreeIndex.searchRecursive]
    split
    · exact descend_zero _ _ _ ihl
    · exact descend_zero _ _ _ ihr

theorem rp_searchRecursive_zero (target : DataVector) :
    ∀ node : Node, RPTreeIndex.searchRecursive node target 0 [] = none ∨
      RPTreeIndex.searchRecursive node target 0 [] = some [] := by
  intro node
  induction node with
  | null => right; rfl
  | leaf points => right; simp [RPTreeIndex.searchRecursive, leafScan_zero]
  | internal splitDim splitVal projDir left right ihl ihr =>
    left
    simp only [RPTreeIndex.searchRecursive]
    split
    · exact descend_zero _ _ _ ihl
    · exact descend_zero _ _ _ ihr

/-- With `k = 0` on more than 100 points the root is an internal node and the
search evaluates `pq.top()` on the empty queue (undefined behaviour), in both
trees; on at most 100 points it returns the empty list. -/
theorem tree_search_zero_k (S : StdSort) (g : Gen) (dataset : List DataVector)
    (q : DataVector) :
    (100 < dataset.length →
      KDTreeIndex.searchKNearest (KDTreeIndex.Maketree S dataset) q 0 = none ∧
      RPTreeIndex.searchKNearest (RPTreeIndex.Maketree S g dataset).1 q 0 = none) ∧
    (dataset.length ≤ 100 →
      KDTreeIndex.searchKNearest (KDTreeIndex.Maketree S dataset) q 0 = some [] ∧
      RPTreeIndex.searchKNearest (RPTreeIndex.Maketree S g dataset).1 q 0 = some []) := by
  constructor
  · intro h
    have h' : ¬ dataset.length ≤ 100 := by omega
    constructor
    · unfold KDTreeIndex.searchKNearest KDTreeIndex.Maketree
      rw [KDTreeIndex.build_internal S _ h']
      simp only [KDTreeIndex.searchRecursive]
      split
      · rw [descend_zero _ _ _ (kd_searchRecursive_zero q _)]
        rfl
      · rw [descend_zero _ _ _ (kd_searchRecursive_zero q _)]
        rfl
    · unfold RPTreeIndex.searchKNearest RPTreeIndex.Maketree
      rw [rp_build_internal S g _ h']
      simp only [RPTreeIndex.searchRecursive]
      split
      · rw [descend_zero _ _ _ (rp_searchRecursive_zero q _)]
        rfl
      · rw [descend_zero _ _ _ (rp_searchRecursive_zero q _)]
        rfl
  · intro h
    constructor
    · unfold KDTreeIndex.searchKNearest KDTreeIndex.Maketree
      rw [KDTreeIndex.build_leaf S _ h]
      simp [KDTreeIndex.searchRecursive, leafScan_zero]
    · unfold RPTreeIndex.searchKNearest RPTreeIndex.Maketree
      rw [rp_build_leaf S g _ h]
      simp [RPTreeIndex.searchRecursive, leafScan_zero]

/-! ## `DataVector::dist` is a metric -/

theorem dist_eq_euclidean (n : Nat) (a b : DataVector) (ha : a.length = n) :
    a.dist b = dist (DataVector.toEuclidean n a) (DataVector.toEuclidean n b) := by
  rw [DataVector.dist_eq, EuclideanSpace.dist_eq]
  congr 1
  unfold sqSum
  rw [ha, sum_map_range, Finset.sum_range]
  apply Finset.sum_congr rfl
  intro i _
  rw [Real.dist_eq, sq_abs]
  rfl

/-- C10: `DataVector::dist` over the reals is a metric on vectors of equal length:
`dist(a, a) = 0`, `dist(a, b) = dist(b, a)` and the triangle inequality. -/
theorem DataVector.dist_metric (a b c : DataVector) (hab : a.length = b.length)
    (_hbc : b.length = c.length) :
    a.dist a = 0 ∧ a.dist b = b.dist a ∧ a.dist c ≤ a.dist b + b.dist c := by
  refine ⟨?_, ?_, ?_⟩
  · rw [dist_eq_euclidean a.length a a rfl, dist_self]
  · rw [dist_eq_euclidean a.length a b rfl, dist_eq_euclidean a.length b a hab.symm, dist_comm]
  · rw [dist_eq_euclidean a.length a c rfl, dist_eq_euclidean a.length a b rfl,
      dist_eq_euclidean a.length b c hab.symm]
    exact dist_triangle _ _ _

/-- An instance of C10 in dimension 2. -/
theorem DataVector.dist_metric_witness :
    DataVector.dist [0, 0] [0, 0] = 0 ∧
    DataVector.dist [0, 0] [3, 4] = DataVector.dist [3, 4] [0, 0] ∧
    DataVector.dist [0, 0] [6, 8] ≤ DataVector.dist [0, 0] [3, 4] + DataVector.dist [3, 4] [6, 8] :=
  DataVector.dist_metric [0, 0] [3, 4] [6, 8] (by decide) (by decide)

/-! ## The `while` loop of the layer searches terminates within its fuel -/

theorem expandStep_ok (g : HNSWGraph) (query : DataVector) : StepOK (g.expandStep query) := by
  intro s n
  constructor
  · intro h
    unfold HNSWGraph.expandStep
    rw [if_pos h]
  · intro h
    unfold HNSWGraph.expandStep
    rw [if_neg h]
    split
    · exact ⟨rfl, by simp [maxPush, List.orderedInsert_length]⟩
    · exact ⟨rfl, by simp⟩

theorem expandStepGreedy_ok (g : HNSWGraph) (query : DataVector) (ef : Int) :
    StepOK (g.expandStepGreedy query ef) := by
  intro s n
  constructor
  · intro h
    unfold HNSWGraph.expandStepGreedy
    rw [if_pos h]
  · intro h
    unfold HNSWGraph.expandStepGreedy
    rw [if_neg h]
    split
    · split
      · exact ⟨rfl, by simp [maxPush, List.orderedInsert_length]⟩
      · exact ⟨rfl, by simp [maxPush, List.orderedInsert_length]⟩
    · exact ⟨rfl, by simp⟩

theorem searchMeasure_step (step : SearchState → Nat → SearchState) (hstep : StepOK step)
    (U : List Nat) (s : SearchState) (n : Nat) (hn : n ∈ U) :
    searchMeasure U (step s n) ≤ searchMeasure U s := by
  by_cases hv : n ∈ s.visited
  · rw [(hstep s n).1 hv]
  · obtain ⟨h1, h2⟩ := (hstep s n).2 hv
    unfold searchMeasure
    rw [h1]
    have hmem : n ∈ U.dedup.filter fun x => x ∉ s.visited := by
      rw [List.mem_filter]
      exact ⟨List.mem_dedup.2 hn, by simpa using hv⟩
    have hnd : (U.dedup.filter fun x => x ∉ s.visited).Nodup :=
      List.Nodup.filter _ (List.nodup_dedup U)
    have hfil : (U.dedup.filter fun x => x ∉ n :: s.visited) =
        (U.dedup.filter fun x => x ∉ s.visited).erase n := by
      rw [List.Nodup.erase_eq_filter hnd, List.filter_filter]
      apply List.filter_congr
      intro x _
      by_cases hx : x = n
      · subst hx
        simp
      · simp [hx]
    rw [hfil, List.length_erase_of_mem hmem]
    have hpos : 0 < (U.dedup.filter fun x => x ∉ s.visited).length :=
      List.length_pos_of_mem hmem
    omega

theorem searchMeasure_foldl (step : SearchState → Nat → SearchState) (hstep : StepOK step)
    (U : List Nat) :
    ∀ (ns : List Nat) (s : SearchState), (∀ n ∈ ns, n ∈ U) →
      searchMeasure U (ns.foldl step s) ≤ searchMeasure U s := by
  intro ns
  induction ns with
  | nil => intro s _; exact le_refl _
  | cons n ns ih =>
    intro s h
    rw [List.foldl_cons]
    exact le_trans (ih _ (fun x hx => h x (List.mem_cons_of_mem _ hx)))
      (searchMeasure_step step hstep U s n (h n (List.mem_cons_self _ _)))

/-- Once the fuel exceeds the measure, more fuel does not change the result:
the loop has left through its own exit. -/
theorem searchLoop_fuel (step : SearchState → Nat → SearchState) (hstep : StepOK step)
    (nbrs : Nat → List Nat) (U : List Nat) (hU : ∀ c, ∀ n ∈ nbrs c, n ∈ U) :
    ∀ (fuel : Nat) (s : SearchState), searchMeasure U s < fuel →
      ∀ extra, searchLoop step nbrs (fuel + extra) s = searchLoop step nbrs fuel s := by
  intro fuel
  induction fuel with
  | zero => intro s h; omega
  | succ fuel ih =>
    intro s h extra
    have e : fuel + 1 + extra = (fuel + extra) + 1 := by omega
    rw [e]
    unfold searchLoop
    cases hc : s.candidates with
    | nil => rfl
    | cons top rest =>
      simp only
      split
      · rfl
      · apply ih
        have h1 := searchMeasure_foldl step hstep U (nbrs top.2) { s with candidates := rest }
          (hU top.2)
        have h2 : searchMeasure U { s with candidates := rest } + 1 = searchMeasure U s := by
          unfold searchMeasure
          rw [hc]
          simp only [List.length_cons]
          omega
        omega

theorem nbrs_subset_layerIds (g : HNSWGraph) (layer : Nat) :
    ∀ c, ∀ n ∈ g.nbrs layer c, n ∈ g.layerIds layer := by
  intro c n hn
  unfold HNSWGraph.nbrs at hn
  unfold HNSWGraph.layerIds
  rw [List.mem_flatten]
  by_cases hc : c < g.nodes.length
  · refine ⟨_, List.mem_map.2 ⟨g.nodes[c], List.getElem_mem _, rfl⟩, ?_⟩
    rw [List.getD_eq_getElem _ _ hc] at hn
    exact hn
  · rw [List.getD_eq_default g.nodes HNode.empty (not_lt.1 hc)] at hn
    simp [HNode.empty] at hn

theorem layerIds_length (g : HNSWGraph) (layer : Nat) :
    (g.layerIds layer).length =
      (g.nodes.map fun nd => (nd.neighbors.getD layer []).length).sum := by
  unfold HNSWGraph.layerIds
  rw [List.length_flatten, List.map_map]
  rfl

theorem seed_candidates_length (g : HNSWGraph) (query : DataVector) :
    ∀ (eps : List Nat) (s : SearchState),
      (eps.foldl (g.seedStep query) s).candidates.length = s.candidates.length + eps.length := by
  intro eps
  induction eps with
  | nil => intro s; rfl
  | cons ep eps ih =>
    intro s
    rw [List.foldl_cons, ih]
    simp only [HNSWGraph.seedStep, maxPush, List.orderedInsert_length, List.length_cons]
    omega

theorem searchMeasure_seed_lt (g : HNSWGraph) (query : DataVector) (eps : List Nat)
    (layer : Nat) :
    searchMeasure (g.layerIds layer) (eps.foldl (g.seedStep query) SearchState.start)
      < g.searchFuel eps layer := by
  have hc := seed_candidates_length g query eps SearchState.start
  have h0 : SearchState.start.candidates.length = 0 := rfl
  have h1 : ((g.layerIds layer).dedup.filter fun x =>
      x ∉ (eps.foldl (g.seedStep query) SearchState.start).visited).length
      ≤ (g.layerIds layer).length :=
    le_trans (List.length_filter_le _ _) (List.Sublist.length_le (List.dedup_sublist _))
  unfold searchMeasure HNSWGraph.searchFuel
  rw [hc, h0, ← layerIds_length]
  omega

/-- The fuel given to the loop in `searchLayer` and `searchLayerGreedy` is never
exhausted: with any larger fuel both searches return the same list. -/
theorem searchLayer_fuel_sufficient (g : HNSWGraph) (query : DataVector) (eps : List Nat)
    (layer : Nat) (ef : Int) (extra : Nat) :
    searchLoop (g.expandStep query) (g.nbrs layer) (g.searchFuel eps layer + extra)
        (eps.foldl (g.seedStep query) SearchState.start)
      = searchLoop (g.expandStep query) (g.nbrs layer) (g.searchFuel eps layer)
        (eps.foldl (g.seedStep query) SearchState.start) ∧
    searchLoop (g.expandStepGreedy query ef) (g.nbrs layer) (g.searchFuel eps layer + extra)
        (eps.foldl (g.seedStep query) SearchState.start)
      = searchLoop (g.expandStepGreedy query ef) (g.nbrs layer) (g.searchFuel eps layer)
        (eps.foldl (g.seedStep query) SearchState.start) :=
  ⟨searchLoop_fuel _ (expandStep_ok g query) _ _ (nbrs_subset_layerIds g layer) _ _
      (searchMeasure_seed_lt g query eps layer) extra,
    searchLoop_fuel _ (expandStepGreedy_ok g query ef) _ _ (nbrs_subset_layerIds g layer) _ _
      (searchMeasure_seed_lt g query eps layer) extra⟩

/-! ## Invariants of the layer searches -/

theorem pairLe_total (a b : ℝ × Nat) : ¬ pairLt b a ∨ ¬ pairLt a b := by
  unfold pairLt
  rcases lt_trichotomy a.1 b.1 with h | h | h
  · left
    intro h1
    rcases h1 with h1 | ⟨h1, _⟩
    · exact lt_asymm h h1
    · exact h1 h
  · rcases Nat.lt_or_ge b.2 a.2 with h2 | h2
    · right
      intro h1
      rcases h1 with h1 | ⟨_, h1⟩
      · exact absurd h1 (by rw [h]; exact lt_irrefl _)
      · omega
    · left
      intro h1
      rcases h1 with h1 | ⟨_, h1⟩
      · exact absurd h1 (by rw [h]; exact lt_irrefl _)
      · omega
  · right
    intro h1
    rcases h1 with h1 | ⟨h1, _⟩
    · exact lt_asymm h h1
    · exact h1 h

theorem pairLe_trans (a b c : ℝ × Nat) (hab : ¬ pairLt b a) (hbc : ¬ pairLt c b) :
    ¬ pairLt c a := by
  unfold pairLt at *
  simp only [not_or, not_and, not_lt] at *
  obtain ⟨h1, h2⟩ := hab
  obtain ⟨h3, h4⟩ := hbc
  refine ⟨le_trans h1 h3, fun h5 => ?_⟩
  have e1 : a.1 = b.1 := le_antisymm h1 (le_trans h3 h5)
  have e2 : b.1 = c.1 := le_antisymm h3 (le_trans h5 h1)
  exact le_trans (h2 (le_of_eq e1.symm)) (h4 (le_of_eq e2.symm))

theorem pairLe_fst (a b : ℝ × Nat) (h : ¬ pairLt b a) : a.1 ≤ b.1 := by
  unfold pairLt at h
  simp only [not_or, not_and, not_lt] at h
  exact h.1

theorem minPush_sorted (x : ℝ × Nat) (h : List (ℝ × Nat))
    (hs : h.Sorted (fun a b => ¬ pairLt b a)) :
    (minPush x h).Sorted (fun a b => ¬ pairLt b a) := by
  haveI : IsTotal (ℝ × Nat) (fun a b => ¬ pairLt b a) := ⟨fun a b => pairLe_total a b⟩
  haveI : IsTrans (ℝ × Nat) (fun a b => ¬ pairLt b a) := ⟨fun a b c => pairLe_trans a b c⟩
  exact List.Sorted.orderedInsert x h hs

theorem mem_minPush (x y : ℝ × Nat) (h : List (ℝ × Nat)) :
    y ∈ minPush x h ↔ y = x ∨ y ∈ h := by
  unfold minPush
  rw [(List.perm_orderedInsert _ x h).mem_iff, List.mem_cons]

theorem mem_maxPush (x y : ℝ × Nat) (h : List (ℝ × Nat)) :
    y ∈ maxPush x h ↔ y = x ∨ y ∈ h := by
  unfold maxPush
  rw [(List.perm_orderedInsert _ x h).mem_iff, List.mem_cons]

theorem minPush_length (x : ℝ × Nat) (h : List (ℝ × Nat)) :
    (minPush x h).length = h.length + 1 :=
  List.orderedInsert_length _ h x

theorem minPush_ids_nodup (x : ℝ × Nat) (h : List (ℝ × Nat)) (hn : (h.map Prod.snd).Nodup)
    (hx : ∀ y ∈ h, y.2 ≠ x.2) : ((minPush x h).map Prod.snd).Nodup := by
  have hp : ((minPush x h).map Prod.snd).Perm (x.2 :: h.map Prod.snd) :=
    (List.Perm.map _ (List.perm_orderedInsert _ x h)).trans (by simp)
  rw [hp.nodup_iff, List.nodup_cons]
  refine ⟨?_, hn⟩
  intro hmem
  obtain ⟨y, hy, hyx⟩ := List.mem_map.1 hmem
  exact hx y hy hyx

/-- Adding the pair of a new id to `nearest` and `candidates` keeps the invariant. -/
theorem SearchInv.accept {D : Nat → ℝ} {P : Nat → Prop} {s : SearchState}
    (h : SearchInv D P s) (n : Nat) (hn : n ∉ s.visited) (hP : P n) (lb : ℝ) :
    SearchInv D P ⟨n :: s.visited, maxPush (-(D n), n) s.candidates,
      minPush (D n, n) s.nearest, lb⟩ := by
  obtain ⟨h1, h2, h3, h4, h5, h6⟩ := h
  refine ⟨minPush_sorted _ _ h1, ?_, ?_, ?_, ?_, ?_⟩
  · intro x hx
    rcases (mem_minPush _ _ _).1 hx with rfl | hx
    · rfl
    · exact h2 x hx
  · apply minPush_ids_nodup _ _ h3
    intro y hy hyn
    have hyv := h4 y hy
    rw [hyn] at hyv
    exact hn hyv
  · intro x hx
    rcases (mem_minPush _ _ _).1 hx with rfl | hx
    · exact List.mem_cons_self _ _
    · exact List.mem_cons_of_mem _ (h4 x hx)
  · intro x hx
    rcases (mem_minPush _ _ _).1 hx with rfl | hx
    · exact hP
    · exact h5 x hx
  · intro x hx
    rcases (mem_maxPush _ _ _).1 hx with rfl | hx
    · exact hP
    · exact h6 x hx

/-- Dropping the top of `nearest` and changing `lowerBound` keeps the invariant. -/
theorem SearchInv.popNearest {D : Nat → ℝ} {P : Nat → Prop} {s : SearchState}
    (h : SearchInv D P s) (lb : ℝ) :
    SearchInv D P ⟨s.visited, s.candidates, s.nearest.tail, lb⟩ := by
  obtain ⟨h1, h2, h3, h4, h5, h6⟩ := h
  refine ⟨List.Sorted.tail h1, fun x hx => h2 x (List.mem_of_mem_tail hx), ?_,
    fun x hx => h4 x (List.mem_of_mem_tail hx), fun x hx => h5 x (List.mem_of_mem_tail hx), h6⟩
  rw [List.map_tail]
  exact List.Nodup.sublist (List.tail_sublist _) h3

/-- Marking one more id as visited keeps the invariant. -/
theorem SearchInv.visit {D : Nat → ℝ} {P : Nat → Prop} {s : SearchState}
    (h : SearchInv D P s) (n : Nat) :
    SearchInv D P { s with visited := n :: s.visited } := by
  obtain ⟨h1, h2, h3, h4, h5, h6⟩ := h
  exact ⟨h1, h2, h3, fun x hx => List.mem_cons_of_mem _ (h4 x hx), h5, h6⟩

theorem SearchInv.seed (g : HNSWGraph) (query : DataVector) (P : Nat → Prop)
    (s : SearchState) (h : SearchInv (g.distTo query) P s) (ep : Nat) (hn : ep ∉ s.visited)
    (hP : P ep) : SearchInv (g.distTo query) P (g.seedStep query s ep) :=
  h.accept ep hn hP _

theorem SearchInv.seeds (g : HNSWGraph) (query : DataVector) (P : Nat → Prop) :
    ∀ (eps : List Nat) (s : SearchState), SearchInv (g.distTo query) P s → eps.Nodup →
      (∀ ep ∈ eps, ep ∉ s.visited ∧ P ep) →
      SearchInv (g.distTo query) P (eps.foldl (g.seedStep query) s) := by
  intro eps
  induction eps with
  | nil => intro s h _ _; exact h
  | cons ep eps ih =>
    intro s h hnd hall
    rw [List.foldl_cons]
    rw [List.nodup_cons] at hnd
    apply ih _ (h.seed g query P s ep (hall ep (List.mem_cons_self _ _)).1
      (hall ep (List.mem_cons_self _ _)).2) hnd.2
    intro e he
    refine ⟨?_, (hall e (List.mem_cons_of_mem _ he)).2⟩
    simp only [HNSWGraph.seedStep, List.mem_cons, not_or]
    refine ⟨?_, (hall e (List.mem_cons_of_mem _ he)).1⟩
    rintro rfl
    exact hnd.1 he

theorem SearchInv.expand (g : HNSWGraph) (query : DataVector) (P : Nat → Prop)
    (s : SearchState) (h : SearchInv (g.distTo query) P s) (n : Nat) (hP : P n) :
    SearchInv (g.distTo query) P (g.expandStep query s n) := by
  unfold HNSWGraph.expandStep
  split
  · exact h
  · rename_i hv
    split
    · exact h.accept n hv hP _
    · exact h.visit n

theorem SearchInv.expandGreedy (g : HNSWGraph) (query : DataVector) (ef : Int)
    (P : Nat → Prop) (s : SearchState) (h : SearchInv (g.distTo query) P s) (n : Nat)
    (hP : P n) : SearchInv (g.distTo query) P (g.expandStepGreedy query ef s n) := by
  unfold HNSWGraph.expandStepGreedy
  split
  · exact h
  · rename_i hv
    split
    · split
      · exact (h.accept n hv hP 0).popNearest _
      · exact h.accept n hv hP _
    · exact h.visit n

theorem SearchInv.foldl (step : SearchState → Nat → SearchState) (D : Nat → ℝ)
    (P : Nat → Prop) (hstep : ∀ s n, SearchInv D P s → P n → SearchInv D P (step s n)) :
    ∀ (ns : List Nat) (s : SearchState), SearchInv D P s → (∀ n ∈ ns, P n) →
      SearchInv D P (ns.foldl step s) := by
  intro ns
  induction ns with
  | nil => intro s h _; exact h
  | cons n ns ih =>
    intro s h hall
    rw [List.foldl_cons]
    exact ih _ (hstep s n h (hall n (List.mem_cons_self _ _)))
      (fun x hx => hall x (List.mem_cons_of_mem _ hx))

theorem SearchInv.loop (step : SearchState → Nat → SearchState) (nbrs : Nat → List Nat)
    (D : Nat → ℝ) (P : Nat → Prop)
    (hstep : ∀ s n, SearchInv D P s → P n → SearchInv D P (step s n))
    (hP : ∀ c, P c → ∀ n ∈ nbrs c, P n) :
    ∀ (fuel : Nat) (s : SearchState), SearchInv D P s →
      SearchInv D P (searchLoop step nbrs fuel s) := by
  intro fuel
  induction fuel with
  | zero => intro s h; exact h
  | succ fuel ih =>
    intro s h
    unfold searchLoop
    cases hc : s.candidates with
    | nil => exact h
    | cons top rest =>
      simp only
      split
      · exact h
      · apply ih
        obtain ⟨h1, h2, h3, h4, h5, h6⟩ := h
        have htop : P top.2 := h6 top (by rw [hc]; exact List.mem_cons_self _ _)
        apply SearchInv.foldl step D P hstep
        · exact ⟨h1, h2, h3, h4, h5,
            fun x hx => h6 x (by rw [hc]; exact List.mem_cons_of_mem _ hx)⟩
        · exact hP top.2 htop

theorem SearchInv.start (D : Nat → ℝ) (P : Nat → Prop) : SearchInv D P SearchState.start := by
  refine ⟨List.sorted_nil, ?_, ?_, ?_, ?_, ?_⟩ <;> simp [SearchState.start]

theorem expandStep_nearest_length (g : HNSWGraph) (query : DataVector) (s : SearchState)
    (n : Nat) : s.nearest.length ≤ (g.expandStep query s n).nearest.length := by
  unfold HNSWGraph.expandStep
  split
  · exact le_refl _
  · split
    · simp only [minPush_length]
      omega
    · exact le_refl _

theorem expandStepGreedy_nearest_length (g : HNSWGraph) (query : DataVector) (ef : Int)
    (s : SearchState) (n : Nat) :
    s.nearest.length ≤ (g.expandStepGreedy query ef s n).nearest.length := by
  unfold HNSWGraph.expandStepGreedy
  split
  · exact le_refl _
  · split
    · split
      · simp only [List.length_tail, minPush_length]
        omega
      · simp only [minPush_length]
        omega
    · exact le_refl _

theorem foldl_nearest_length (step : SearchState → Nat → SearchState)
    (hstep : ∀ s n, s.nearest.length ≤ (step s n).nearest.length) :
    ∀ (ns : List Nat) (s : SearchState), s.nearest.length ≤ (ns.foldl step s).nearest.length := by
  intro ns
  induction ns with
  | nil => intro s; exact le_refl _
  | cons n ns ih =>
    intro s
    rw [List.foldl_cons]
    exact le_trans (hstep s n) (ih _)

theorem searchLoop_nearest_length (step : SearchState → Nat → SearchState)
    (nbrs : Nat → List Nat) (hstep : ∀ s n, s.nearest.length ≤ (step s n).nearest.length) :
    ∀ (fuel : Nat) (s : SearchState),
      s.nearest.length ≤ (searchLoop step nbrs fuel s).nearest.length := by
  intro fuel
  induction fuel with
  | zero => intro s; exact le_refl _
  | succ fuel ih =>
    intro s
    unfold searchLoop
    cases hc : s.candidates with
    | nil => exact le_refl _
    | cons top rest =>
      simp only
      split
      · exact le_refl _
      · exact le_trans (foldl_nearest_length step hstep (nbrs top.2) { s with candidates := rest })
          (ih _)

theorem seed_nearest_length (g : HNSWGraph) (query : DataVector) :
    ∀ (eps : List Nat) (s : SearchState),
      (eps.foldl (g.seedStep query) s).nearest.length = s.nearest.length + eps.length := by
  intro eps
  induction eps with
  | nil => intro s; rfl
  | cons ep eps ih =>
    intro s
    rw [List.foldl_cons, ih]
    simp only [HNSWGraph.seedStep, minPush_length, List.length_cons]
    omega

theorem nearest_dists_sorted {D : Nat → ℝ} {P : Nat → Prop} {s : SearchState}
    (h : SearchInv D P s) : ((s.nearest.map Prod.snd).map D).Sorted (fun a b => a ≤ b) := by
  obtain ⟨h1, h2, -⟩ := h
  have e : (s.nearest.map Prod.snd).map D = s.nearest.map Prod.fst := by
    rw [List.map_map]
    apply List.map_congr_left
    intro x hx
    exact (h2 x hx).symm
  rw [e]
  unfold List.Sorted
  rw [List.pairwise_map]
  exact List.Pairwise.imp (fun {a b} hab => pairLe_fst a b hab) h1

/-- What `searchLayerGreedy` returns: distinct ids, each an entry point or met in
a neighbor list of the layer (so with the property `P` these respect), at
least as many as there are entry points, in ascending order of distance. -/
theorem searchLayerGreedy_spec (g : HNSWGraph) (query : DataVector) (eps : List Nat)
    (layer : Nat) (ef : Int) (P : Nat → Prop) (hP : ∀ c, P c → ∀ n ∈ g.nbrs layer c, P n)
    (hnd : eps.Nodup) (hep : ∀ ep ∈ eps, P ep) :
    (g.searchLayerGreedy query eps layer ef).Nodup ∧
    (∀ x ∈ g.searchLayerGreedy query eps layer ef, P x) ∧
    eps.length ≤ (g.searchLayerGreedy query eps layer ef).length ∧
    ((g.searchLayerGreedy query eps layer ef).map (g.distTo query)).Sorted
      (fun a b => a ≤ b) := by
  have hinv := SearchInv.loop (g.expandStepGreedy query ef) (g.nbrs layer) (g.distTo query) P
    (fun s n h hn => SearchInv.expandGreedy g query ef P s h n hn) hP
    (g.searchFuel eps layer) _
    (SearchInv.seeds g query P eps _ (SearchInv.start _ P) hnd
      (fun ep h => ⟨by simp [SearchState.start], hep ep h⟩))
  have hlen := searchLoop_nearest_length (g.expandStepGreedy query ef) (g.nbrs layer)
    (expandStepGreedy_nearest_length g query ef) (g.searchFuel eps layer)
    (eps.foldl (g.seedStep query) SearchState.start)
  rw [seed_nearest_length] at hlen
  unfold HNSWGraph.searchLayerGreedy
  refine ⟨hinv.2.2.1, ?_, ?_, nearest_dists_sorted hinv⟩
  · intro x hx
    obtain ⟨y, hy, rfl⟩ := List.mem_map.1 hx
    exact hinv.2.2.2.2.1 y hy
  · rw [List.length_map]
    simpa [SearchState.start] using hlen

/-- What `searchLayer` returns: the same as for `searchLayerGreedy`. -/
theorem searchLayer_spec (g : HNSWGraph) (query : DataVector) (eps : List Nat)
    (layer : Nat) (P : Nat → Prop) (hP : ∀ c, P c → ∀ n ∈ g.nbrs layer c, P n)
    (hnd : eps.Nodup) (hep : ∀ ep ∈ eps, P ep) :
    (g.searchLayer query eps layer).Nodup ∧
    (∀ x ∈ g.searchLayer query eps layer, P x) ∧
    eps.length ≤ (g.searchLayer query eps layer).length ∧
    ((g.searchLayer query eps layer).map (g.distTo query)).Sorted (fun a b => a ≤ b) := by
  have hinv := SearchInv.loop (g.expandStep query) (g.nbrs layer) (g.distTo query) P
    (fun s n h hn => SearchInv.expand g query P s h n hn) hP
    (g.searchFuel eps layer) _
    (SearchInv.seeds g query P eps _ (SearchInv.start _ P) hnd
      (fun ep h => ⟨by simp [SearchState.start], hep ep h⟩))
  have hlen := searchLoop_nearest_length (g.expandStep query) (g.nbrs layer)
    (expandStep_nearest_length g query) (g.searchFuel eps layer)
    (eps.foldl (g.seedStep query) SearchState.start)
  rw [seed_nearest_length] at hlen
  unfold HNSWGraph.searchLayer
  refine ⟨hinv.2.2.1, ?_, ?_, nearest_dists_sorted hinv⟩
  · intro x hx
    obtain ⟨y, hy, rfl⟩ := List.mem_map.1 hx
    exact hinv.2.2.2.2.1 y hy
  · rw [List.length_map]
    simpa [SearchState.start] using hlen

/-- The descent keeps a single entry point with the property `P`. -/
theorem descentStep_spec (g : HNSWGraph) (query : DataVector) (eps : List Nat) (lc : Nat)
    (P : Nat → Prop) (hP : ∀ c, P c → ∀ n ∈ g.nbrs lc c, P n)
    (h1 : eps.length = 1) (hep : ∀ ep ∈ eps, P ep) :
    (g.descentStep query eps lc).length = 1 ∧ ∀ x ∈ g.descentStep query eps lc, P x := by
  have hnd : eps.Nodup := by
    match eps, h1 with
    | [e], _ => simp
  have hs := searchLayer_spec g query eps lc P hP hnd hep
  unfold HNSWGraph.descentStep
  cases hr : g.searchLayer query eps lc with
  | nil => exact ⟨h1, hep⟩
  | cons best rest =>
    refine ⟨rfl, ?_⟩
    intro x hx
    rw [List.mem_singleton] at hx
    subst hx
    exact hs.2.1 x (by rw [hr]; exact List.mem_cons_self _ _)

/-! ## The effect of linking on the neighbor lists -/

theorem getD_set {α : Type} (l : List α) (j x : Nat) (v e : α) :
    (l.set j v).getD x e = if x = j ∧ j < l.length then v else l.getD x e := by
  rw [List.getD_eq_getElem?_getD, List.getD_eq_getElem?_getD, List.getElem?_set]
  by_cases hx : j = x
  · subst hx
    by_cases hj : j < l.length
    · simp [hj]
    · simp [hj, List.getElem?_eq_none (not_lt.1 hj)]
  · have hx1 : ¬ x = j := fun h => hx h.symm
    simp [hx, hx1]

theorem Frame.refl (g : HNSWGraph) : Frame g g :=
  ⟨rfl, fun _ => ⟨rfl, rfl⟩, rfl, rfl, rfl, rfl, rfl, rfl⟩

theorem Frame.trans {g g1 g2 : HNSWGraph} (h1 : Frame g g1) (h2 : Frame g1 g2) : Frame g g2 := by
  obtain ⟨a1, a2, a3, a4, a5, a6, a7, a8⟩ := h1
  obtain ⟨b1, b2, b3, b4, b5, b6, b7, b8⟩ := h2
  exact ⟨b1.trans a1, fun j => ⟨(b2 j).1.trans (a2 j).1, (b2 j).2.trans (a2 j).2⟩, b3.trans a3,
    b4.trans a4, b5.trans a5, b6.trans a6, b7.trans a7, b8.trans a8⟩

theorem Frame.hasLayer {g g1 : HNSWGraph} (h : Frame g g1) (x l : Nat) :
    g1.HasLayer x l ↔ g.HasLayer x l := by
  unfold HNSWGraph.HasLayer
  rw [h.1, (h.2.1 x).1]

theorem Frame.cap {g g1 : HNSWGraph} (h : Frame g g1) (l : Nat) : g1.cap l = g.cap l := by
  unfold HNSWGraph.cap
  rw [h.2.2.2.2.2.1, h.2.2.2.2.1]

theorem updNeighbors_frame (g : HNSWGraph) (j lc : Nat) (f : List Nat → List Nat) :
    Frame g (g.updNeighbors j lc f) := by
  refine ⟨by simp [HNSWGraph.updNeighbors], ?_, rfl, rfl, rfl, rfl, rfl, rfl⟩
  intro x
  simp only [HNSWGraph.updNeighbors, getD_set]
  split
  · rename_i h
    rw [h.1]
    simp
  · exact ⟨rfl, rfl⟩

theorem nbrs_updNeighbors (g : HNSWGraph) (j lc : Nat) (f : List Nat → List Nat) (l x : Nat) :
    (g.updNeighbors j lc f).nbrs l x =
      if x = j ∧ l = lc ∧ g.HasLayer j lc then f (g.nbrs lc j) else g.nbrs l x := by
  unfold HNSWGraph.HasLayer
  have e : (g.updNeighbors j lc f).nbrs l x =
      ((g.nodes.set j ⟨(g.nodes.getD j HNode.empty).id,
        (g.nodes.getD j HNode.empty).neighbors.set lc (f (g.nbrs lc j)),
        (g.nodes.getD j HNode.empty).maxLayer⟩).getD x HNode.empty).neighbors.getD l [] := rfl
  rw [e, getD_set]
  by_cases hx : x = j ∧ j < g.nodes.length
  · rw [if_pos hx]
    simp only [getD_set]
    obtain ⟨rfl, hj⟩ := hx
    by_cases hl : l = lc ∧ lc < (g.nodes.getD x HNode.empty).neighbors.length
    · rw [if_pos hl, if_pos ⟨rfl, hl.1, hj, hl.2⟩]
    · rw [if_neg hl, if_neg (fun h => hl ⟨h.2.1, h.2.2.2⟩)]
      rfl
  · rw [if_neg hx, if_neg (fun h => hx ⟨h.1, h.2.2.1⟩)]
    rfl

theorem nbrs_empty_of_not_hasLayer (g : HNSWGraph) (x l : Nat) (h : ¬ g.HasLayer x l) :
    g.nbrs l x = [] := by
  unfold HNSWGraph.HasLayer at h
  unfold HNSWGraph.nbrs
  by_cases hx : x < g.nodes.length
  · have hl : (g.nodes.getD x HNode.empty).neighbors.length ≤ l := by
      by_contra hc
      exact h ⟨hx, by omega⟩
    exact List.getD_eq_default _ _ hl
  · rw [List.getD_eq_default g.nodes HNode.empty (not_lt.1 hx)]
    rfl

theorem linkStep_frame (i lc : Nat) (cap : Int) (g : HNSWGraph) (c : Nat) :
    Frame g (HNSWGraph.linkStep i lc cap g c) := by
  unfold HNSWGraph.linkStep
  split
  · exact ((updNeighbors_frame _ _ _ _).trans (updNeighbors_frame _ _ _ _)).trans
      (updNeighbors_frame _ _ _ _)
  · exact (updNeighbors_frame _ _ _ _).trans (updNeighbors_frame _ _ _ _)

/-- The neighbor lists after one pass of the link loop body, for a candidate `c`
other than the new node `i`, both with a list at layer `lc`: `c` is appended
to the list of `i`, and `i` is appended to the list of `c` unless that list
already holds `cap` ids or more. -/
theorem linkStep_nbrs (i lc : Nat) (cap : Int) (g : HNSWGraph) (c : Nat) (hic : c ≠ i)
    (hi : g.HasLayer i lc) (hc : g.HasLayer c lc) (l x : Nat) :
    (HNSWGraph.linkStep i lc cap g c).nbrs l x =
      if l = lc ∧ x = i then g.nbrs lc i ++ [c]
      else if l = lc ∧ x = c then
        (if ((g.nbrs lc c).length : Int) + 1 > cap then g.nbrs lc c else g.nbrs lc c ++ [i])
      else g.nbrs l x := by
  have hc1 : (g.updNeighbors i lc fun l => l ++ [c]).HasLayer c lc :=
    ((updNeighbors_frame _ _ _ _).hasLayer c lc).2 hc
  have hc2 : ((g.updNeighbors i lc fun l => l ++ [c]).updNeighbors c lc
      fun l => l ++ [i]).HasLayer c lc :=
    ((updNeighbors_frame _ _ _ _).hasLayer c lc).2 hc1
  have e2 : ((g.updNeighbors i lc fun l => l ++ [c]).updNeighbors c lc
      fun l => l ++ [i]).nbrs lc c = g.nbrs lc c ++ [i] := by
    rw [nbrs_updNeighbors, if_pos ⟨rfl, rfl, hc1⟩, nbrs_updNeighbors,
      if_neg (fun h => hic h.1)]
  unfold HNSWGraph.linkStep
  rw [e2]
  simp only [List.length_append, List.length_singleton, Nat.cast_add, Nat.cast_one]
  by_cases hcap : ((g.nbrs lc c).length : Int) + 1 > cap
  · rw [if_pos hcap, nbrs_updNeighbors, e2, List.dropLast_concat]
    by_cases h1 : l = lc ∧ x = i
    · rw [if_pos h1, if_neg (fun h => hic (h.1.symm.trans h1.2))]
      rw [nbrs_updNeighbors, if_neg (fun h => hic (h.1.symm.trans h1.2)), nbrs_updNeighbors,
        if_pos ⟨h1.2, h1.1, hi⟩]
    · rw [if_neg h1]
      by_cases h2 : l = lc ∧ x = c
      · rw [if_pos h2, if_pos ⟨h2.2, h2.1, hc2⟩, if_pos hcap]
      · rw [if_neg h2, if_neg (fun h => h2 ⟨h.2.1, h.1⟩), nbrs_updNeighbors,
          if_neg (fun h => h2 ⟨h.2.1, h.1⟩), nbrs_updNeighbors,
          if_neg (fun h => h1 ⟨h.2.1, h.1⟩)]
  · rw [if_neg hcap]
    by_cases h1 : l = lc ∧ x = i
    · rw [if_pos h1, nbrs_updNeighbors, if_neg (fun h => hic (h.1.symm.trans h1.2)),
        nbrs_updNeighbors, if_pos ⟨h1.2, h1.1, hi⟩]
    · rw [if_neg h1]
      by_cases h2 : l = lc ∧ x = c
      · rw [if_pos h2, if_neg hcap, nbrs_updNeighbors, if_pos ⟨h2.2, h2.1, hc1⟩,
          nbrs_updNeighbors, if_neg (fun h => hic h.1)]
      · rw [if_neg h2, nbrs_updNeighbors, if_neg (fun h => h2 ⟨h.2.1, h.1⟩), nbrs_updNeighbors,
          if_neg (fun h => h1 ⟨h.2.1, h.1⟩)]

theorem linkStep_other_layer (i lc : Nat) (cap : Int) (g : HNSWGraph) (c : Nat) (hic : c ≠ i)
    (hi : g.HasLayer i lc) (hc : g.HasLayer c lc) (l x : Nat) (hl : l ≠ lc) :
    (HNSWGraph.linkStep i lc cap g c).nbrs l x = g.nbrs l x := by
  rw [linkStep_nbrs i lc cap g c hic hi hc, if_neg (fun h => hl h.1), if_neg (fun h => hl h.1)]

theorem linkStep_mono (i lc : Nat) (cap : Int) (g : HNSWGraph) (c : Nat) (hic : c ≠ i)
    (hi : g.HasLayer i lc) (hc : g.HasLayer c lc) (x y : Nat) (h : y ∈ g.nbrs lc x) :
    y ∈ (HNSWGraph.linkStep i lc cap g c).nbrs lc x := by
  rw [linkStep_nbrs i lc cap g c hic hi hc]
  split
  · rename_i h1
    rw [h1.2] at h
    exact List.mem_append_left _ h
  · split
    · rename_i h2
      rw [h2.2] at h
      split
      · exact h
      · exact List.mem_append_left _ h
    · exact h

theorem linkStep_length_mono (i lc : Nat) (cap : Int) (g : HNSWGraph) (c : Nat) (hic : c ≠ i)
    (hi : g.HasLayer i lc) (hc : g.HasLayer c lc) (x : Nat) :
    (g.nbrs lc x).length ≤ ((HNSWGraph.linkStep i lc cap g c).nbrs lc x).length := by
  rw [linkStep_nbrs i lc cap g c hic hi hc]
  split
  · rename_i h1
    rw [h1.2, List.length_append]
    omega
  · split
    · rename_i h2
      rw [h2.2]
      split
      · exact le_refl _
      · rw [List.length_append]
        omega
    · exact le_refl _

theorem linkStep_new (i lc : Nat) (cap : Int) (g : HNSWGraph) (c : Nat) (hic : c ≠ i)
    (hi : g.HasLayer i lc) (hc : g.HasLayer c lc) (x y : Nat)
    (h : y ∈ (HNSWGraph.linkStep i lc cap g c).nbrs lc x) :
    y ∈ g.nbrs lc x ∨ (x = i ∧ y = c) ∨ (x = c ∧ y = i) := by
  rw [linkStep_nbrs i lc cap g c hic hi hc] at h
  split at h
  · rename_i h1
    rcases List.mem_append.1 h with h | h
    · left
      rw [h1.2]
      exact h
    · right
      left
      exact ⟨h1.2, List.mem_singleton.1 h⟩
  · split at h
    · rename_i h2
      split at h
      · left
        rw [h2.2]
        exact h
      · rcases List.mem_append.1 h with h | h
        · left
          rw [h2.2]
          exact h
        · right
          right
          exact ⟨h2.2, List.mem_singleton.1 h⟩
    · left
      exact h

theorem linkStep_forward (i lc : Nat) (cap : Int) (g : HNSWGraph) (c : Nat) (hic : c ≠ i)
    (hi : g.HasLayer i lc) (hc : g.HasLayer c lc) :
    c ∈ (HNSWGraph.linkStep i lc cap g c).nbrs lc i := by
  rw [linkStep_nbrs i lc cap g c hic hi hc, if_pos ⟨rfl, rfl⟩]
  exact List.mem_append_right _ (List.mem_singleton.2 rfl)

theorem linkStep_backward (i lc : Nat) (cap : Int) (g : HNSWGraph) (c : Nat) (hic : c ≠ i)
    (hi : g.HasLayer i lc) (hc : g.HasLayer c lc) :
    i ∈ (HNSWGraph.linkStep i lc cap g c).nbrs lc c ∨
      cap ≤ ((HNSWGraph.linkStep i lc cap g c).nbrs lc c).length := by
  rw [linkStep_nbrs i lc cap g c hic hi hc, if_neg (fun h => hic h.2), if_pos ⟨rfl, rfl⟩]
  split
  · right
    omega
  · left
    exact List.mem_append_right _ (List.mem_singleton.2 rfl)

theorem linkStep_layerV (layers : Nat → Nat) (i lc : Nat) (cap : Int) (g : HNSWGraph) (c : Nat)
    (hci : c < i) (hcl : lc ≤ layers c) (hil : lc ≤ layers i)
    (hi : g.HasLayer i lc) (hc : g.HasLayer c lc) (h : LayerV layers (i + 1) g lc) :
    LayerV layers (i + 1) (HNSWGraph.linkStep i lc cap g c) lc := by
  intro j x hx
  rcases linkStep_new i lc cap g c (by omega) hi hc j x hx with h1 | ⟨rfl, rfl⟩ | ⟨rfl, rfl⟩
  · exact h j x h1
  · exact ⟨by omega, by omega, hcl, by omega⟩
  · exact ⟨by omega, by omega, hil, by omega⟩

theorem linkStep_layerA (i lc : Nat) (cap : Int) (g : HNSWGraph) (c : Nat)
    (hci : c < i) (hi : g.HasLayer i lc) (hc : g.HasLayer c lc) (h : LayerA g lc) :
    LayerA (HNSWGraph.linkStep i lc cap g c) lc := by
  intro a b hba ha
  rcases linkStep_new i lc cap g c (by omega) hi hc b a ha with h1 | ⟨rfl, rfl⟩ | ⟨rfl, rfl⟩
  · exact linkStep_mono i lc cap g c (by omega) hi hc a b (h a b hba h1)
  · omega
  · exact linkStep_forward a lc cap g b (by omega) hi hc

theorem linkStep_layerB (i lc : Nat) (g : HNSWGraph) (c : Nat)
    (hci : c < i) (hi : g.HasLayer i lc) (hc : g.HasLayer c lc) (h : LayerB g lc) :
    LayerB (HNSWGraph.linkStep i lc (g.cap lc) g c) lc := by
  intro a b hba hb
  rw [(linkStep_frame i lc (g.cap lc) g c).cap]
  rcases linkStep_new i lc (g.cap lc) g c (by omega) hi hc a b hb with h1 | ⟨rfl, rfl⟩ | ⟨rfl, rfl⟩
  · rcases h a b hba h1 with h2 | h2
    · left
      exact linkStep_mono i lc _ g c (by omega) hi hc b a h2
    · right
      have := linkStep_length_mono i lc (g.cap lc) g c (by omega) hi hc b
      omega
  · exact linkStep_backward a lc (g.cap lc) g b (by omega) hi hc
  · omega

/-- The loop over the candidates of one layer keeps the three layer invariants,
touches no other layer and changes nothing but neighbor lists. -/
theorem linkFold_spec (layers : Nat → Nat) (i lc : Nat) (hil : lc ≤ layers i) :
    ∀ (cs : List Nat) (g : HNSWGraph), g.HasLayer i lc →
      (∀ c ∈ cs, c < i ∧ lc ≤ layers c ∧ g.HasLayer c lc) →
      LayerV layers (i + 1) g lc → LayerA g lc → LayerB g lc →
      Frame g (cs.foldl (HNSWGraph.linkStep i lc (g.cap lc)) g) ∧
      (∀ l x, l ≠ lc → (cs.foldl (HNSWGraph.linkStep i lc (g.cap lc)) g).nbrs l x = g.nbrs l x) ∧
      LayerV layers (i + 1) (cs.foldl (HNSWGraph.linkStep i lc (g.cap lc)) g) lc ∧
      LayerA (cs.foldl (HNSWGraph.linkStep i lc (g.cap lc)) g) lc ∧
      LayerB (cs.foldl (HNSWGraph.linkStep i lc (g.cap lc)) g) lc := by
  intro cs
  induction cs with
  | nil =>
    intro g _ _ hV hA hB
    exact ⟨Frame.refl g, fun _ _ _ => rfl, hV, hA, hB⟩
  | cons c cs ih =>
    intro g hi hcs hV hA hB
    obtain ⟨hci, hcl, hc⟩ := hcs c (List.mem_cons_self _ _)
    have hf := linkStep_frame i lc (g.cap lc) g c
    rw [List.foldl_cons]
    have hcap : (HNSWGraph.linkStep i lc (g.cap lc) g c).cap lc = g.cap lc := hf.cap lc
    have ih1 := ih (HNSWGraph.linkStep i lc (g.cap lc) g c) ((hf.hasLayer i lc).2 hi)
      (fun c1 hc1 => ⟨(hcs c1 (List.mem_cons_of_mem _ hc1)).1,
        (hcs c1 (List.mem_cons_of_mem _ hc1)).2.1,
        (hf.hasLayer c1 lc).2 (hcs c1 (List.mem_cons_of_mem _ hc1)).2.2⟩)
      (linkStep_layerV layers i lc _ g c hci hcl hil hi hc hV)
      (linkStep_layerA i lc _ g c hci hi hc hA)
      (linkStep_layerB i lc g c hci hi hc hB)
    rw [hcap] at ih1
    obtain ⟨f1, f2, f3, f4, f5⟩ := ih1
    refine ⟨hf.trans f1, ?_, f3, f4, f5⟩
    intro l x hl
    rw [f2 l x hl, linkStep_other_layer i lc _ g c (by omega) hi hc l x hl]

/-! ## Invariants of `buildIndex` -/

theorem LayerV.congrV {layers : Nat → Nat} {n : Nat} {g g1 : HNSWGraph} {l : Nat}
    (h : LayerV layers n g l) (e : ∀ j, g1.nbrs l j = g.nbrs l j) : LayerV layers n g1 l := by
  intro j x hx
  rw [e] at hx
  exact h j x hx

theorem LayerV.mono {layers : Nat → Nat} {n : Nat} {g : HNSWGraph} {l : Nat}
    (h : LayerV layers n g l) : LayerV layers (n + 1) g l := by
  intro j x hx
  obtain ⟨h1, h2, h3, h4⟩ := h j x hx
  exact ⟨by omega, by omega, h3, h4⟩

theorem LayerA.congrA {g g1 : HNSWGraph} {l : Nat} (h : LayerA g l)
    (e : ∀ j, g1.nbrs l j = g.nbrs l j) : LayerA g1 l := by
  intro i j hji hi
  rw [e] at hi ⊢
  exact h i j hji hi

theorem LayerB.congrB {g g1 : HNSWGraph} {l : Nat} (h : LayerB g l)
    (e : ∀ j, g1.nbrs l j = g.nbrs l j) (ec : g1.cap l = g.cap l) : LayerB g1 l := by
  intro i j hji hj
  rw [e] at hj
  rw [e, ec]
  exact h i j hji hj

theorem layersAbove_mem (hi lo l : Nat) : l ∈ layersAbove hi lo ↔ lo < l ∧ l ≤ hi := by
  unfold layersAbove
  rw [List.mem_reverse, List.mem_range']
  constructor
  · rintro ⟨i, hi1, rfl⟩
    omega
  · intro h
    exact ⟨l - (lo + 1), by omega, by omega⟩

theorem layersAbove_pairwise (hi lo : Nat) : (layersAbove hi lo).Pairwise (fun a b => a > b) := by
  unfold layersAbove
  rw [List.pairwise_reverse]
  exact List.pairwise_lt_range' _ _

theorem layersDownFrom_mem (hi l : Nat) : l ∈ layersDownFrom hi ↔ l ≤ hi := by
  unfold layersDownFrom
  rw [List.mem_reverse, List.mem_range]
  omega

theorem layersDownFrom_pairwise (hi : Nat) :
    (layersDownFrom hi).Pairwise (fun a b => a > b) := by
  unfold layersDownFrom
  rw [List.pairwise_reverse]
  exact List.pairwise_lt_range _

/-- The descent loop ends with a single entry point, an inserted node whose layer
is at least `m`, when it starts with one and `m` bounds the layers searched
from below. -/
theorem descent_fold_spec (layers : Nat → Nat) (n m : Nat) (g : HNSWGraph)
    (query : DataVector) (hV : ∀ l, LayerV layers n g l) :
    ∀ (ls : List Nat) (eps : List Nat), ls.Pairwise (fun a b => a > b) → (∀ l ∈ ls, m ≤ l) →
      eps.length = 1 → (∀ ep ∈ eps, ep < n ∧ m ≤ layers ep ∧ ∀ l ∈ ls, l ≤ layers ep) →
      (ls.foldl (g.descentStep query) eps).length = 1 ∧
      ∀ ep ∈ ls.foldl (g.descentStep query) eps, ep < n ∧ m ≤ layers ep := by
  intro ls
  induction ls with
  | nil => intro eps _ _ h1 h2; exact ⟨h1, fun ep hep => ⟨(h2 ep hep).1, (h2 ep hep).2.1⟩⟩
  | cons lc ls ih =>
    intro eps hpw hm h1 h2
    rw [List.foldl_cons]
    rw [List.pairwise_cons] at hpw
    have hs := descentStep_spec g query eps lc (fun x => x < n ∧ lc ≤ layers x)
      (fun c _ x hx => ⟨(hV lc c x hx).1, (hV lc c x hx).2.2.1⟩) h1
      (fun ep hep => ⟨(h2 ep hep).1, (h2 ep hep).2.2 lc (List.mem_cons_self _ _)⟩)
    apply ih _ hpw.2 (fun l hl => hm l (List.mem_cons_of_mem _ hl)) hs.1
    intro ep hep
    obtain ⟨e1, e2⟩ := hs.2 ep hep
    refine ⟨e1, le_trans (hm lc (List.mem_cons_self _ _)) e2, ?_⟩
    intro l hl
    exact le_trans (le_of_lt (hpw.1 l hl)) e2

/-- The insertion loop of `buildIndex` for the new node `n`, run over the layers `ls`
not yet linked. -/
theorem insert_fold_spec (layers : Nat → Nat) (n : Nat) (g1 : HNSWGraph) (query : DataVector)
    (hshape : ∀ j, j < n + 1 → g1.HasLayer j (layers j)) :
    ∀ (ls : List Nat) (st : HNSWGraph × List Nat), ls.Pairwise (fun a b => a > b) →
      (∀ l ∈ ls, l ≤ layers n) → Frame g1 st.1 →
      (∀ l, LayerV layers (n + 1) st.1 l) → (∀ l ∈ ls, LayerV layers n st.1 l) →
      (∀ l, LayerA st.1 l) → (∀ l, LayerB st.1 l) → st.2.Nodup →
      (∀ ep ∈ st.2, ep < n ∧ ∀ l ∈ ls, l ≤ layers ep) →
      Frame g1 (ls.foldl (HNSWGraph.insertLayer n query) st).1 ∧
      (∀ l, LayerV layers (n + 1) (ls.foldl (HNSWGraph.insertLayer n query) st).1 l) ∧
      (∀ l, LayerA (ls.foldl (HNSWGraph.insertLayer n query) st).1 l) ∧
      (∀ l, LayerB (ls.foldl (HNSWGraph.insertLayer n query) st).1 l) := by
  intro ls
  induction ls with
  | nil => intro st _ _ hf hV _ hA hB _ _; exact ⟨hf, hV, hA, hB⟩
  | cons lc ls ih =>
    intro st hpw hl hf hV hVn hA hB hnd hep
    rw [List.foldl_cons]
    rw [List.pairwise_cons] at hpw
    have hlc : lc ≤ layers n := hl lc (List.mem_cons_self _ _)
    have hs := searchLayerGreedy_spec st.1 query st.2 lc 200 (fun x => x < n ∧ lc ≤ layers x)
      (fun c _ x hx => ⟨(hVn lc (List.mem_cons_self _ _) c x hx).1,
        (hVn lc (List.mem_cons_self _ _) c x hx).2.2.1⟩) hnd
      (fun ep h => ⟨(hep ep h).1, (hep ep h).2 lc (List.mem_cons_self _ _)⟩)
    have hlayer : ∀ x, x < n + 1 → lc ≤ layers x → st.1.HasLayer x lc := by
      intro x hx hxl
      rw [hf.hasLayer]
      have := hshape x hx
      unfold HNSWGraph.HasLayer at this ⊢
      exact ⟨this.1, by omega⟩
    have hlink := linkFold_spec layers n lc hlc (st.1.searchLayerGreedy query st.2 lc 200) st.1
      (hlayer n (by omega) hlc)
      (fun c hc => ⟨(hs.2.1 c hc).1, (hs.2.1 c hc).2,
        hlayer c (by have := (hs.2.1 c hc).1; omega) (hs.2.1 c hc).2⟩)
      (hV lc) (hA lc) (hB lc)
    have hcapeq : (if lc = 0 then st.1.maxM0 else st.1.maxM) = st.1.cap lc := rfl
    obtain ⟨f1, f2, f3, f4, f5⟩ := hlink
    have hne : ∀ l ∈ ls, l ≠ lc := fun l hl1 => by have := hpw.1 l hl1; omega
    apply ih _ hpw.2 (fun l h => hl l (List.mem_cons_of_mem _ h))
    · exact hf.trans (by simpa only [HNSWGraph.insertLayer, hcapeq] using f1)
    · intro l
      by_cases hll : l = lc
      · subst hll
        simpa only [HNSWGraph.insertLayer, hcapeq] using f3
      · exact (hV l).congrV (fun j => by
          simpa only [HNSWGraph.insertLayer, hcapeq] using f2 l j hll)
    · intro l hl1
      exact (hVn l (List.mem_cons_of_mem _ hl1)).congrV (fun j => by
        simpa only [HNSWGraph.insertLayer, hcapeq] using f2 l j (hne l hl1))
    · intro l
      by_cases hll : l = lc
      · subst hll
        simpa only [HNSWGraph.insertLayer, hcapeq] using f4
      · exact (hA l).congrA (fun j => by
          simpa only [HNSWGraph.insertLayer, hcapeq] using f2 l j hll)
    · intro l
      by_cases hll : l = lc
      · subst hll
        simpa only [HNSWGraph.insertLayer, hcapeq] using f5
      · exact (hB l).congrB
          (fun j => by simpa only [HNSWGraph.insertLayer, hcapeq] using f2 l j hll)
          (by simpa only [HNSWGraph.insertLayer, hcapeq] using f1.cap l)
    · simpa only [HNSWGraph.insertLayer] using hs.1
    · intro ep hep1
      have h1 := hs.2.1 ep (by simpa only [HNSWGraph.insertLayer] using hep1)
      refine ⟨h1.1, fun l hl1 => ?_⟩
      have := hpw.1 l hl1
      omega

theorem allocNode_length (g : HNSWGraph) (i L : Nat) :
    (g.allocNode i L).nodes.length = g.nodes.length := by
  simp [HNSWGraph.allocNode]

theorem allocNode_getD_ne (g : HNSWGraph) (i L j : Nat) (h : j ≠ i) :
    (g.allocNode i L).nodes.getD j HNode.empty = g.nodes.getD j HNode.empty := by
  simp only [HNSWGraph.allocNode, getD_set]
  rw [if_neg (fun hh => h hh.1)]

theorem allocNode_getD_self (g : HNSWGraph) (i L : Nat) (h : i < g.nodes.length)
    (hfresh : (g.nodes.getD i HNode.empty).neighbors = []) :
    (g.allocNode i L).nodes.getD i HNode.empty = ⟨i, List.replicate (L + 1) [], L⟩ := by
  simp only [HNSWGraph.allocNode]
  rw [getD_set, if_pos ⟨rfl, h⟩, hfresh]
  simp [resize]

theorem allocNode_nbrs (g : HNSWGraph) (i L : Nat)
    (hfresh : (g.nodes.getD i HNode.empty).neighbors = []) (l x : Nat) :
    (g.allocNode i L).nbrs l x = g.nbrs l x := by
  unfold HNSWGraph.nbrs
  by_cases hx : x = i
  · subst hx
    by_cases hi : x < g.nodes.length
    · rw [allocNode_getD_self g x L hi hfresh, hfresh]
      simp only [List.getD_eq_getElem?_getD, List.getElem?_replicate]
      split <;> simp
    · simp only [HNSWGraph.allocNode, getD_set]
      rw [if_neg (fun hh => hi hh.2)]
  · rw [allocNode_getD_ne g i L x hx]

theorem replicate_empty_nbrs (N : Nat) (j l : Nat) :
    ((List.replicate N HNode.empty).getD j HNode.empty).neighbors.getD l [] = [] := by
  have : (List.replicate N HNode.empty).getD j HNode.empty = HNode.empty := by
    rw [List.getD_eq_getElem?_getD, List.getElem?_replicate]
    split <;> rfl
  rw [this]
  rfl

/-- The graph before the first insertion satisfies the build invariant for `n = 0`. -/
theorem buildInv_zero (M : Int) (dataset : List DataVector) (layers : Nat → Nat) :
    BuildInv dataset.length layers 0
      ((HNSWGraph.init M).buildUpTo dataset layers 0) := by
  have hn : ((HNSWGraph.init M).buildUpTo dataset layers 0).nodes
      = List.replicate dataset.length HNode.empty := by
    simp [HNSWGraph.buildUpTo, HNSWGraph.init, resize]
  have hnb : ∀ l j, ((HNSWGraph.init M).buildUpTo dataset layers 0).nbrs l j = [] := by
    intro l j
    unfold HNSWGraph.nbrs
    rw [hn]
    exact replicate_empty_nbrs _ j l
  refine ⟨by rw [hn, List.length_replicate], Nat.zero_le _, fun j hj => by omega, ?_,
    fun h => by omega, ?_, ?_, ?_⟩
  · intro j _
    rw [hn]
    have : (List.replicate dataset.length HNode.empty).getD j HNode.empty = HNode.empty := by
      rw [List.getD_eq_getElem?_getD, List.getElem?_replicate]
      split <;> rfl
    rw [this]
    rfl
  · intro l j x hx
    rw [hnb] at hx
    simp at hx
  · intro l i j _ hi
    rw [hnb] at hi
    simp at hi
  · intro l i j _ hj
    rw [hnb] at hj
    simp at hj

/-- One iteration of the main loop of `buildIndex` takes the invariant from `n` to
`n + 1`. -/
theorem insertNode_inv (N : Nat) (layers : Nat → Nat) (dataset : List DataVector) (n : Nat)
    (g : HNSWGraph) (h : BuildInv N layers n g) (hn : n < N) :
    BuildInv N layers (n + 1) (HNSWGraph.insertNode dataset g n (layers n)) := by
  have hfresh := h.fresh n (le_refl _)
  have hnbrs := allocNode_nbrs g n (layers n) hfresh
  have hlen : (g.allocNode n (layers n)).nodes.length = N := by
    rw [allocNode_length, h.len]
  have hself := allocNode_getD_self g n (layers n) (by rw [h.len]; exact hn) hfresh
  have hins : ∀ j, j < n + 1 →
      ((g.allocNode n (layers n)).nodes.getD j HNode.empty).neighbors.length = layers j + 1 ∧
      ((g.allocNode n (layers n)).nodes.getD j HNode.empty).maxLayer = layers j := by
    intro j hj
    by_cases hjn : j = n
    · subst hjn
      rw [hself]
      simp
    · rw [allocNode_getD_ne g n _ j hjn]
      exact h.inserted j (by omega)
  have hfr : ∀ j, n + 1 ≤ j →
      ((g.allocNode n (layers n)).nodes.getD j HNode.empty).neighbors = [] := by
    intro j hj
    rw [allocNode_getD_ne g n _ j (by omega)]
    exact h.fresh j (by omega)
  have hcap : ∀ l, (g.allocNode n (layers n)).cap l = g.cap l := fun l => rfl
  have hV1 : ∀ l, LayerV layers n (g.allocNode n (layers n)) l :=
    fun l => (h.valid l).congrV (fun j => hnbrs l j)
  have hA1 : ∀ l, LayerA (g.allocNode n (layers n)) l :=
    fun l => (h.fwd l).congrA (fun j => hnbrs l j)
  have hB1 : ∀ l, LayerB (g.allocNode n (layers n)) l :=
    fun l => (h.bwd l).congrB (fun j => hnbrs l j) (hcap l)
  unfold HNSWGraph.insertNode
  by_cases h0 : n = 0
  · rw [if_pos h0]
    subst h0
    refine ⟨hlen, hn, hins, hfr, fun _ => ⟨by simp, ?_, ?_⟩, ?_, ?_, ?_⟩
    · rfl
    · intro j hj
      have : j = 0 := by omega
      subst this
      exact le_refl _
    · exact fun l => (hV1 l).mono
    · exact hA1
    · exact hB1
  · rw [if_neg h0]
    obtain ⟨he1, he2, he3⟩ := h.entry (by omega)
    have hdesc := descent_fold_spec layers n (min (layers n) g.maxLayer)
      (g.allocNode n (layers n)) (dataset.getD n []) hV1
      (layersAbove g.maxLayer (layers n)) [g.entryPoint] (layersAbove_pairwise _ _)
      (fun l hl => by
        rw [layersAbove_mem] at hl
        omega)
      rfl
      (fun ep hep => by
        rw [List.mem_singleton] at hep
        subst hep
        refine ⟨he1, by omega, fun l hl => ?_⟩
        rw [layersAbove_mem] at hl
        omega)
    have hnd : ((layersAbove g.maxLayer (layers n)).foldl
        ((g.allocNode n (layers n)).descentStep (dataset.getD n [])) [g.entryPoint]).Nodup := by
      match hh : (layersAbove g.maxLayer (layers n)).foldl
        ((g.allocNode n (layers n)).descentStep (dataset.getD n [])) [g.entryPoint], hdesc.1 with
      | [e], _ => simp
    have hfold := insert_fold_spec layers n (g.allocNode n (layers n)) (dataset.getD n [])
      (fun j hj => ⟨by rw [hlen]; omega, by rw [(hins j hj).1]; omega⟩)
      (layersDownFrom (min (layers n) g.maxLayer))
      (g.allocNode n (layers n), (layersAbove g.maxLayer (layers n)).foldl
        ((g.allocNode n (layers n)).descentStep (dataset.getD n [])) [g.entryPoint])
      (layersDownFrom_pairwise _)
      (fun l hl => by
        rw [layersDownFrom_mem] at hl
        omega)
      (Frame.refl _) (fun l => (hV1 l).mono) (fun l _ => hV1 l) hA1 hB1 hnd
      (fun ep hep => ⟨(hdesc.2 ep hep).1, fun l hl => by
        rw [layersDownFrom_mem] at hl
        have := (hdesc.2 ep hep).2
        omega⟩)
    obtain ⟨f1, f2, f3, f4⟩ := hfold
    have hshape : ∀ (G : HNSWGraph), G.nodes = ((layersDownFrom (min (layers n) g.maxLayer)).foldl
        (HNSWGraph.insertLayer n (dataset.getD n []))
        (g.allocNode n (layers n), (layersAbove g.maxLayer (layers n)).foldl
          ((g.allocNode n (layers n)).descentStep (dataset.getD n [])) [g.entryPoint])).1.nodes →
        G.nodes.length = N ∧
        (∀ j, j < n + 1 → (G.nodes.getD j HNode.empty).neighbors.length = layers j + 1 ∧
          (G.nodes.getD j HNode.empty).maxLayer = layers j) ∧
        (∀ j, n + 1 ≤ j → (G.nodes.getD j HNode.empty).neighbors = []) := by
      intro G hG
      rw [hG]
      refine ⟨f1.1.trans hlen, ?_, ?_⟩
      · intro j hj
        rw [(f1.2.1 j).1, (f1.2.1 j).2]
        exact hins j hj
      · intro j hj
        apply List.eq_nil_of_length_eq_zero
        rw [(f1.2.1 j).1, hfr j hj]
        rfl
    have hml : ((layersDownFrom (min (layers n) g.maxLayer)).foldl
        (HNSWGraph.insertLayer n (dataset.getD n []))
        (g.allocNode n (layers n), (layersAbove g.maxLayer (layers n)).foldl
          ((g.allocNode n (layers n)).descentStep (dataset.getD n [])) [g.entryPoint])).1.maxLayer
        = g.maxLayer := f1.2.2.2.2.2.2.1
    have hep : ((layersDownFrom (min (layers n) g.maxLayer)).foldl
        (HNSWGraph.insertLayer n (dataset.getD n []))
        (g.allocNode n (layers n), (layersAbove g.maxLayer (layers n)).foldl
          ((g.allocNode n (layers n)).descentStep (dataset.getD n [])) [g.entryPoint])).1.entryPoint
        = g.entryPoint := f1.2.2.2.2.2.2.2
    rw [hml]
    by_cases hgt : layers n > g.maxLayer
    · rw [if_pos hgt]
      obtain ⟨s1, s2, s3⟩ := hshape _ rfl
      refine ⟨s1, hn, s2, s3, fun _ => ⟨by simp, rfl, ?_⟩, ?_, ?_, ?_⟩
      · intro j hj
        by_cases hjn : j = n
        · subst hjn
          exact le_refl _
        · have := he3 j (by omega)
          simp only
          omega
      · exact fun l => (f2 l).congrV (fun j => rfl)
      · exact fun l => (f3 l).congrA (fun j => rfl)
      · exact fun l => (f4 l).congrB (fun j => rfl) rfl
    · rw [if_neg hgt]
      obtain ⟨s1, s2, s3⟩ := hshape _ rfl
      refine ⟨s1, hn, s2, s3, fun _ => ?_, f2, f3, f4⟩
      rw [hml, hep]
      refine ⟨by omega, he2, ?_⟩
      intro j hj
      by_cases hjn : j = n
      · subst hjn
        omega
      · exact he3 j (by omega)

theorem buildUpTo_succ (g : HNSWGraph) (dataset : List DataVector) (layers : Nat → Nat)
    (n : Nat) :
    g.buildUpTo dataset layers (n + 1)
      = HNSWGraph.insertNode dataset (g.buildUpTo dataset layers n) n (layers n) := by
  unfold HNSWGraph.buildUpTo
  rw [List.range_succ, List.foldl_append]
  rfl

/-- The build invariant holds after every insertion of `buildIndex` on a new graph. -/
theorem buildInv_upTo (M : Int) (dataset : List DataVector) (layers : Nat → Nat) :
    ∀ n, n ≤ dataset.length →
      BuildInv dataset.length layers n ((HNSWGraph.init M).buildUpTo dataset layers n) := by
  intro n
  induction n with
  | zero => intro _; exact buildInv_zero M dataset layers
  | succ n ih =>
    intro hn
    rw [buildUpTo_succ]
    exact insertNode_inv _ layers dataset n _ (ih (by omega)) (by omega)

/-! ## The entry point (C9) -/

/-- C9: after each of the `n = 1, ..., N` insertions of `buildIndex` on a new graph
(`n = N` is the state `buildIndex` returns), for every sequence of layer
draws, the entry point is an inserted node, its `maxLayer` is the `maxLayer`
of the graph, and no inserted node has a larger `maxLayer`; the `maxLayer`
of node `i` is the layer drawn for it. -/
theorem hnsw_entryPoint_max (M : Int) (dataset : List DataVector) (layers : Nat → Nat)
    (n : Nat) (h1 : 1 ≤ n) (hn : n ≤ dataset.length) :
    ((HNSWGraph.init M).buildUpTo dataset layers n).entryPoint < n ∧
    (((HNSWGraph.init M).buildUpTo dataset layers n).nodes.getD
      ((HNSWGraph.init M).buildUpTo dataset layers n).entryPoint HNode.empty).maxLayer
      = ((HNSWGraph.init M).buildUpTo dataset layers n).maxLayer ∧
    (∀ i, i < n →
      (((HNSWGraph.init M).buildUpTo dataset layers n).nodes.getD i HNode.empty).maxLayer
        = layers i ∧
      (((HNSWGraph.init M).buildUpTo dataset layers n).nodes.getD i HNode.empty).maxLayer
        ≤ ((HNSWGraph.init M).buildUpTo dataset layers n).maxLayer) ∧
    (HNSWGraph.init M).buildIndex dataset layers
      = (HNSWGraph.init M).buildUpTo dataset layers dataset.length := by
  have h := buildInv_upTo M dataset layers n hn
  obtain ⟨e1, e2, e3⟩ := h.entry (by omega)
  refine ⟨e1, ?_, ?_, rfl⟩
  · rw [(h.inserted _ e1).2, e2]
  · intro i hi
    refine ⟨(h.inserted i hi).2, ?_⟩
    rw [(h.inserted i hi).2]
    exact e3 i hi

/-- An instance of C9: three points, drawn layers 1, 4, 2, after all three
insertions. -/
theorem hnsw_entryPoint_max_witness :
    ((HNSWGraph.init 16).buildUpTo [[0], [1], [2]] (fun i => [1, 4, 2].getD i 0) 3).entryPoint
      < 3 ∧
    (((HNSWGraph.init 16).buildUpTo [[0], [1], [2]] (fun i => [1, 4, 2].getD i 0) 3).nodes.getD
      ((HNSWGraph.init 16).buildUpTo [[0], [1], [2]]
        (fun i => [1, 4, 2].getD i 0) 3).entryPoint HNode.empty).maxLayer
      = ((HNSWGraph.init 16).buildUpTo [[0], [1], [2]]
        (fun i => [1, 4, 2].getD i 0) 3).maxLayer :=
  ⟨(hnsw_entryPoint_max 16 [[0], [1], [2]] (fun i => [1, 4, 2].getD i 0) 3 (by decide)
      (by decide)).1,
    (hnsw_entryPoint_max 16 [[0], [1], [2]] (fun i => [1, 4, 2].getD i 0) 3 (by decide)
      (by decide)).2.1⟩

/-! ## Sorted output (C4) -/

theorem descend_sorted (k : Int) (gap : ℝ) (near far : PQ → Option PQ)
    (hnear : ∀ pq pq1 : PQ, pq.Sorted (fun a b => a ≥ b) → near pq = some pq1 →
      pq1.Sorted (fun a b => a ≥ b))
    (hfar : ∀ pq pq1 : PQ, pq.Sorted (fun a b => a ≥ b) → far pq = some pq1 →
      pq1.Sorted (fun a b => a ≥ b))
    (pq pq2 : PQ) (hs : pq.Sorted (fun a b => a ≥ b))
    (h : descend k gap near far pq = some pq2) : pq2.Sorted (fun a b => a ≥ b) := by
  unfold descend at h
  cases hn : near pq with
  | none => rw [hn] at h; simp at h
  | some pq1 =>
    rw [hn, Option.some_bind] at h
    have hs1 := hnear pq pq1 hs hn
    split at h
    · exact hfar pq1 pq2 hs1 h
    · split at h
      · simp at h
      · split at h
        · exact hfar pq1 pq2 hs1 h
        · simp only [Option.some.injEq] at h
          rw [← h]
          exact hs1

theorem kd_searchRecursive_sorted (target : DataVector) (k : Int) :
    ∀ (node : Node) (pq pq1 : PQ), pq.Sorted (fun a b => a ≥ b) →
      KDTreeIndex.searchRecursive node target k pq = some pq1 →
      pq1.Sorted (fun a b => a ≥ b) := by
  intro node
  induction node with
  | null =>
    intro pq pq1 hs h
    simp only [KDTreeIndex.searchRecursive, Option.some.injEq] at h
    rw [← h]
    exact hs
  | leaf points =>
    intro pq pq1 hs h
    simp only [KDTreeIndex.searchRecursive, Option.some.injEq] at h
    rw [← h]
    exact leafScan_sorted target k points pq hs
  | internal splitDim splitVal projDir left right ihl ihr =>
    intro pq pq1 hs h
    simp only [KDTreeIndex.searchRecursive] at h
    split at h
    · exact descend_sorted k _ _ _ ihl ihr pq pq1 hs h
    · exact descend_sorted k _ _ _ ihr ihl pq pq1 hs h

theorem rp_searchRecursive_sorted (target : DataVector) (k : Int) :
    ∀ (node : Node) (pq pq1 : PQ), pq.Sorted (fun a b => a ≥ b) →
      RPTreeIndex.searchRecursive node target k pq = some pq1 →
      pq1.Sorted (fun a b => a ≥ b) := by
  intro node
  induction node with
  | null =>
    intro pq pq1 hs h
    simp only [RPTreeIndex.searchRecursive, Option.some.injEq] at h
    rw [← h]
    exact hs
  | leaf points =>
    intro pq pq1 hs h
    simp only [RPTreeIndex.searchRecursive, Option.some.injEq] at h
    rw [← h]
    exact leafScan_sorted target k points pq hs
  | internal splitDim splitVal projDir left right ihl ihr =>
    intro pq pq1 hs h
    simp only [RPTreeIndex.searchRecursive] at h
    split at h
    · exact descend_sorted k _ _ _ ihl ihr pq pq1 hs h
    · exact descend_sorted k _ _ _ ihr ihl pq pq1 hs h

theorem reverse_sorted_of_desc (pq : PQ) (h : pq.Sorted (fun a b => a ≥ b)) :
    pq.reverse.Sorted (fun a b => a ≤ b) := by
  unfold List.Sorted
  rw [List.pairwise_reverse]
  exact h

theorem descent_fold_single (g : HNSWGraph) (query : DataVector) :
    ∀ (ls : List Nat) (eps : List Nat), eps.length = 1 →
      (ls.foldl (g.descentStep query) eps).length = 1 := by
  intro ls
  induction ls with
  | nil => intro eps h; exact h
  | cons lc ls ih =>
    intro eps h
    rw [List.foldl_cons]
    exact ih _ (descentStep_spec g query eps lc (fun _ => True) (fun _ _ _ _ => trivial) h
      (fun _ _ => trivial)).1

theorem nodup_of_length_one (l : List Nat) (h : l.length = 1) : l.Nodup := by
  match l, h with
  | [e], _ => simp

/-- The list returned by `HNSWGraph::searchKNearest` is non-decreasing, for every
graph state. -/
theorem hnsw_searchKNearest_sorted (g : HNSWGraph) (query : DataVector) (k ef : Int) :
    (g.searchKNearest query k ef).Sorted (fun a b => a ≤ b) := by
  have hs := searchLayerGreedy_spec g query
    ((layersAbove g.maxLayer 0).foldl (g.descentStep query) [g.entryPoint]) 0 (max ef k)
    (fun _ => True) (fun _ _ _ _ => trivial)
    (nodup_of_length_one _ (descent_fold_single g query _ _ rfl)) (fun _ _ => trivial)
  unfold HNSWGraph.searchKNearest
  rw [List.map_take]
  exact List.Pairwise.sublist (List.take_sublist _ _) hs.2.2.2

/-- C4: for every built index (KD-tree, RP-tree for every state of the direction
generator, HNSW graph for every sequence of layer draws), every query and
every `k`, the list returned by `searchKNearest` is non-decreasing. The two
tree searches return a list whenever `k`, converted to `size_t`, is not `0`. -/
theorem searchKNearest_sorted (S : StdSort) (gen : Gen) (M : Int) (layers : Nat → Nat)
    (dataset : List DataVector) (q : DataVector) (k ef : Int) :
    (∀ res, KDTreeIndex.searchKNearest (KDTreeIndex.Maketree S dataset) q k = some res →
      res.Sorted (fun a b => a ≤ b)) ∧
    (∀ res, RPTreeIndex.searchKNearest (RPTreeIndex.Maketree S gen dataset).1 q k = some res →
      res.Sorted (fun a b => a ≤ b)) ∧
    (((HNSWGraph.init M).buildIndex dataset layers).searchKNearest q k ef).Sorted
      (fun a b => a ≤ b) ∧
    (toSizeT k ≠ 0 →
      (KDTreeIndex.searchKNearest (KDTreeIndex.Maketree S dataset) q k).isSome ∧
      (RPTreeIndex.searchKNearest (RPTreeIndex.Maketree S gen dataset).1 q k).isSome) := by
  refine ⟨?_, ?_, hnsw_searchKNearest_sorted _ q k ef, ?_⟩
  · intro res h
    unfold KDTreeIndex.searchKNearest at h
    cases hr : KDTreeIndex.searchRecursive (KDTreeIndex.Maketree S dataset) q k [] with
    | none => rw [hr] at h; simp at h
    | some pq1 =>
      rw [hr, Option.map_some', Option.some.injEq] at h
      rw [← h]
      exact reverse_sorted_of_desc _
        (kd_searchRecursive_sorted q k _ [] pq1 List.sorted_nil hr)
  · intro res h
    unfold RPTreeIndex.searchKNearest at h
    cases hr : RPTreeIndex.searchRecursive (RPTreeIndex.Maketree S gen dataset).1 q k [] with
    | none => rw [hr] at h; simp at h
    | some pq1 =>
      rw [hr, Option.map_some', Option.some.injEq] at h
      rw [← h]
      exact reverse_sorted_of_desc _
        (rp_searchRecursive_sorted q k _ [] pq1 List.sorted_nil hr)
  · intro hk
    have hK : 1 ≤ toSizeT k := by omega
    constructor
    · obtain ⟨pq1, h1, -⟩ := kd_searchRecursive_length rfl hK q
        (KDTreeIndex.Maketree S dataset) [] (by simp)
      unfold KDTreeIndex.searchKNearest
      rw [h1]
      rfl
    · obtain ⟨pq1, h1, -⟩ := rp_searchRecursive_length rfl hK q
        (RPTreeIndex.Maketree S gen dataset).1 [] (by simp)
      unfold RPTreeIndex.searchKNearest
      rw [h1]
      rfl

/-! ## Parameters are not changed by the build -/

theorem linkFold_frame (i lc : Nat) (cap : Int) :
    ∀ (cs : List Nat) (g : HNSWGraph), Frame g (cs.foldl (HNSWGraph.linkStep i lc cap) g) := by
  intro cs
  induction cs with
  | nil => intro g; exact Frame.refl g
  | cons c cs ih =>
    intro g
    rw [List.foldl_cons]
    exact (linkStep_frame i lc cap g c).trans (ih _)

theorem insertFold_frame (i : Nat) (query : DataVector) :
    ∀ (ls : List Nat) (st : HNSWGraph × List Nat),
      Frame st.1 (ls.foldl (HNSWGraph.insertLayer i query) st).1 := by
  intro ls
  induction ls with
  | nil => intro st; exact Frame.refl _
  | cons lc ls ih =>
    intro st
    rw [List.foldl_cons]
    exact Frame.trans (linkFold_frame i lc _ _ _) (ih _)

theorem insertNode_params (dataset : List DataVector) (g : HNSWGraph) (i layer : Nat) :
    (HNSWGraph.insertNode dataset g i layer).data = g.data ∧
    (HNSWGraph.insertNode dataset g i layer).M = g.M ∧
    (HNSWGraph.insertNode dataset g i layer).maxM = g.maxM ∧
    (HNSWGraph.insertNode dataset g i layer).maxM0 = g.maxM0 := by
  unfold HNSWGraph.insertNode
  split
  · exact ⟨rfl, rfl, rfl, rfl⟩
  · have hf := insertFold_frame i (dataset.getD i []) (layersDownFrom (min layer g.maxLayer))
      (g.allocNode i layer, (layersAbove g.maxLayer layer).foldl
        ((g.allocNode i layer).descentStep (dataset.getD i [])) [g.entryPoint])
    obtain ⟨-, -, h3, h4, h5, h6, -, -⟩ := hf
    split
    · exact ⟨h3, h4, h5, h6⟩
    · exact ⟨h3, h4, h5, h6⟩

theorem wrapInt32_of_bounds (x : Int) (hlo : -2 ^ 31 ≤ x) (hhi : x < 2 ^ 31) :
    wrapInt32 x = x := by
  unfold wrapInt32
  omega

/-- For `M ≥ -2^30` the stored `maxM0` is at most `2 M`. -/
theorem wrapInt32_two_mul_le (M : Int) (hlo : -2 ^ 30 ≤ M) : wrapInt32 (M * 2) ≤ M * 2 := by
  unfold wrapInt32
  omega

theorem buildUpTo_params (M : Int) (dataset : List DataVector) (layers : Nat → Nat) :
    ∀ n, ((HNSWGraph.init M).buildUpTo dataset layers n).data = dataset ∧
      ((HNSWGraph.init M).buildUpTo dataset layers n).M = M ∧
      ((HNSWGraph.init M).buildUpTo dataset layers n).maxM = M ∧
      ((HNSWGraph.init M).buildUpTo dataset layers n).maxM0 = wrapInt32 (M * 2) := by
  intro n
  induction n with
  | zero => exact ⟨rfl, rfl, rfl, rfl⟩
  | succ n ih =>
    rw [buildUpTo_succ]
    obtain ⟨h1, h2, h3, h4⟩ := insertNode_params dataset
      ((HNSWGraph.init M).buildUpTo dataset layers n) n (layers n)
    exact ⟨h1.trans ih.1, h2.trans ih.2.1, h3.trans ih.2.2.1, h4.trans ih.2.2.2⟩

/-- Without overflow of the product in the constructor, `maxM0` is `2 M`. -/
theorem buildUpTo_maxM0 (M : Int) (dataset : List DataVector) (layers : Nat → Nat) (n : Nat)
    (hlo : -2 ^ 30 ≤ M) (hhi : M < 2 ^ 30) :
    ((HNSWGraph.init M).buildUpTo dataset layers n).maxM0 = M * 2 := by
  rw [(buildUpTo_params M dataset layers n).2.2.2]
  exact wrapInt32_of_bounds _ (by omega) (by omega)

/-! ## Size of the HNSW result (C3) -/

theorem nodup_bounded_length (l : List Nat) (N : Nat) (hnd : l.Nodup) (hb : ∀ x ∈ l, x < N) :
    l.length ≤ N := by
  have hsub : l ⊆ List.range N := fun x hx => List.mem_range.2 (hb x hx)
  have := (List.subperm_of_subset hnd hsub).length_le
  simpa using this

/-- C3 (amended): on a dataset of `N ≥ 1` vectors, for every sequence of layer draws,
every query, every `k ≥ 1` and every `ef`, the list returned by
`searchKNearest` after `buildIndex` has at least one and at most `min(k, N)`
elements. -/
theorem hnsw_searchKNearest_length (M : Int) (dataset : List DataVector) (layers : Nat → Nat)
    (q : DataVector) (k ef : Int) (hN : 1 ≤ dataset.length) (hk : 1 ≤ k) :
    1 ≤ (((HNSWGraph.init M).buildIndex dataset layers).searchKNearest q k ef).length ∧
    (((HNSWGraph.init M).buildIndex dataset layers).searchKNearest q k ef).length
      ≤ min k.toNat dataset.length := by
  have h := buildInv_upTo M dataset layers dataset.length (le_refl _)
  obtain ⟨e1, e2, e3⟩ := h.entry (by omega)
  have hdesc := descent_fold_spec layers dataset.length 0
    ((HNSWGraph.init M).buildUpTo dataset layers dataset.length) q h.valid
    (layersAbove ((HNSWGraph.init M).buildUpTo dataset layers dataset.length).maxLayer 0)
    [((HNSWGraph.init M).buildUpTo dataset layers dataset.length).entryPoint]
    (layersAbove_pairwise _ _) (fun l _ => Nat.zero_le _) rfl
    (fun ep hep => by
      rw [List.mem_singleton] at hep
      subst hep
      refine ⟨e1, Nat.zero_le _, fun l hl => ?_⟩
      rw [layersAbove_mem] at hl
      omega)
  have hs := searchLayerGreedy_spec
    ((HNSWGraph.init M).buildUpTo dataset layers dataset.length) q _ 0 (max ef k)
    (fun x => x < dataset.length) (fun c _ x hx => (h.valid 0 c x hx).1)
    (nodup_of_length_one _ hdesc.1) (fun ep hep => (hdesc.2 ep hep).1)
  have hlen := nodup_bounded_length _ dataset.length hs.1 hs.2.1
  have hpos := hs.2.2.1
  rw [hdesc.1] at hpos
  unfold HNSWGraph.searchKNearest HNSWGraph.buildIndex
  rw [List.length_map, List.length_take]
  omega

/-- An instance of the amended C3: two points, `k = 5`. -/
theorem hnsw_searchKNearest_length_witness :
    1 ≤ (((HNSWGraph.init 16).buildIndex [[0], [1]] (fun _ => 0)).searchKNearest
      [0] 5 200).length ∧
    (((HNSWGraph.init 16).buildIndex [[0], [1]] (fun _ => 0)).searchKNearest [0] 5 200).length
      ≤ 2 :=
  hnsw_searchKNearest_length 16 [[0], [1]] (fun _ => 0) [0] 5 200 (by decide) (by decide)

/-! ## Symmetry of the neighbor relation up to pruning (C7) -/

/-- C7 (amended): after `buildIndex` on a new graph, for every `M`, every sequence of
layer draws, every layer `l` and all ids `j < i`: if the older node `j` lists
the newer node `i`, then `i` lists `j`; and if `i` lists `j`, then `j` lists `i`
unless the list of `j` holds at least `cap_l` ids, where `cap_l` is the stored
`maxM0` at layer 0 (the `int` product `M * 2`) and `maxM = M` above. When the
product does not overflow (`-2^30 ≤ M < 2^30`), `cap_0` is `2 M`. -/
theorem hnsw_links_symmetric_up_to_cap (M : Int) (dataset : List DataVector)
    (layers : Nat → Nat) (l i j : Nat) (hji : j < i) :
    (i ∈ ((HNSWGraph.init M).buildIndex dataset layers).nbrs l j →
      j ∈ ((HNSWGraph.init M).buildIndex dataset layers).nbrs l i) ∧
    (j ∈ ((HNSWGraph.init M).buildIndex dataset layers).nbrs l i →
      i ∈ ((HNSWGraph.init M).buildIndex dataset layers).nbrs l j ∨
      (if l = 0 then wrapInt32 (M * 2) else M)
        ≤ (((HNSWGraph.init M).buildIndex dataset layers).nbrs l j).length) ∧
    (-2 ^ 30 ≤ M → M < 2 ^ 30 →
      j ∈ ((HNSWGraph.init M).buildIndex dataset layers).nbrs l i →
      i ∈ ((HNSWGraph.init M).buildIndex dataset layers).nbrs l j ∨
      (if l = 0 then M * 2 else M)
        ≤ (((HNSWGraph.init M).buildIndex dataset layers).nbrs l j).length) := by
  have h := buildInv_upTo M dataset layers dataset.length (le_refl _)
  have hp := buildUpTo_params M dataset layers dataset.length
  have hb : j ∈ ((HNSWGraph.init M).buildIndex dataset layers).nbrs l i →
      i ∈ ((HNSWGraph.init M).buildIndex dataset layers).nbrs l j ∨
      (if l = 0 then wrapInt32 (M * 2) else M)
        ≤ (((HNSWGraph.init M).buildIndex dataset layers).nbrs l j).length := by
    intro hj
    have := h.bwd l i j hji hj
    unfold HNSWGraph.cap at this
    rw [hp.2.2.1, hp.2.2.2] at this
    exact this
  refine ⟨h.fwd l i j hji, hb, ?_⟩
  intro hlo hhi hj
  have := hb hj
  rw [wrapInt32_of_bounds (M * 2) (by omega) (by omega)] at this
  exact this

/-! ## Evaluation of the small concrete build -/

theorem dist_zero_of_zero (p : DataVector) (hp : p = [0] ∨ p = []) :
    DataVector.dist [0] p = 0 := by
  rcases hp with rfl | rfl <;> simp [DataVector.dist]

theorem distTo_zero (g : HNSWGraph) (n : Nat) (hd : g.data = List.replicate n [0]) (id : Nat) :
    g.distTo [0] id = 0 := by
  unfold HNSWGraph.distTo
  apply dist_zero_of_zero
  rw [hd, List.getD_eq_getElem?_getD, List.getElem?_replicate]
  split
  · left; rfl
  · right; rfl

theorem min_DBL_MAX_zero : min DBL_MAX 0 = 0 := by
  unfold DBL_MAX
  norm_num

theorem eval_search1 (g : HNSWGraph) (ef : Int) (hz : ∀ id, g.distTo [0] id = 0)
    (h0 : g.nbrs 0 0 = []) : g.searchLayerGreedy [0] [0] 0 ef = [0] := by
  obtain ⟨n, hn⟩ : ∃ n, g.searchFuel [0] 0 = n + 2 :=
    ⟨(g.nodes.map fun nd => (nd.neighbors.getD 0 []).length).sum, by
      unfold HNSWGraph.searchFuel
      simp only [List.length_singleton]
      omega⟩
  unfold HNSWGraph.searchLayerGreedy
  rw [hn]
  simp [searchLoop, HNSWGraph.seedStep, SearchState.start, hz, maxPush, minPush,
    pairLt, HNSWGraph.expandStepGreedy, min_DBL_MAX_zero, h0]

theorem eval_search2 (g : HNSWGraph) (ef : Int) (hef : 2 ≤ ef) (hz : ∀ id, g.distTo [0] id = 0)
    (h0 : g.nbrs 0 0 = [1]) (h1 : g.nbrs 0 1 = [0])
    (hf : 3 ≤ g.searchFuel [0] 0) : g.searchLayerGreedy [0] [0] 0 ef = [0, 1] := by
  have e1 : (1 : Int) < ef := by omega
  have e3 : ¬ ef < 2 := by omega
  obtain ⟨n, hn⟩ : ∃ n, g.searchFuel [0] 0 = n + 3 := ⟨g.searchFuel [0] 0 - 3, by omega⟩
  unfold HNSWGraph.searchLayerGreedy
  rw [hn]
  simp [searchLoop, HNSWGraph.seedStep, SearchState.start, hz, maxPush, minPush,
    pairLt, HNSWGraph.expandStepGreedy, min_DBL_MAX_zero, h0, h1, e1, e3]

theorem eval_search3 (g : HNSWGraph) (ef : Int) (hef : 3 ≤ ef) (hz : ∀ id, g.distTo [0] id = 0)
    (h0 : g.nbrs 0 0 = [1, 2]) (h1 : g.nbrs 0 1 = [0, 2]) (h2 : g.nbrs 0 2 = [0, 1])
    (hf : 4 ≤ g.searchFuel [0] 0) : g.searchLayerGreedy [0] [0] 0 ef = [0, 1, 2] := by
  have e1 : (1 : Int) < ef := by omega
  have e2 : (2 : Int) < ef := by omega
  have e3 : ¬ ef < 2 := by omega
  have e4 : ¬ ef < 3 := by omega
  obtain ⟨n, hn⟩ : ∃ n, g.searchFuel [0] 0 = n + 4 := ⟨g.searchFuel [0] 0 - 4, by omega⟩
  unfold HNSWGraph.searchLayerGreedy
  rw [hn]
  simp [searchLoop, HNSWGraph.seedStep, SearchState.start, hz, maxPush, minPush,
    pairLt, HNSWGraph.expandStepGreedy, min_DBL_MAX_zero, h0, h1, h2, e1, e2, e3, e4]

theorem eval_build0 : (HNSWGraph.init 1).buildUpTo zeros4 (fun _ => 0) 0 = H0 := by
  have hw : wrapInt32 2 = 2 := wrapInt32_of_bounds 2 (by decide) (by decide)
  simp [HNSWGraph.buildUpTo, HNSWGraph.init, resize, H0, zeros4, hw]

theorem zeros4_getD (i : Nat) : zeros4.getD i [] = [0] ∨ zeros4.getD i [] = [] := by
  unfold zeros4
  rw [List.getD_eq_getElem?_getD, List.getElem?_replicate]
  split
  · left; rfl
  · right; rfl

theorem eval_insert0 : HNSWGraph.insertNode zeros4 H0 0 0 = H1 := by
  simp [HNSWGraph.insertNode, HNSWGraph.allocNode, H0, H1, resize, HNode.empty]

theorem eval_insert1 : HNSWGraph.insertNode zeros4 H1 1 0 = H2 := by
  have hq : zeros4.getD 1 [] = [0] := rfl
  have hs := eval_search1 (H1.allocNode 1 0) 200 (distTo_zero _ 4 rfl) rfl
  unfold HNSWGraph.insertNode
  rw [hq]
  have e1 : layersAbove H1.maxLayer 0 = [] := rfl
  have e2 : layersDownFrom (min 0 H1.maxLayer) = [0] := rfl
  have e3 : H1.entryPoint = 0 := rfl
  rw [e1, e2, e3]
  simp only [List.foldl_cons, List.foldl_nil, HNSWGraph.insertLayer, hs]
  simp [HNSWGraph.linkStep, HNSWGraph.updNeighbors, HNSWGraph.nbrs, HNSWGraph.allocNode, H1, H2,
    resize, HNode.empty]

theorem eval_insert2 : HNSWGraph.insertNode zeros4 H2 2 0 = H3 := by
  have hq : zeros4.getD 2 [] = [0] := rfl
  have hs := eval_search2 (H2.allocNode 2 0) 200 (by decide) (distTo_zero _ 4 rfl) rfl rfl
    (by decide)
  unfold HNSWGraph.insertNode
  rw [hq]
  have e1 : layersAbove H2.maxLayer 0 = [] := rfl
  have e2 : layersDownFrom (min 0 H2.maxLayer) = [0] := rfl
  have e3 : H2.entryPoint = 0 := rfl
  rw [e1, e2, e3]
  simp only [List.foldl_cons, List.foldl_nil, HNSWGraph.insertLayer, hs]
  simp [HNSWGraph.linkStep, HNSWGraph.updNeighbors, HNSWGraph.nbrs, HNSWGraph.allocNode, H2, H3,
    resize, HNode.empty]

theorem eval_insert3 : HNSWGraph.insertNode zeros4 H3 3 0 = H4 := by
  have hq : zeros4.getD 3 [] = [0] := rfl
  have hs := eval_search3 (H3.allocNode 3 0) 200 (by decide) (distTo_zero _ 4 rfl) rfl rfl rfl
    (by decide)
  unfold HNSWGraph.insertNode
  rw [hq]
  have e1 : layersAbove H3.maxLayer 0 = [] := rfl
  have e2 : layersDownFrom (min 0 H3.maxLayer) = [0] := rfl
  have e3 : H3.entryPoint = 0 := rfl
  rw [e1, e2, e3]
  simp only [List.foldl_cons, List.foldl_nil, HNSWGraph.insertLayer, hs]
  simp [HNSWGraph.linkStep, HNSWGraph.updNeighbors, HNSWGraph.nbrs, HNSWGraph.allocNode, H3, H4,
    resize, HNode.empty]

theorem eval_build4 : (HNSWGraph.init 1).buildIndex zeros4 (fun _ => 0) = H4 := by
  have e : zeros4.length = 4 := rfl
  unfold HNSWGraph.buildIndex
  rw [e, buildUpTo_succ, buildUpTo_succ, buildUpTo_succ, buildUpTo_succ, eval_build0,
    eval_insert0, eval_insert1, eval_insert2, eval_insert3]

theorem eval_query4 : H4.searchKNearest [0] 4 200 = [0, 0, 0] := by
  have hs := eval_search3 H4 200 (by decide) (distTo_zero _ 4 rfl) rfl rfl rfl (by decide)
  unfold HNSWGraph.searchKNearest
  have e1 : layersAbove H4.maxLayer 0 = [] := rfl
  have e3 : H4.entryPoint = 0 := rfl
  have e4 : max (200 : Int) 4 = 200 := by decide
  rw [e1, e3, e4]
  simp only [List.foldl_nil, hs]
  simp [distTo_zero H4 4 rfl]

/-- An instance of the amended C7 in the same graph, for the nodes `0 < 3` at layer 0. -/
theorem hnsw_links_symmetric_up_to_cap_witness :
    (3 ∈ ((HNSWGraph.init 1).buildIndex zeros4 (fun _ => 0)).nbrs 0 0 →
      0 ∈ ((HNSWGraph.init 1).buildIndex zeros4 (fun _ => 0)).nbrs 0 3) ∧
    (0 ∈ ((HNSWGraph.init 1).buildIndex zeros4 (fun _ => 0)).nbrs 0 3 →
      3 ∈ ((HNSWGraph.init 1).buildIndex zeros4 (fun _ => 0)).nbrs 0 0 ∨
      (if 0 = 0 then wrapInt32 ((1 : Int) * 2) else 1)
        ≤ (((HNSWGraph.init 1).buildIndex zeros4 (fun _ => 0)).nbrs 0 0).length) ∧
    (-2 ^ 30 ≤ (1 : Int) → (1 : Int) < 2 ^ 30 →
      0 ∈ ((HNSWGraph.init 1).buildIndex zeros4 (fun _ => 0)).nbrs 0 3 →
      3 ∈ ((HNSWGraph.init 1).buildIndex zeros4 (fun _ => 0)).nbrs 0 0 ∨
      (if 0 = 0 then (1 : Int) * 2 else 1)
        ≤ (((HNSWGraph.init 1).buildIndex zeros4 (fun _ => 0)).nbrs 0 0).length) :=
  hnsw_links_symmetric_up_to_cap 1 zeros4 (fun _ => 0) 0 3 0 (by decide)

/-! ## The greedy search on identical points -/

theorem minPush_zero_append (x : Nat) :
    ∀ l : List (ℝ × Nat), (∀ y ∈ l, y.1 = 0 ∧ y.2 < x) → minPush (0, x) l = l ++ [(0, x)] := by
  intro l
  induction l with
  | nil => intro _; rfl
  | cons b l ih =>
    intro h
    obtain ⟨hb1, hb2⟩ := h b (List.mem_cons_self _ _)
    have hlt : pairLt b (0, x) := by
      unfold pairLt
      right
      exact ⟨by rw [hb1]; exact lt_irrefl _, hb2⟩
    unfold minPush
    rw [List.orderedInsert, if_neg (not_not.2 hlt)]
    have := ih (fun y hy => h y (List.mem_cons_of_mem _ hy))
    unfold minPush at this
    rw [this]
    rfl

/-- On points that are all at distance 0 from the query, the loop over a list of
new neighbors with increasing ids, all larger than the ids in `nearest`,
appends them to `nearest` as long as `ef` is not exceeded. -/
theorem expandGreedy_fold_zero (g : HNSWGraph) (query : DataVector) (ef : Int)
    (hz : ∀ id, g.distTo query id = 0) :
    ∀ (ns : List Nat) (s : SearchState), ns.Pairwise (fun a b => a < b) →
      (∀ x ∈ ns, x ∉ s.visited) → (∀ y ∈ s.nearest, y.1 = 0 ∧ ∀ x ∈ ns, y.2 < x) →
      ((s.nearest.length + ns.length : Nat) : Int) ≤ ef →
      (ns.foldl (g.expandStepGreedy query ef) s).nearest
        = s.nearest ++ ns.map (fun i => ((0 : ℝ), i)) ∧
      (∀ v, v ∈ (ns.foldl (g.expandStepGreedy query ef) s).visited ↔ v ∈ ns ∨ v ∈ s.visited) ∧
      (∀ c ∈ (ns.foldl (g.expandStepGreedy query ef) s).candidates,
        c.2 ∈ ns ∨ c ∈ s.candidates) := by
  intro ns
  induction ns with
  | nil =>
    intro s _ _ _ _
    exact ⟨by simp, fun v => by simp, fun c hc => Or.inr hc⟩
  | cons x ns ih =>
    intro s hpw hv hnear hlen
    rw [List.pairwise_cons] at hpw
    have hx : x ∉ s.visited := hv x (List.mem_cons_self _ _)
    have hpush : minPush (0, x) s.nearest = s.nearest ++ [(0, x)] :=
      minPush_zero_append x s.nearest
        (fun y hy => ⟨(hnear y hy).1, (hnear y hy).2 x (List.mem_cons_self _ _)⟩)
    have hadm : (s.nearest.length : Int) < ef := by
      simp only [List.length_cons] at hlen
      omega
    have hno : ¬ ((s.nearest ++ [((0 : ℝ), x)]).length : Int) > ef := by
      simp only [List.length_cons, List.length_append, List.length_singleton,
        List.length_nil] at hlen ⊢
      omega
    have hstep : g.expandStepGreedy query ef s x =
        ⟨x :: s.visited, maxPush (-0, x) s.candidates, s.nearest ++ [(0, x)],
          min s.lowerBound 0⟩ := by
      unfold HNSWGraph.expandStepGreedy
      rw [if_neg hx, hz, if_pos (Or.inr hadm), hpush, if_neg hno]
    rw [List.foldl_cons, hstep]
    obtain ⟨r1, r2, r3⟩ := ih ⟨x :: s.visited, maxPush (-0, x) s.candidates,
        s.nearest ++ [(0, x)], min s.lowerBound 0⟩ hpw.2
      (fun y hy => by
        simp only [List.mem_cons, not_or]
        exact ⟨fun h => by have := hpw.1 y hy; omega, hv y (List.mem_cons_of_mem _ hy)⟩)
      (fun y hy => by
        rcases List.mem_append.1 hy with hy | hy
        · exact ⟨(hnear y hy).1, fun z hz1 => (hnear y hy).2 z (List.mem_cons_of_mem _ hz1)⟩
        · rw [List.mem_singleton] at hy
          subst hy
          exact ⟨rfl, fun z hz1 => hpw.1 z hz1⟩)
      (by
        simp only [List.length_cons, List.length_append, List.length_singleton,
          List.length_nil] at hlen ⊢
        omega)
    refine ⟨?_, ?_, ?_⟩
    · rw [r1]
      simp
    · intro v
      rw [r2]
      simp only [List.mem_cons]
      tauto
    · intro c hc
      rcases r3 c hc with h | h
      · left
        exact List.mem_cons_of_mem _ h
      · rcases (mem_maxPush _ _ _).1 h with rfl | h
        · left
          exact List.mem_cons_self _ _
        · right
          exact h

theorem foldl_visited_id (step : SearchState → Nat → SearchState)
    (hstep : ∀ s n, n ∈ s.visited → step s n = s) :
    ∀ (ns : List Nat) (s : SearchState), (∀ n ∈ ns, n ∈ s.visited) → ns.foldl step s = s := by
  intro ns
  induction ns with
  | nil => intro s _; rfl
  | cons n ns ih =>
    intro s h
    rw [List.foldl_cons, hstep s n (h n (List.mem_cons_self _ _))]
    exact ih s (fun x hx => h x (List.mem_cons_of_mem _ hx))

/-- When every neighbor of every candidate is already visited, the loop changes
`nearest` no more. -/
theorem searchLoop_nearest_fixed (step : SearchState → Nat → SearchState)
    (hstep : ∀ s n, n ∈ s.visited → step s n = s) (nbrs : Nat → List Nat) :
    ∀ (fuel : Nat) (s : SearchState),
      (∀ c ∈ s.candidates, ∀ x ∈ nbrs c.2, x ∈ s.visited) →
      (searchLoop step nbrs fuel s).nearest = s.nearest := by
  intro fuel
  induction fuel with
  | zero => intro s _; rfl
  | succ fuel ih =>
    intro s h
    unfold searchLoop
    cases hc : s.candidates with
    | nil => rfl
    | cons top rest =>
      simp only
      split
      · rfl
      · rw [foldl_visited_id step hstep (nbrs top.2) { s with candidates := rest }
          (fun x hx => h top (by rw [hc]; exact List.mem_cons_self _ _) x hx)]
        exact ih { s with candidates := rest }
          (fun c hc1 x hx => h c (by rw [hc]; exact List.mem_cons_of_mem _ hc1) x hx)

theorem range_erase_zero (n : Nat) : (List.range (n + 1)).erase 0 = List.range' 1 n := by
  rw [List.range_eq_range', List.range'_succ]
  simp

/-- On points all at distance 0 from the query, when node 0 lists the nodes
`1, ..., n - 1` in this order, these list only nodes below `n`, and
`n ≤ ef`, the greedy search from node 0 returns `0, 1, ..., n - 1`. -/
theorem searchGreedy_zero_complete (g : HNSWGraph) (query : DataVector) (ef : Int) (n : Nat)
    (hz : ∀ id, g.distTo query id = 0) (hef : ((n + 1 : Nat) : Int) ≤ ef)
    (h0 : g.nbrs 0 0 = List.range' 1 n)
    (hall : ∀ j, j < n + 1 → ∀ x ∈ g.nbrs 0 j, x < n + 1) :
    g.searchLayerGreedy query [0] 0 ef = List.range (n + 1) := by
  have hfuel : g.searchFuel [0] 0 =
      (1 + (g.nodes.map fun nd => (nd.neighbors.getD 0 []).length).sum) + 1 := by
    unfold HNSWGraph.searchFuel
    simp only [List.length_singleton]
  have hseed : [0].foldl (g.seedStep query) SearchState.start
      = ⟨[0], [(-0, 0)], [(0, 0)], min DBL_MAX 0⟩ := by
    simp only [List.foldl_cons, List.foldl_nil, HNSWGraph.seedStep, SearchState.start, hz]
    rfl
  have hE := expandGreedy_fold_zero g query ef hz (List.range' 1 n)
    ⟨[0], [], [(0, 0)], min DBL_MAX 0⟩ (List.pairwise_lt_range' _ _)
    (fun x hx => by
      rw [List.mem_range'] at hx
      obtain ⟨i, _, rfl⟩ := hx
      simp)
    (fun y hy => by
      rw [List.mem_singleton] at hy
      subst hy
      refine ⟨rfl, fun x hx => ?_⟩
      rw [List.mem_range'] at hx
      obtain ⟨i, _, rfl⟩ := hx
      simp only
      omega)
    (by
      simp only [List.length_singleton, List.length_range']
      rw [Nat.add_comm]
      exact hef)
  obtain ⟨r1, r2, r3⟩ := hE
  unfold HNSWGraph.searchLayerGreedy
  rw [hfuel, hseed]
  unfold searchLoop
  simp only
  have hnb : ¬ (-(-(0 : ℝ)) > min DBL_MAX 0) := by
    rw [min_DBL_MAX_zero]
    simp
  rw [if_neg hnb, h0]
  rw [searchLoop_nearest_fixed _ (fun s m hm => ((expandStepGreedy_ok g query ef) s m).1 hm)]
  · rw [r1]
    rw [List.range_eq_range', List.range'_succ]
    simp
  · intro c hc x hx
    rcases r3 c hc with h | h
    · rw [List.mem_range'] at h
      obtain ⟨i, hi, hci⟩ := h
      have hxn := hall c.2 (by omega) x hx
      rw [r2]
      by_cases hx0 : x = 0
      · right
        simp [hx0]
      · left
        rw [List.mem_range']
        exact ⟨x - 1, by omega, by omega⟩
    · simp at h

/-! ## The exact effect of the link loop -/

/-- The neighbor lists after the loop over distinct candidates `cs`, none of them
the new node `i`: the list of `i` is extended by `cs`, the list of a
candidate by `i` unless it already holds `cap` ids or more, and nothing
else changes. -/
theorem linkFold_nbrs (i lc : Nat) (cap : Int) :
    ∀ (cs : List Nat) (g : HNSWGraph), cs.Nodup → g.HasLayer i lc →
      (∀ c ∈ cs, c ≠ i ∧ g.HasLayer c lc) → ∀ l x,
      (cs.foldl (HNSWGraph.linkStep i lc cap) g).nbrs l x =
        if l = lc ∧ x = i then g.nbrs lc i ++ cs
        else if l = lc ∧ x ∈ cs then
          (if ((g.nbrs lc x).length : Int) + 1 > cap then g.nbrs lc x else g.nbrs lc x ++ [i])
        else g.nbrs l x := by
  intro cs
  induction cs with
  | nil =>
    intro g _ _ _ l x
    by_cases h1 : l = lc ∧ x = i
    · rw [if_pos h1, h1.1, h1.2]
      simp
    · rw [if_neg h1, if_neg (fun h => by simp at h)]
      rfl
  | cons c cs ih =>
    intro g hnd hi hcs l x
    rw [List.nodup_cons] at hnd
    obtain ⟨hci, hc⟩ := hcs c (List.mem_cons_self _ _)
    have hf := linkStep_frame i lc cap g c
    rw [List.foldl_cons, ih _ hnd.2 ((hf.hasLayer i lc).2 hi)
      (fun c1 hc1 => ⟨(hcs c1 (List.mem_cons_of_mem _ hc1)).1,
        (hf.hasLayer c1 lc).2 (hcs c1 (List.mem_cons_of_mem _ hc1)).2⟩)]
    have hstep := linkStep_nbrs i lc cap g c hci hi hc
    by_cases h1 : l = lc ∧ x = i
    · have e : (HNSWGraph.linkStep i lc cap g c).nbrs lc i = g.nbrs lc i ++ [c] := by
        rw [hstep, if_pos ⟨rfl, rfl⟩]
      simp only [if_pos h1, e]
      simp
    · simp only [if_neg h1]
      by_cases h2 : l = lc ∧ x ∈ cs
      · have hxc : x ≠ c := fun h => hnd.1 (h ▸ h2.2)
        have hxi : ¬ (lc = lc ∧ x = i) := fun h => h1 ⟨h2.1, h.2⟩
        have hxc1 : ¬ (lc = lc ∧ x = c) := fun h => hxc h.2
        have e : (HNSWGraph.linkStep i lc cap g c).nbrs lc x = g.nbrs lc x := by
          rw [hstep, if_neg hxi, if_neg hxc1]
        have h2c : l = lc ∧ x ∈ c :: cs := ⟨h2.1, List.mem_cons_of_mem _ h2.2⟩
        simp only [if_pos h2, if_pos h2c, e]
      · simp only [if_neg h2]
        by_cases h3 : l = lc ∧ x = c
        · have h2c : l = lc ∧ x ∈ c :: cs := ⟨h3.1, by rw [h3.2]; exact List.mem_cons_self _ _⟩
          rw [if_pos h2c, hstep, if_neg h1, if_pos h3, h3.2]
        · have h2c : ¬ (l = lc ∧ x ∈ c :: cs) := by
            intro h
            rcases List.mem_cons.1 h.2 with h4 | h4
            · exact h3 ⟨h.1, h4⟩
            · exact h2 ⟨h.1, h4⟩
          rw [if_neg h2c, hstep, if_neg h1, if_neg h3]

/-! ## The build on identical points with all layers 0 -/

theorem insertNode_layer_zero (dataset : List DataVector) (g : HNSWGraph) (i : Nat)
    (hi : i ≠ 0) (hml : g.maxLayer = 0) :
    HNSWGraph.insertNode dataset g i 0 =
      ((g.allocNode i 0).searchLayerGreedy (dataset.getD i []) [g.entryPoint] 0 200).foldl
        (HNSWGraph.linkStep i 0 (g.allocNode i 0).maxM0) (g.allocNode i 0) := by
  unfold HNSWGraph.insertNode
  rw [if_neg hi, hml]
  have e1 : layersAbove 0 0 = [] := rfl
  have e2 : layersDownFrom (min 0 0) = [0] := rfl
  rw [e1, e2]
  simp only [List.foldl_cons, List.foldl_nil, HNSWGraph.insertLayer, if_true]
  rw [if_neg (Nat.not_lt_zero _)]

theorem distTo_zero_replicate (g : HNSWGraph) (N : Nat) (hd : g.data = List.replicate N [0])
    (id : Nat) : g.distTo [0] id = 0 :=
  distTo_zero g N hd id

/-- One insertion into the complete graph on `n` identical points: the new node `n`
lists `0, ..., n - 1`; an older node appends `n` unless its `n - 1` ids
already exceed the cap `2M` when `n` is added. -/
theorem zero_build_step (M : Int) (N n : Nat) (g : HNSWGraph)
    (hinv : BuildInv N (fun _ => 0) n g) (hdata : g.data = List.replicate N [0])
    (hcap : g.maxM0 = M * 2) (hn1 : 1 ≤ n) (hnN : n < N) (hn200 : n ≤ 200)
    (hz : ZeroComplete n g) :
    (HNSWGraph.insertNode (List.replicate N [0]) g n 0).entryPoint = 0 ∧
    (HNSWGraph.insertNode (List.replicate N [0]) g n 0).maxLayer = 0 ∧
    ∀ j, (HNSWGraph.insertNode (List.replicate N [0]) g n 0).nbrs 0 j =
      if j = n then List.range n
      else if j < n then
        (if ((n - 1 : Nat) : Int) + 1 > M * 2 then (List.range n).erase j
          else (List.range n).erase j ++ [n])
      else [] := by
  obtain ⟨hep, hml, hnb⟩ := hz
  have hfresh := hinv.fresh n (le_refl _)
  have hnbrs := allocNode_nbrs g n 0 hfresh
  have hq : (List.replicate N ([0] : DataVector)).getD n [] = [0] := by
    rw [List.getD_eq_getElem?_getD, List.getElem?_replicate, if_pos hnN]
    rfl
  have hdist : ∀ id, (g.allocNode n 0).distTo [0] id = 0 :=
    distTo_zero (g.allocNode n 0) N hdata
  obtain ⟨m, rfl⟩ : ∃ m, n = m + 1 := ⟨n - 1, by omega⟩
  have hsearch := searchGreedy_zero_complete (g.allocNode (m + 1) 0) [0] 200 m hdist
    (by push_cast; omega)
    (by rw [hnbrs, hnb, if_pos (by omega), range_erase_zero])
    (fun j hj x hx => by
      rw [hnbrs, hnb, if_pos hj] at hx
      exact List.mem_range.1 (List.mem_of_mem_erase hx))
  have hlenA : (g.allocNode (m + 1) 0).nodes.length = N := by
    rw [allocNode_length, hinv.len]
  have hself := allocNode_getD_self g (m + 1) 0 (by rw [hinv.len]; exact hnN) hfresh
  have hlayer : ∀ c, c < m + 1 + 1 → (g.allocNode (m + 1) 0).HasLayer c 0 := by
    intro c hc
    refine ⟨by rw [hlenA]; omega, ?_⟩
    by_cases hcn : c = m + 1
    · subst hcn
      rw [hself]
      simp
    · rw [allocNode_getD_ne g (m + 1) 0 c hcn, (hinv.inserted c (by omega)).1]
      omega
  have hfold := linkFold_nbrs (m + 1) 0 (g.allocNode (m + 1) 0).maxM0 (List.range (m + 1))
    (g.allocNode (m + 1) 0) (List.nodup_range _) (hlayer _ (by omega))
    (fun c hc => by
      rw [List.mem_range] at hc
      exact ⟨by omega, hlayer c (by omega)⟩)
  have hframe := linkFold_frame (m + 1) 0 (g.allocNode (m + 1) 0).maxM0 (List.range (m + 1))
    (g.allocNode (m + 1) 0)
  rw [insertNode_layer_zero _ g (m + 1) (by omega) hml, hq, hep, hsearch]
  refine ⟨hframe.2.2.2.2.2.2.2.trans hep, hframe.2.2.2.2.2.2.1.trans hml, ?_⟩
  intro j
  rw [hfold 0 j]
  have hcapA : (g.allocNode (m + 1) 0).maxM0 = M * 2 := hcap
  by_cases hj : j = m + 1
  · subst hj
    rw [if_pos ⟨rfl, rfl⟩, if_pos rfl, hnbrs, hnb, if_neg (lt_irrefl _)]
    rfl
  · rw [if_neg (fun h => hj h.2), if_neg hj]
    by_cases hjn : j < m + 1
    · rw [if_pos ⟨rfl, List.mem_range.2 hjn⟩, if_pos hjn, hnbrs, hnb, if_pos hjn, hcapA]
      have hlen : ((List.range (m + 1)).erase j).length = m := by
        rw [List.length_erase_of_mem (List.mem_range.2 hjn), List.length_range]
        rfl
      rw [hlen]
      rfl
    · rw [if_neg (fun h => hjn (List.mem_range.1 h.2)), if_neg hjn, hnbrs, hnb, if_neg hjn]

theorem range_succ_erase (n j : Nat) (hj : j < n) :
    (List.range (n + 1)).erase j = (List.range n).erase j ++ [n] := by
  rw [List.range_succ, List.erase_append_left _ (List.mem_range.2 hj)]

theorem range_succ_erase_self (n : Nat) : (List.range (n + 1)).erase n = List.range n := by
  rw [List.range_succ, List.erase_append_right _ (by simp)]
  simp

/-- While the cap `2M` is not reached, the build on identical points with all
layers 0 produces the complete graph. -/
theorem zero_build_complete (M : Int) (N : Nat) (hlo : -2 ^ 30 ≤ M) (hhi : M < 2 ^ 30) :
    ∀ n, 1 ≤ n → n ≤ N → (n : Int) ≤ M * 2 + 1 → n ≤ 201 →
      ZeroComplete n ((HNSWGraph.init M).buildUpTo (List.replicate N [0]) (fun _ => 0) n) := by
  intro n
  induction n with
  | zero => intro h; omega
  | succ n ih =>
    intro _ hN hM h200
    have hlenN : (List.replicate N ([0] : DataVector)).length = N := List.length_replicate _ _
    have hinv := buildInv_upTo M (List.replicate N [0]) (fun _ => 0) n (by rw [hlenN]; omega)
    rw [hlenN] at hinv
    have hp := buildUpTo_params M (List.replicate N [0]) (fun _ => 0) n
    rw [buildUpTo_succ]
    by_cases hn0 : n = 0
    · subst hn0
      have hfresh := hinv.fresh 0 (le_refl _)
      refine ⟨rfl, rfl, ?_⟩
      intro j
      have e : (HNSWGraph.insertNode (List.replicate N [0])
          ((HNSWGraph.init M).buildUpTo (List.replicate N [0]) (fun _ => 0) 0) 0 0).nbrs 0 j
          = (((HNSWGraph.init M).buildUpTo (List.replicate N [0]) (fun _ => 0) 0).allocNode
            0 0).nbrs 0 j := rfl
      rw [e, allocNode_nbrs _ 0 0 hfresh]
      have hv := hinv.valid 0 j
      split
      · rename_i hj1
        have hj0 : j = 0 := by omega
        subst hj0
        cases hl : ((HNSWGraph.init M).buildUpTo (List.replicate N [0]) (fun _ => 0) 0).nbrs 0 0
          with
        | nil => decide
        | cons x xs =>
          have := (hv x (by rw [hl]; exact List.mem_cons_self _ _)).1
          omega
      · cases hl : ((HNSWGraph.init M).buildUpTo (List.replicate N [0]) (fun _ => 0) 0).nbrs 0 j
          with
        | nil => rfl
        | cons x xs =>
          have := (hv x (by rw [hl]; exact List.mem_cons_self _ _)).1
          omega
    · have hz := ih (by omega) (by omega) (by omega) (by omega)
      obtain ⟨s1, s2, s3⟩ := zero_build_step M N n _ hinv hp.1
        (buildUpTo_maxM0 M _ _ n hlo hhi) (by omega) (by omega)
        (by omega) hz
      refine ⟨s1, s2, ?_⟩
      intro j
      rw [s3 j]
      by_cases hj : j = n
      · subst hj
        rw [if_pos rfl, if_pos (show j < j + 1 by omega), range_succ_erase_self]
      · rw [if_neg hj]
        by_cases hjn : j < n
        · have hcapn : ¬ (((n - 1 : Nat) : Int) + 1 > M * 2) := by
            have : ((n - 1 : Nat) : Int) = (n : Int) - 1 := by omega
            rw [this]
            push_cast at hM
            omega
          rw [if_pos hjn, if_neg hcapn, if_pos (show j < n + 1 by omega),
            range_succ_erase n j hjn]
        · rw [if_neg hjn, if_neg (show ¬ j < n + 1 by omega)]

/-! ## The default parameters: `M = 16`, 34 identical points -/

/-- The first 33 nodes form a complete graph, each with `32 = maxM0` neighbors; node
33 lists all of them and is listed by none. -/
theorem zeroGraph34_nbrs :
    zeroGraph34.entryPoint = 0 ∧ zeroGraph34.maxLayer = 0 ∧
    ∀ j, zeroGraph34.nbrs 0 j =
      if j = 33 then List.range 33
      else if j < 33 then (List.range 33).erase j else [] := by
  have hlen : (List.replicate 34 ([0] : DataVector)).length = 34 := List.length_replicate _ _
  have hinv := buildInv_upTo 16 (List.replicate 34 [0]) (fun _ => 0) 33 (by rw [hlen]; omega)
  rw [hlen] at hinv
  have hp := buildUpTo_params 16 (List.replicate 34 [0]) (fun _ => 0) 33
  have hz := zero_build_complete 16 34 (by decide) (by decide) 33 (by omega) (by omega)
    (by decide) (by omega)
  obtain ⟨s1, s2, s3⟩ := zero_build_step 16 34 33 _ hinv hp.1
    (buildUpTo_maxM0 16 _ _ 33 (by decide) (by decide)) (by omega) (by omega)
    (by omega) hz
  have e : zeroGraph34 = HNSWGraph.insertNode (List.replicate 34 [0])
      ((HNSWGraph.init 16).buildUpTo (List.replicate 34 [0]) (fun _ => 0) 33) 33 0 := by
    unfold zeroGraph34 HNSWGraph.buildIndex
    rw [hlen, buildUpTo_succ]
  rw [e]
  refine ⟨s1, s2, ?_⟩
  intro j
  rw [s3 j]
  have hcap : ((33 - 1 : Nat) : Int) + 1 > 16 * 2 := by decide
  rw [if_pos hcap]

theorem zeroGraph34_search :
    zeroGraph34.searchLayerGreedy [0] [0] 0 200 = List.range 33 := by
  obtain ⟨_, _, h3⟩ := zeroGraph34_nbrs
  have hdata : zeroGraph34.data = List.replicate 34 [0] :=
    (buildUpTo_params 16 (List.replicate 34 [0]) (fun _ => 0) _).1
  apply searchGreedy_zero_complete zeroGraph34 [0] 200 32 (distTo_zero _ 34 hdata) (by decide)
  · rw [h3 0, if_neg (by decide), if_pos (by decide)]
    exact range_erase_zero 32
  · intro j hj x hx
    rw [h3 j, if_neg (by omega), if_pos hj] at hx
    exact List.mem_range.1 (List.mem_of_mem_erase hx)

theorem zeroGraph34_query : (zeroGraph34.searchKNearest [0] 34 200).length = 33 := by
  obtain ⟨h1, h2, _⟩ := zeroGraph34_nbrs
  unfold HNSWGraph.searchKNearest
  have e1 : layersAbove 0 0 = [] := rfl
  have e4 : max (200 : Int) 34 = 200 := by decide
  rw [h2, h1, e1, e4]
  simp only [List.foldl_nil, zeroGraph34_search]
  simp

/-- C3 (counterexample): `searchKNearest` returns fewer than `min(k, N)` distances.
With the default `M = 16`, 34 copies of the point `(0)` and all layer draws 0,
`searchKNearest(q, 34, 200)` returns 33 distances: the first 33 nodes hold
`maxM0 = 32` neighbors each, so node 33 is in no list and is never reached.
The same happens with `M = 1` and four points (three distances for
`k = 4`). -/
theorem hnsw_length_counterexample :
    ((((HNSWGraph.init 16).buildIndex (List.replicate 34 [0]) (fun _ => 0)).searchKNearest
        [0] 34 200).length = 33 ∧
      33 ≠ min (34 : Int).toNat (List.replicate 34 ([0] : DataVector)).length) ∧
    ((((HNSWGraph.init 1).buildIndex zeros4 (fun _ => 0)).searchKNearest [0] 4 200).length = 3 ∧
      3 ≠ min (4 : Int).toNat zeros4.length) := by
  refine ⟨⟨zeroGraph34_query, by decide⟩, ?_⟩
  rw [eval_build4, eval_query4]
  decide

/-- C7 (counterexample): the neighbor relation is not symmetric. With the default
`M = 16`, 34 copies of the point `(0)` and all layer draws 0, node 33 lists
node 0 at layer 0 but node 0 does not list node 33; with `M = 1` and four
points node 3 lists node 0 but node 0 does not list node 3. -/
theorem hnsw_symmetry_counterexample :
    ¬ (0 ∈ ((HNSWGraph.init 16).buildIndex (List.replicate 34 [0]) (fun _ => 0)).nbrs 0 33 ↔
      33 ∈ ((HNSWGraph.init 16).buildIndex (List.replicate 34 [0]) (fun _ => 0)).nbrs 0 0) ∧
    ¬ (0 ∈ ((HNSWGraph.init 1).buildIndex zeros4 (fun _ => 0)).nbrs 0 3 ↔
      3 ∈ ((HNSWGraph.init 1).buildIndex zeros4 (fun _ => 0)).nbrs 0 0) := by
  constructor
  · obtain ⟨_, _, h3⟩ := zeroGraph34_nbrs
    have e33 := h3 33
    have e0 := h3 0
    unfold zeroGraph34 at e33 e0
    rw [e33, e0]
    decide
  · rw [eval_build4]
    decide

/-- C8 (evaluation at failing inputs): the list of a new node is never pruned. With
the default `M = 16` (`maxM0 = 32`), 34 copies of the point `(0)` and all
layer draws 0, the layer-0 list of node 33 holds the 33 ids `0, ..., 32`;
with `M = 1` (`maxM0 = 2`) and four points the list of node 3 holds the
three ids `0, 1, 2`. -/
theorem hnsw_cap_exceeded :
    (((HNSWGraph.init 16).buildIndex (List.replicate 34 [0]) (fun _ => 0)).nbrs 0 33
        = List.range 33 ∧
      ((HNSWGraph.init 16).buildIndex (List.replicate 34 [0]) (fun _ => 0)).maxM0 = 32 ∧
      ¬ ((((HNSWGraph.init 16).buildIndex (List.replicate 34 [0]) (fun _ => 0)).nbrs
          0 33).length : Int)
        ≤ ((HNSWGraph.init 16).buildIndex (List.replicate 34 [0]) (fun _ => 0)).maxM0) ∧
    (((HNSWGraph.init 1).buildIndex zeros4 (fun _ => 0)).nbrs 0 3 = [0, 1, 2] ∧
      ((HNSWGraph.init 1).buildIndex zeros4 (fun _ => 0)).maxM0 = 2 ∧
      ¬ ((((HNSWGraph.init 1).buildIndex zeros4 (fun _ => 0)).nbrs 0 3).length : Int)
        ≤ ((HNSWGraph.init 1).buildIndex zeros4 (fun _ => 0)).maxM0) := by
  constructor
  · obtain ⟨_, _, h3⟩ := zeroGraph34_nbrs
    have e33 := h3 33
    unfold zeroGraph34 at e33
    have hm : ((HNSWGraph.init 16).buildIndex (List.replicate 34 [0]) (fun _ => 0)).maxM0
        = 32 :=
      buildUpTo_maxM0 16 (List.replicate 34 [0]) (fun _ => 0) _ (by decide) (by decide)
    rw [e33, hm]
    decide
  · rw [eval_build4]
    decide

/-! ## Negative `k` in general -/

/-- For every negative `int` `k` and every dataset of fewer than `2^32` points, both
tree searches return all `N` distances: `k` is compared as the `size_t` value
`2^64 + k`, which no queue size exceeds. -/
theorem tree_search_negative_k_all (S : StdSort) (gen : Gen) (dataset : List DataVector)
    (q : DataVector) (k : Int) (h1 : -(2 ^ 31) ≤ k) (h2 : k < 0)
    (hN : dataset.length < 2 ^ 32) :
    (∃ res, KDTreeIndex.searchKNearest (KDTreeIndex.Maketree S dataset) q k = some res ∧
      res.length = dataset.length) ∧
    (∃ res, RPTreeIndex.searchKNearest (RPTreeIndex.Maketree S gen dataset).1 q k = some res ∧
      res.length = dataset.length) := by
  have hK := toSizeT_neg h1 h2
  have hK1 : 1 ≤ toSizeT k := by rw [hK]; omega
  constructor
  · obtain ⟨pq1, e1, e2⟩ := kd_searchRecursive_length rfl hK1 q
      (KDTreeIndex.build S dataset) [] (by simp)
    refine ⟨pq1.reverse, ?_, ?_⟩
    · unfold KDTreeIndex.searchKNearest KDTreeIndex.Maketree
      rw [e1, Option.map_some']
    · rw [List.length_reverse, e2, (KDTreeIndex.build_leafPoints S _ dataset rfl).length_eq, hK]
      simp only [List.length_nil, Nat.zero_add]
      omega
  · obtain ⟨pq1, e1, e2⟩ := rp_searchRecursive_length rfl hK1 q
      (RPTreeIndex.build S gen dataset).1 [] (by simp)
    refine ⟨pq1.reverse, ?_, ?_⟩
    · unfold RPTreeIndex.searchKNearest RPTreeIndex.Maketree
      rw [e1, Option.map_some']
    · rw [List.length_reverse, e2, (rp_build_leafPoints S _ gen dataset rfl).length_eq, hK]
      simp only [List.length_nil, Nat.zero_add]
      omega

/-! ## The root of a tree over 101 to 200 points (C12) -/

/-- C12: for a dataset of `N` points with `101 ≤ N ≤ 200` (a common dimension is
not even needed), `KDTreeIndex::build` and `RPTreeIndex::build` (for every state
of the direction generator) return an internal root whose two children are
leaves, the left one with `N / 2` points and the right one with `N - N / 2`
points (50 and 51 for `N = 101`). -/
theorem tree_build_two_leaves (S : StdSort) (g : Gen) (dataset : List DataVector)
    (hlo : 101 ≤ dataset.length) (hhi : dataset.length ≤ 200) :
    (∃ sd sv dir pl pr,
      KDTreeIndex.Maketree S dataset = Node.internal sd sv dir (Node.leaf pl) (Node.leaf pr) ∧
      pl.length = dataset.length / 2 ∧ pr.length = dataset.length - dataset.length / 2) ∧
    (∃ sd sv dir pl pr,
      (RPTreeIndex.Maketree S g dataset).1
        = Node.internal sd sv dir (Node.leaf pl) (Node.leaf pr) ∧
      pl.length = dataset.length / 2 ∧ pr.length = dataset.length - dataset.length / 2) := by
  have hk : KDTreeIndex.Maketree S dataset = Node.internal (KDTreeIndex.chooseSplit dataset).1
      (((S.sortBy (fun a => a.get (KDTreeIndex.chooseSplit dataset).1) dataset).getD
        (dataset.length / 2) []).get (KDTreeIndex.chooseSplit dataset).1) []
      (Node.leaf ((S.sortBy (fun a => a.get (KDTreeIndex.chooseSplit dataset).1) dataset).take
        (dataset.length / 2)))
      (Node.leaf ((S.sortBy (fun a => a.get (KDTreeIndex.chooseSplit dataset).1) dataset).drop
        (dataset.length / 2))) := by
    unfold KDTreeIndex.Maketree
    rw [KDTreeIndex.build_internal S dataset (by omega),
      KDTreeIndex.build_leaf S (List.take _ _) (by rw [List.length_take]; omega),
      KDTreeIndex.build_leaf S (List.drop _ _)
        (by rw [List.length_drop, (S.perm _ _).length_eq]; omega)]
  have hr : (RPTreeIndex.Maketree S g dataset).1 = Node.internal (-1)
      (((S.sortBy (fun a => a.dot (g.drawDir (dataset.headD []).length).1) dataset).getD
        (dataset.length / 2) []).dot (g.drawDir (dataset.headD []).length).1)
      (g.drawDir (dataset.headD []).length).1
      (Node.leaf ((S.sortBy (fun a => a.dot (g.drawDir (dataset.headD []).length).1)
        dataset).take (dataset.length / 2)))
      (Node.leaf ((S.sortBy (fun a => a.dot (g.drawDir (dataset.headD []).length).1)
        dataset).drop (dataset.length / 2))) := by
    unfold RPTreeIndex.Maketree
    rw [rp_build_internal S g dataset (by omega),
      rp_build_leaf S _ (List.take _ _) (by rw [List.length_take]; omega),
      rp_build_leaf S _ (List.drop _ _)
        (by rw [List.length_drop, (S.perm _ _).length_eq]; omega)]
  refine ⟨⟨_, _, _, _, _, hk, ?_, ?_⟩, ⟨_, _, _, _, _, hr, ?_, ?_⟩⟩
  · rw [List.length_take, (S.perm _ _).length_eq]
    omega
  · rw [List.length_drop, (S.perm _ _).length_eq]
  · rw [List.length_take, (S.perm _ _).length_eq]
    omega
  · rw [List.length_drop, (S.perm _ _).length_eq]

/-- An instance of C12: 101 copies of the origin of dimension 3 give leaves of 50
and 51 points. -/
theorem tree_build_two_leaves_witness :
    (∃ sd sv dir pl pr,
      KDTreeIndex.Maketree StdSort.insertion (List.replicate 101 [0, 0, 0])
        = Node.internal sd sv dir (Node.leaf pl) (Node.leaf pr) ∧
      pl.length = 50 ∧ pr.length = 51) ∧
    (∃ sd sv dir pl pr,
      (RPTreeIndex.Maketree StdSort.insertion ⟨fun _ => 0, 0⟩ (List.replicate 101 [0, 0, 0])).1
        = Node.internal sd sv dir (Node.leaf pl) (Node.leaf pr) ∧
      pl.length = 50 ∧ pr.length = 51) := by
  have h := tree_build_two_leaves StdSort.insertion ⟨fun _ => 0, 0⟩
    (List.replicate 101 [0, 0, 0]) (by simp) (by simp)
  simpa using h

/-! ## A dataset of one point (C13) -/

theorem leafScan_single (q p : DataVector) (k : Int) (hk : 1 ≤ toSizeT k) :
    leafScan q k [p] [] = [q.dist p] := by
  have h : ¬ (1 > toSizeT k) := by omega
  simp [leafScan, PQ.push, h]

/-- When no candidate has a neighbor at the layer, the `while` loop leaves `nearest`
as the entry points have filled it. -/
theorem searchLoop_no_nbrs (step : SearchState → Nat → SearchState) (nbrs : Nat → List Nat) :
    ∀ (fuel : Nat) (s : SearchState), (∀ c ∈ s.candidates, nbrs c.2 = []) →
      (searchLoop step nbrs fuel s).nearest = s.nearest := by
  intro fuel
  induction fuel with
  | zero => intro s _; rfl
  | succ fuel ih =>
    intro s h
    cases hc : s.candidates with
    | nil => simp [searchLoop, hc]
    | cons top rest =>
      rw [hc] at h
      by_cases hb : -top.1 > s.lowerBound
      · simp [searchLoop, hc, hb]
      · have e : searchLoop step nbrs (fuel + 1) s
            = searchLoop step nbrs fuel
                ((nbrs top.2).foldl step { s with candidates := rest }) := by
          simp [searchLoop, hc, hb]
        rw [e, h top (List.mem_cons_self _ _), List.foldl_nil]
        exact ih _ (fun c hcm => h c (List.mem_cons_of_mem _ hcm))

theorem searchLayer_isolated (g : HNSWGraph) (query : DataVector) (ep layer : Nat)
    (h : g.nbrs layer ep = []) : g.searchLayer query [ep] layer = [ep] := by
  unfold HNSWGraph.searchLayer
  rw [searchLoop_no_nbrs]
  · simp [HNSWGraph.seedStep, SearchState.start, minPush]
  · intro c hc
    simp [HNSWGraph.seedStep, SearchState.start, maxPush] at hc
    rw [hc]
    exact h

theorem searchLayerGreedy_isolated (g : HNSWGraph) (query : DataVector) (ep layer : Nat)
    (ef : Int) (h : g.nbrs layer ep = []) :
    g.searchLayerGreedy query [ep] layer ef = [ep] := by
  unfold HNSWGraph.searchLayerGreedy
  rw [searchLoop_no_nbrs]
  · simp [HNSWGraph.seedStep, SearchState.start, minPush]
  · intro c hc
    simp [HNSWGraph.seedStep, SearchState.start, maxPush] at hc
    rw [hc]
    exact h

theorem descent_fold_isolated (g : HNSWGraph) (query : DataVector) (ep : Nat)
    (h : ∀ l, g.nbrs l ep = []) :
    ∀ ls : List Nat, ls.foldl (g.descentStep query) [ep] = [ep] := by
  intro ls
  induction ls with
  | nil => rfl
  | cons lc ls ih =>
    rw [List.foldl_cons]
    have e : g.descentStep query [ep] lc = [ep] := by
      unfold HNSWGraph.descentStep
      rw [searchLayer_isolated g query ep lc (h lc)]
    rw [e]
    exact ih

/-- C13: on a dataset holding the single point `p`, for every query `q`,
`searchKNearest(q, 10)` of the KD-tree and of the RP-tree (for every state of the
direction generator) and `searchKNearest(q, 10, 200)` of the HNSW graph (for every
`M` and every layer drawn for the point) return the one-element list
`[dist(q, p)]`. -/
theorem single_point_search (S : StdSort) (gen : Gen) (M : Int) (layers : Nat → Nat)
    (p q : DataVector) :
    KDTreeIndex.searchKNearest (KDTreeIndex.Maketree S [p]) q 10 = some [q.dist p] ∧
    RPTreeIndex.searchKNearest (RPTreeIndex.Maketree S gen [p]).1 q 10 = some [q.dist p] ∧
    ((HNSWGraph.init M).buildIndex [p] layers).searchKNearest q 10 200 = [q.dist p] := by
  have h10 : (1 : Nat) ≤ toSizeT 10 := by
    rw [toSizeT_of_nonneg (by decide) (by decide)]
    decide
  refine ⟨?_, ?_, ?_⟩
  · unfold KDTreeIndex.searchKNearest KDTreeIndex.Maketree
    rw [KDTreeIndex.build_leaf S [p] (by simp)]
    simp [KDTreeIndex.searchRecursive, leafScan_single q p 10 h10]
  · unfold RPTreeIndex.searchKNearest RPTreeIndex.Maketree
    rw [rp_build_leaf S gen [p] (by simp)]
    simp [RPTreeIndex.searchRecursive, leafScan_single q p 10 h10]
  · have hb := buildInv_upTo M [p] layers 1 (le_refl _)
    have hpar := buildUpTo_params M [p] layers 1
    have hn : ∀ l j, ((HNSWGraph.init M).buildUpTo [p] layers 1).nbrs l j = [] := by
      intro l j
      apply List.eq_nil_iff_forall_not_mem.2
      intro x hx
      have := hb.valid l j x hx
      omega
    have he : ((HNSWGraph.init M).buildUpTo [p] layers 1).entryPoint = 0 := by
      have := (hb.entry (by decide)).1
      omega
    unfold HNSWGraph.buildIndex
    show ((HNSWGraph.init M).buildUpTo [p] layers 1).searchKNearest q 10 200 = [q.dist p]
    unfold HNSWGraph.searchKNearest
    rw [he, descent_fold_isolated _ q 0 (fun l => hn l 0),
      searchLayerGreedy_isolated _ q 0 0 _ (hn 0 0)]
    simp [HNSWGraph.distTo, hpar.1]

/-! ## The partition made by `KDTreeIndex::build` (C17) -/

theorem Node.KDOrdered.subnode {d : Nat} :
    ∀ (t : Node), t.KDOrdered d → ∀ u ∈ t.subnodes, u.KDOrdered d := by
  intro t
  induction t with
  | null =>
    intro h u hu
    simp only [Node.subnodes, List.mem_singleton] at hu
    rw [hu]
    exact h
  | leaf points =>
    intro h u hu
    simp only [Node.subnodes, List.mem_singleton] at hu
    rw [hu]
    exact h
  | internal sd sv dir left right ihl ihr =>
    intro h u hu
    simp only [Node.subnodes, List.mem_cons, List.mem_append] at hu
    rcases hu with hu | hu | hu
    · rw [hu]
      exact h
    · exact ihl h.2.2.2.1 u hu
    · exact ihr h.2.2.2.2 u hu

/-- C17: in the tree that `KDTreeIndex::build` returns for a dataset of common
dimension `d ≥ 1`, at every internal node with split `(splitDim, splitVal)`
every point stored in a leaf below the left child has
`coord[splitDim] ≤ splitVal` and every point stored in a leaf below the right child
has `coord[splitDim] ≥ splitVal` (and `splitDim` is a dimension of the points). -/
theorem kd_build_partition (S : StdSort) (dataset : List DataVector) (d : Nat) (hd : 1 ≤ d)
    (hdim : ∀ p ∈ dataset, p.length = d) :
    ∀ splitDim splitVal projDir left right,
      Node.internal splitDim splitVal projDir left right
          ∈ (KDTreeIndex.Maketree S dataset).subnodes →
        (0 ≤ splitDim ∧ splitDim.toNat < d) ∧
        (∀ p ∈ left.leafPoints, p.get splitDim ≤ splitVal) ∧
        (∀ p ∈ right.leafPoints, splitVal ≤ p.get splitDim) := by
  intro sd sv dir left right hmem
  have h := Node.KDOrdered.subnode _
    (KDTreeIndex.build_ordered S d (by omega) _ dataset rfl hdim) _ hmem
  exact ⟨h.1, h.2.1, h.2.2.1⟩

/-- The KD-tree over 101 to 200 points: the root and its two leaves. -/
theorem kd_root_small (S : StdSort) (dataset : List DataVector) (hlo : 101 ≤ dataset.length)
    (hhi : dataset.length ≤ 200) :
    KDTreeIndex.Maketree S dataset = Node.internal (KDTreeIndex.chooseSplit dataset).1
      (((S.sortBy (fun a => a.get (KDTreeIndex.chooseSplit dataset).1) dataset).getD
        (dataset.length / 2) []).get (KDTreeIndex.chooseSplit dataset).1) []
      (Node.leaf ((S.sortBy (fun a => a.get (KDTreeIndex.chooseSplit dataset).1) dataset).take
        (dataset.length / 2)))
      (Node.leaf ((S.sortBy (fun a => a.get (KDTreeIndex.chooseSplit dataset).1) dataset).drop
        (dataset.length / 2))) := by
  unfold KDTreeIndex.Maketree
  rw [KDTreeIndex.build_internal S dataset (by omega),
    KDTreeIndex.build_leaf S (List.take _ _) (by rw [List.length_take]; omega),
    KDTreeIndex.build_leaf S (List.drop _ _)
      (by rw [List.length_drop, (S.perm _ _).length_eq]; omega)]

/-- An instance of C17: the root of the tree over 101 copies of the origin of
dimension 3. -/
theorem kd_build_partition_witness :
    (0 ≤ (KDTreeIndex.chooseSplit (List.replicate 101 [0, 0, 0])).1 ∧
      (KDTreeIndex.chooseSplit (List.replicate 101 [0, 0, 0])).1.toNat < 3) ∧
    (∀ p ∈ (Node.leaf ((StdSort.insertion.sortBy
        (fun a => a.get (KDTreeIndex.chooseSplit (List.replicate 101 [0, 0, 0])).1)
        (List.replicate 101 [0, 0, 0])).take
          ((List.replicate 101 ([0, 0, 0] : DataVector)).length / 2))).leafPoints,
      p.get (KDTreeIndex.chooseSplit (List.replicate 101 [0, 0, 0])).1
        ≤ ((StdSort.insertion.sortBy
            (fun a => a.get (KDTreeIndex.chooseSplit (List.replicate 101 [0, 0, 0])).1)
            (List.replicate 101 [0, 0, 0])).getD
              ((List.replicate 101 ([0, 0, 0] : DataVector)).length / 2) []).get
            (KDTreeIndex.chooseSplit (List.replicate 101 [0, 0, 0])).1) ∧
    (∀ p ∈ (Node.leaf ((StdSort.insertion.sortBy
        (fun a => a.get (KDTreeIndex.chooseSplit (List.replicate 101 [0, 0, 0])).1)
        (List.replicate 101 [0, 0, 0])).drop
          ((List.replicate 101 ([0, 0, 0] : DataVector)).length / 2))).leafPoints,
      ((StdSort.insertion.sortBy
          (fun a => a.get (KDTreeIndex.chooseSplit (List.replicate 101 [0, 0, 0])).1)
          (List.replicate 101 [0, 0, 0])).getD
            ((List.replicate 101 ([0, 0, 0] : DataVector)).length / 2) []).get
          (KDTreeIndex.chooseSplit (List.replicate 101 [0, 0, 0])).1
        ≤ p.get (KDTreeIndex.chooseSplit (List.replicate 101 [0, 0, 0])).1) :=
  kd_build_partition StdSort.insertion (List.replicate 101 [0, 0, 0]) 3 (by decide)
    (fun p hp => by rw [List.eq_of_mem_replicate hp]; rfl) _ _ _ _ _
    (by
      rw [kd_root_small StdSort.insertion (List.replicate 101 [0, 0, 0])
        (by rw [List.length_replicate]) (by rw [List.length_replicate]; decide)]
      exact List.mem_cons_self _ _)

/-! ## The split dimension of `KDTreeIndex::build` (C18) -/

theorem le_foldl_max (xs : List ℝ) : ∀ a : ℝ, a ≤ xs.foldl max a := by
  induction xs with
  | nil => intro a; exact le_refl _
  | cons x xs ih => intro a; exact le_trans (le_max_left a x) (ih _)

theorem foldl_min_le (xs : List ℝ) : ∀ a : ℝ, xs.foldl min a ≤ a := by
  induction xs with
  | nil => intro a; exact le_refl _
  | cons x xs ih => intro a; exact le_trans (ih _) (min_le_left a x)

theorem listMin_le_listMax (l : List ℝ) : listMin l ≤ listMax l := by
  cases l with
  | nil => exact le_refl _
  | cons x xs => exact le_trans (foldl_min_le xs x) (le_foldl_max xs x)

theorem KDTreeIndex.spread_nonneg (l : List DataVector) (i : Nat) :
    0 ≤ KDTreeIndex.spread l i := by
  unfold KDTreeIndex.spread
  exact sub_nonneg.2 (listMin_le_listMax _)

theorem foldl_max_const (xs : List ℝ) (a : ℝ) (h : ∀ x ∈ xs, x = a) : xs.foldl max a = a := by
  induction xs with
  | nil => rfl
  | cons x xs ih =>
    rw [List.foldl_cons, h x (List.mem_cons_self _ _), max_self]
    exact ih (fun y hy => h y (List.mem_cons_of_mem _ hy))

theorem foldl_min_const (xs : List ℝ) (a : ℝ) (h : ∀ x ∈ xs, x = a) : xs.foldl min a = a := by
  induction xs with
  | nil => rfl
  | cons x xs ih =>
    rw [List.foldl_cons, h x (List.mem_cons_self _ _), min_self]
    exact ih (fun y hy => h y (List.mem_cons_of_mem _ hy))

/-- When all points of the slice are equal, every dimension has spread `0`. -/
theorem KDTreeIndex.spread_identical (l : List DataVector)
    (h : ∀ p ∈ l, ∀ q ∈ l, p = q) (i : Nat) : KDTreeIndex.spread l i = 0 := by
  unfold KDTreeIndex.spread
  cases l with
  | nil => simp [listMax, listMin]
  | cons p ps =>
    have hc : ∀ x ∈ ps.map (fun a : DataVector => a.get i), x = p.get i := by
      intro x hx
      obtain ⟨q, hq, rfl⟩ := List.mem_map.1 hx
      rw [h q (List.mem_cons_of_mem _ hq) p (List.mem_cons_self _ _)]
    simp only [List.map_cons, listMax, listMin]
    rw [foldl_max_const _ _ hc, foldl_min_const _ _ hc, sub_self]

/-- The max-spread loop after the dimensions `0, ..., j`: it holds the lowest
dimension of largest spread among them. -/
theorem KDTreeIndex.chooseSplit_argmax (l : List DataVector) :
    ∀ j : Nat, ∃ m : Nat,
      (List.range (j + 1)).foldl
          (fun st i => if KDTreeIndex.spread l i > st.2
            then ((i : Int), KDTreeIndex.spread l i) else st) ((0 : Int), (-1 : ℝ))
        = ((m : Int), KDTreeIndex.spread l m) ∧
      m < j + 1 ∧ (∀ i, i < j + 1 → KDTreeIndex.spread l i ≤ KDTreeIndex.spread l m) ∧
      (∀ i, i < m → KDTreeIndex.spread l i < KDTreeIndex.spread l m) := by
  intro j
  induction j with
  | zero =>
    refine ⟨0, ?_, by omega, ?_, ?_⟩
    · have h : KDTreeIndex.spread l 0 > -1 :=
        lt_of_lt_of_le (by norm_num) (KDTreeIndex.spread_nonneg l 0)
      simp [List.range_succ, h]
    · intro i hi
      have : i = 0 := by omega
      rw [this]
    · intro i hi
      omega
  | succ j ih =>
    obtain ⟨m, e, hm, hmax, hlow⟩ := ih
    rw [List.range_succ, List.foldl_append, e, List.foldl_cons, List.foldl_nil]
    by_cases hgt : KDTreeIndex.spread l (j + 1) > KDTreeIndex.spread l m
    · refine ⟨j + 1, ?_, by omega, ?_, ?_⟩
      · rw [if_pos hgt]
      · intro i hi
        by_cases hij : i = j + 1
        · rw [hij]
        · exact le_of_lt (lt_of_le_of_lt (hmax i (by omega)) hgt)
      · intro i hi
        exact lt_of_le_of_lt (hmax i hi) hgt
    · refine ⟨m, ?_, by omega, ?_, hlow⟩
      · rw [if_neg hgt]
      · intro i hi
        by_cases hij : i = j + 1
        · rw [hij]
          exact not_lt.1 hgt
        · exact hmax i (by omega)

/-- The node that `KDTreeIndex::build` returns for a slice of more than 100 points of
common dimension `d ≥ 1` has as `splitDim` the lowest index of largest spread. -/
theorem KDTreeIndex.build_splitDim (S : StdSort) (l : List DataVector) (d : Nat) (hd : 1 ≤ d)
    (hdim : ∀ p ∈ l, p.length = d) (hN : 100 < l.length) :
    ∃ m : Nat, (KDTreeIndex.build S l).splitDim = (m : Int) ∧ m < d ∧
      (∀ i, i < d → KDTreeIndex.spread l i ≤ KDTreeIndex.spread l m) ∧
      (∀ i, i < m → KDTreeIndex.spread l i < KDTreeIndex.spread l m) ∧
      ((∀ p ∈ l, ∀ q ∈ l, p = q) → m = 0) := by
  have hhead : (l.headD []).length = d := by
    cases l with
    | nil => simp at hN
    | cons p ps => exact hdim p (List.mem_cons_self _ _)
  obtain ⟨j, hj⟩ : ∃ j, d = j + 1 := ⟨d - 1, by omega⟩
  obtain ⟨m, e, hm, hmax, hlow⟩ := KDTreeIndex.chooseSplit_argmax l j
  refine ⟨m, ?_, by omega, ?_, hlow, ?_⟩
  · rw [KDTreeIndex.build_internal S l (by omega)]
    show (KDTreeIndex.chooseSplit l).1 = (m : Int)
    unfold KDTreeIndex.chooseSplit
    rw [hhead, hj, e]
  · intro i hi
    exact hmax i (by omega)
  · intro hall
    by_contra hne
    have h0 := hlow 0 (by omega)
    rw [KDTreeIndex.spread_identical l hall, KDTreeIndex.spread_identical l hall] at h0
    exact lt_irrefl _ h0

/-- Every node of the tree is what `KDTreeIndex::build` returns for a slice made of
points of the dataset. -/
theorem KDTreeIndex.subnode_is_build (S : StdSort) :
    ∀ (n : Nat) (l : List DataVector), l.length = n →
      ∀ u ∈ (KDTreeIndex.build S l).subnodes,
        ∃ slice, u = KDTreeIndex.build S slice ∧ ∀ p ∈ slice, p ∈ l := by
  intro n
  induction n using Nat.strong_induction_on with
  | _ n ih =>
    intro l hl u hu
    by_cases h : l.length ≤ 100
    · rw [KDTreeIndex.build_leaf S l h] at hu
      simp only [Node.subnodes, List.mem_singleton] at hu
      exact ⟨l, by rw [hu, KDTreeIndex.build_leaf S l h], fun p hp => hp⟩
    · have hlen := (S.perm (fun a => a.get (KDTreeIndex.chooseSplit l).1) l).length_eq
      have hsub : ∀ p ∈ S.sortBy (fun a => a.get (KDTreeIndex.chooseSplit l).1) l, p ∈ l :=
        fun p hp => (S.perm _ l).mem_iff.1 hp
      have hb := KDTreeIndex.build_internal S l h
      rw [hb] at hu
      simp only [Node.subnodes, List.mem_cons, List.mem_append] at hu
      rcases hu with hu | hu | hu
      · exact ⟨l, by rw [hu, ← hb], fun p hp => hp⟩
      · obtain ⟨sl, e, hs⟩ := ih ((S.sortBy (fun a => a.get (KDTreeIndex.chooseSplit l).1)
          l).take (l.length / 2)).length (by rw [List.length_take]; omega) _ rfl u hu
        exact ⟨sl, e, fun p hp => hsub p (List.mem_of_mem_take (hs p hp))⟩
      · obtain ⟨sl, e, hs⟩ := ih ((S.sortBy (fun a => a.get (KDTreeIndex.chooseSplit l).1)
          l).drop (l.length / 2)).length (by rw [List.length_drop]; omega) _ rfl u hu
        exact ⟨sl, e, fun p hp => hsub p (List.mem_of_mem_drop (hs p hp))⟩

/-- C18: in the tree that `KDTreeIndex::build` returns for a dataset of common
dimension `d ≥ 1`, every internal node was built over a slice of more than 100
points of the dataset, and its `splitDim` is the lowest index `m` in `[0, d)`
among those of largest spread over that slice (largest minus smallest
coordinate); `m = 0` when all points of the slice are equal. -/
theorem kd_splitDim_max_spread (S : StdSort) (dataset : List DataVector) (d : Nat)
    (hd : 1 ≤ d) (hdim : ∀ p ∈ dataset, p.length = d)
    (splitDim : Int) (splitVal : ℝ) (projDir : DataVector) (left right : Node)
    (hu : Node.internal splitDim splitVal projDir left right
      ∈ (KDTreeIndex.Maketree S dataset).subnodes) :
    ∃ (slice : List DataVector) (m : Nat), 100 < slice.length ∧ (∀ p ∈ slice, p ∈ dataset) ∧
      Node.internal splitDim splitVal projDir left right = KDTreeIndex.build S slice ∧
      splitDim = (m : Int) ∧ m < d ∧
      (∀ i, i < d → KDTreeIndex.spread slice i ≤ KDTreeIndex.spread slice m) ∧
      (∀ i, i < m → KDTreeIndex.spread slice i < KDTreeIndex.spread slice m) ∧
      ((∀ p ∈ slice, ∀ q ∈ slice, p = q) → m = 0) := by
  obtain ⟨slice, e, hs⟩ := KDTreeIndex.subnode_is_build S _ dataset rfl _ hu
  have hN : 100 < slice.length := by
    by_contra hc
    rw [KDTreeIndex.build_leaf S slice (by omega)] at e
    exact Node.noConfusion e
  obtain ⟨m, h1, h2, h3, h4, h5⟩ := KDTreeIndex.build_splitDim S slice d hd
    (fun p hp => hdim p (hs p hp)) hN
  refine ⟨slice, m, hN, hs, e, ?_, h2, h3, h4, h5⟩
  rw [← e] at h1
  exact h1

/-- An instance of C18: the root of the tree over 101 copies of the origin of
dimension 3 is split along dimension 0. -/
theorem kd_splitDim_max_spread_witness :
    ∃ (slice : List DataVector) (m : Nat), 100 < slice.length ∧
      (∀ p ∈ slice, p ∈ List.replicate 101 ([0, 0, 0] : DataVector)) ∧
      Node.internal (KDTreeIndex.chooseSplit (List.replicate 101 [0, 0, 0])).1
        (((StdSort.insertion.sortBy
            (fun a => a.get (KDTreeIndex.chooseSplit (List.replicate 101 [0, 0, 0])).1)
            (List.replicate 101 [0, 0, 0])).getD
              ((List.replicate 101 ([0, 0, 0] : DataVector)).length / 2) []).get
            (KDTreeIndex.chooseSplit (List.replicate 101 [0, 0, 0])).1) []
        (Node.leaf ((StdSort.insertion.sortBy
          (fun a => a.get (KDTreeIndex.chooseSplit (List.replicate 101 [0, 0, 0])).1)
          (List.replicate 101 [0, 0, 0])).take
            ((List.replicate 101 ([0, 0, 0] : DataVector)).length / 2)))
        (Node.leaf ((StdSort.insertion.sortBy
          (fun a => a.get (KDTreeIndex.chooseSplit (List.replicate 101 [0, 0, 0])).1)
          (List.replicate 101 [0, 0, 0])).drop
            ((List.replicate 101 ([0, 0, 0] : DataVector)).length / 2)))
        = KDTreeIndex.build StdSort.insertion slice ∧
      (KDTreeIndex.chooseSplit (List.replicate 101 [0, 0, 0])).1 = (m : Int) ∧ m < 3 ∧
      (∀ i, i < 3 → KDTreeIndex.spread slice i ≤ KDTreeIndex.spread slice m) ∧
      (∀ i, i < m → KDTreeIndex.spread slice i < KDTreeIndex.spread slice m) ∧
      ((∀ p ∈ slice, ∀ q ∈ slice, p = q) → m = 0) :=
  kd_splitDim_max_spread StdSort.insertion (List.replicate 101 [0, 0, 0]) 3 (by decide)
    (fun p hp => by rw [List.eq_of_mem_replicate hp]; rfl) _ _ _ _ _
    (by
      rw [kd_root_small StdSort.insertion (List.replicate 101 [0, 0, 0])
        (by rw [List.length_replicate]) (by rw [List.length_replicate]; decide)]
      exact List.mem_cons_self _ _)

/-! ## The element evicted by `searchLayerGreedy` (C15) -/

theorem min_DBL_MAX_two : min DBL_MAX 2 = 2 := by
  unfold DBL_MAX
  norm_num

theorem dist_one_dim (a b : ℝ) : DataVector.dist [a] [b] = |a - b| := by
  have e : (List.range ([a] : DataVector).length).foldl
      (fun s i => s + (([a] : DataVector).getD i 0 - ([b] : DataVector).getD i 0) ^ 2) 0
        = (a - b) ^ 2 := by
    simp [List.range_succ]
  unfold DataVector.dist
  rw [e, Real.sqrt_sq_eq_abs]

theorem eval_buildG0 : (HNSWGraph.init 16).buildUpTo farNear (fun _ => 0) 0 = G0 := by
  have hw : wrapInt32 32 = 32 := wrapInt32_of_bounds 32 (by decide) (by decide)
  simp [HNSWGraph.buildUpTo, HNSWGraph.init, resize, G0, farNear, hw]

theorem eval_insertG0 : HNSWGraph.insertNode farNear G0 0 0 = G1 := by
  simp [HNSWGraph.insertNode, HNSWGraph.allocNode, G0, G1, resize, HNode.empty]

theorem eval_insertG1 : HNSWGraph.insertNode farNear G1 1 0 = G2 := by
  have hs := searchLayerGreedy_isolated (G1.allocNode 1 0) (farNear.getD 1 []) 0 0 200 rfl
  unfold HNSWGraph.insertNode
  have e1 : layersAbove G1.maxLayer 0 = [] := rfl
  have e2 : layersDownFrom (min 0 G1.maxLayer) = [0] := rfl
  have e3 : G1.entryPoint = 0 := rfl
  rw [e1, e2, e3]
  simp only [List.foldl_cons, List.foldl_nil, HNSWGraph.insertLayer, hs]
  simp [HNSWGraph.linkStep, HNSWGraph.updNeighbors, HNSWGraph.nbrs, HNSWGraph.allocNode, G1, G2,
    resize, HNode.empty]

theorem eval_buildG2 : (HNSWGraph.init 16).buildIndex farNear (fun _ => 0) = G2 := by
  have e : farNear.length = 2 := rfl
  unfold HNSWGraph.buildIndex
  rw [e, buildUpTo_succ, buildUpTo_succ, eval_buildG0, eval_insertG0, eval_insertG1]

/-- The layer-0 search with `ef = 1` from node 0 at distance 2, whose only neighbor
is node 1 at distance 1: node 1 is admitted and at once evicted. -/
theorem eval_search_evict (g : HNSWGraph) (q : DataVector) (hd0 : g.distTo q 0 = 2)
    (hd1 : g.distTo q 1 = 1) (h0 : g.nbrs 0 0 = [1]) (h1 : g.nbrs 0 1 = [0])
    (hf : 3 ≤ g.searchFuel [0] 0) : g.searchLayerGreedy q [0] 0 1 = [0] := by
  obtain ⟨n, hn⟩ : ∃ n, g.searchFuel [0] 0 = n + 3 := ⟨g.searchFuel [0] 0 - 3, by omega⟩
  unfold HNSWGraph.searchLayerGreedy
  rw [hn]
  simp [searchLoop, HNSWGraph.seedStep, SearchState.start, hd0, hd1, maxPush, minPush,
    pairLt, HNSWGraph.expandStepGreedy, min_DBL_MAX_two, h0, h1]

theorem eval_queryG2 : G2.searchKNearest [0] 1 1 = [2] := by
  have hd0 : G2.distTo [0] 0 = 2 := by
    show DataVector.dist [0] [2] = 2
    rw [dist_one_dim]
    norm_num
  have hd1 : G2.distTo [0] 1 = 1 := by
    show DataVector.dist [0] [1] = 1
    rw [dist_one_dim]
    norm_num
  have hs := eval_search_evict G2 [0] hd0 hd1 rfl rfl (by decide)
  unfold HNSWGraph.searchKNearest
  have e1 : layersAbove G2.maxLayer 0 = [] := rfl
  have e3 : G2.entryPoint = 0 := rfl
  have e4 : max (1 : Int) 1 = 1 := by decide
  rw [e1, e3, e4]
  simp only [List.foldl_nil, hs]
  simp [hd0]

/-- Whenever the body of the neighbor loop of `searchLayerGreedy` pops `nearest`, the
element removed is the head of the min-heap: no element that stays is closer to
the query. -/
theorem expandStepGreedy_pop_head (g : HNSWGraph) (query : DataVector) (ef : Int)
    (s : SearchState) (neighbor : Nat) (hs : s.nearest.Sorted (fun a b => ¬ pairLt b a))
    (hv : neighbor ∉ s.visited)
    (hadm : g.distTo query neighbor < s.lowerBound ∨ (s.nearest.length : Int) < ef)
    (hfull : ((minPush (g.distTo query neighbor, neighbor) s.nearest).length : Int) > ef) :
    ∃ e, minPush (g.distTo query neighbor, neighbor) s.nearest
        = e :: (g.expandStepGreedy query ef s neighbor).nearest ∧
      ∀ y ∈ (g.expandStepGreedy query ef s neighbor).nearest, e.1 ≤ y.1 := by
  have hsort := minPush_sorted (g.distTo query neighbor, neighbor) s.nearest hs
  have hlen := minPush_length (g.distTo query neighbor, neighbor) s.nearest
  unfold HNSWGraph.expandStepGreedy
  rw [if_neg hv, if_pos hadm, if_pos hfull]
  cases hm : minPush (g.distTo query neighbor, neighbor) s.nearest with
  | nil =>
    rw [hm] at hlen
    simp at hlen
  | cons e t =>
    rw [hm] at hsort
    refine ⟨e, rfl, ?_⟩
    intro y hy
    exact pairLe_fst e y (List.rel_of_sorted_cons hsort y hy)

/-- C15 (evaluation at a failing input): `nearest` is a min-heap, so the element
that `searchLayerGreedy` removes when `nearest` outgrows `ef` is the closest one, not
the farthest. On the graph built with the default `M = 16` from the points `(2)`
and `(1)` (layers 0), the search for the query `(0)` with `ef = 1` starts at
node 0 (distance 2), admits node 1 (distance 1), evicts it at once and returns
node 0 only: `searchKNearest(q, 1, 1)` is `[2]`, brute force gives `[1]`. -/
theorem hnsw_greedy_evicts_closest :
    (∀ (g : HNSWGraph) (query : DataVector) (ef : Int) (s : SearchState) (neighbor : Nat),
      s.nearest.Sorted (fun a b => ¬ pairLt b a) → neighbor ∉ s.visited →
      (g.distTo query neighbor < s.lowerBound ∨ (s.nearest.length : Int) < ef) →
      ((minPush (g.distTo query neighbor, neighbor) s.nearest).length : Int) > ef →
      ∃ e, minPush (g.distTo query neighbor, neighbor) s.nearest
          = e :: (g.expandStepGreedy query ef s neighbor).nearest ∧
        ∀ y ∈ (g.expandStepGreedy query ef s neighbor).nearest, e.1 ≤ y.1) ∧
    ((HNSWGraph.init 16).buildIndex farNear (fun _ => 0)).searchLayerGreedy [0] [0] 0 1 = [0] ∧
    ((HNSWGraph.init 16).buildIndex farNear (fun _ => 0)).distTo [0] 0 = 2 ∧
    ((HNSWGraph.init 16).buildIndex farNear (fun _ => 0)).distTo [0] 1 = 1 ∧
    ((HNSWGraph.init 16).buildIndex farNear (fun _ => 0)).searchKNearest [0] 1 1 = [2] ∧
    bruteForceKNN farNear [0] 1 = [1] := by
  have hd0 : G2.distTo [0] 0 = 2 := by
    show DataVector.dist [0] [2] = 2
    rw [dist_one_dim]
    norm_num
  have hd1 : G2.distTo [0] 1 = 1 := by
    show DataVector.dist [0] [1] = 1
    rw [dist_one_dim]
    norm_num
  refine ⟨fun g query ef s neighbor hs hv hadm hfull =>
    expandStepGreedy_pop_head g query ef s neighbor hs hv hadm hfull, ?_, ?_, ?_, ?_, ?_⟩
  · rw [eval_buildG2]
    exact eval_search_evict G2 [0] hd0 hd1 rfl rfl (by decide)
  · rw [eval_buildG2]
    exact hd0
  · rw [eval_buildG2]
    exact hd1
  · rw [eval_buildG2]
    exact eval_queryG2
  · have e2 : DataVector.dist [0] [2] = 2 := by
      rw [dist_one_dim]
      norm_num
    have e1 : DataVector.dist [0] [1] = 1 := by
      rw [dist_one_dim]
      norm_num
    simp [bruteForceKNN, kSmallest, farNear, e1, e2]

/-! ## The RP-tree over 101 points on a line -/

theorem toSizeT_one : toSizeT 1 = 1 := by
  rw [toSizeT_of_nonneg (by decide) (by decide)]
  rfl

/-- With `k = 1` a one-element queue keeps the smaller of its element and the new
distance. -/
theorem leafStep_one (q p : DataVector) (a : ℝ) :
    leafStep q 1 [a] p = [min a (q.dist p)] := by
  unfold leafStep
  by_cases h : q.dist p ≥ a
  · have e : PQ.push (q.dist p) [a] = [q.dist p, a] := by
      simp [PQ.push, List.orderedInsert, h]
    rw [e, toSizeT_one, min_eq_left h]
    simp [PQ.pop]
  · have e : PQ.push (q.dist p) [a] = [a, q.dist p] := by
      simp [PQ.push, List.orderedInsert, h]
    rw [e, toSizeT_one, min_eq_right (le_of_lt (not_le.1 h))]
    simp [PQ.pop]

theorem leafScan_one_replicate (q p : DataVector) (a : ℝ) :
    ∀ n : Nat, leafScan q 1 (List.replicate (n + 1) p) [a] = [min a (q.dist p)] := by
  intro n
  induction n with
  | zero => simp [leafScan_eq, leafStep_one]
  | succ n ih =>
    rw [leafScan_eq] at ih ⊢
    rw [List.replicate_succ', List.foldl_append, ih]
    simp [leafStep_one]

theorem leafScan_one_replicate_nil (q p : DataVector) (n : Nat) :
    leafScan q 1 (List.replicate (n + 1) p) [] = [q.dist p] := by
  cases n with
  | zero => exact leafScan_single q p 1 (by rw [toSizeT_one])
  | succ n =>
    have h1 : leafStep q 1 [] p = [q.dist p] := by
      simp [leafStep, PQ.push, toSizeT_one]
    have h := leafScan_one_replicate q p (q.dist p) n
    rw [leafScan_eq] at h ⊢
    rw [List.replicate_succ, List.foldl_cons, h1, h, min_self]

/-- Two lists with the same keys are equal when the key is injective on the
points they hold. -/
theorem eq_of_map_key_eq (key : DataVector → ℝ) (P : DataVector → Prop)
    (hinj : ∀ a b, P a → P b → key a = key b → a = b) :
    ∀ (l1 l2 : List DataVector), (∀ a ∈ l1, P a) → (∀ b ∈ l2, P b) →
      l1.map key = l2.map key → l1 = l2 := by
  intro l1
  induction l1 with
  | nil =>
    intro l2 _ _ h
    cases l2 with
    | nil => rfl
    | cons b l2 => simp at h
  | cons a l1 ih =>
    intro l2 h1 h2 h
    cases l2 with
    | nil => simp at h
    | cons b l2 =>
      simp only [List.map_cons, List.cons.injEq] at h
      rw [hinj a b (h1 a (List.mem_cons_self _ _)) (h2 b (List.mem_cons_self _ _)) h.1,
        ih l2 (fun x hx => h1 x (List.mem_cons_of_mem _ hx))
          (fun x hx => h2 x (List.mem_cons_of_mem _ hx)) h.2]

/-- A conforming sort leaves a list unchanged that is already sorted by a key
which is injective on its points. -/
theorem StdSort.sortBy_sorted (S : StdSort) (key : DataVector → ℝ) (l : List DataVector)
    (hs : l.Sorted (fun a b => key a ≤ key b))
    (hinj : ∀ a b, a ∈ l → b ∈ l → key a = key b → a = b) : S.sortBy key l = l := by
  apply eq_of_map_key_eq key (fun a => a ∈ l) hinj
  · intro a ha
    exact (S.perm key l).mem_iff.1 ha
  · intro b hb
    exact hb
  · apply List.eq_of_perm_of_sorted (r := fun a b : ℝ => a ≤ b)
    · exact (S.perm key l).map key
    · exact List.pairwise_map.2 (S.sorted key l)
    · exact List.pairwise_map.2 hs

theorem rpData_mem (p : DataVector) (hp : p ∈ rpData) : p = [-10] ∨ p = [6] := by
  unfold rpData at hp
  rcases List.mem_append.1 hp with h | h
  · left; exact List.eq_of_mem_replicate h
  · right; exact List.eq_of_mem_replicate h

theorem dot_one_dim (a s : ℝ) : DataVector.dot [a] [s] = a * s := by
  simp [DataVector.dot, List.range_succ]

/-- The slice `rpData` is already in the order of its projections on a positive
direction. -/
theorem rpData_sortBy (S : StdSort) (s : ℝ) (hs : 0 < s) :
    S.sortBy (fun a => a.dot [s]) rpData = rpData := by
  apply StdSort.sortBy_sorted
  · unfold rpData List.Sorted
    rw [List.pairwise_append]
    refine ⟨?_, ?_, ?_⟩
    · rw [List.pairwise_replicate]
      right
      exact le_refl _
    · rw [List.pairwise_replicate]
      right
      exact le_refl _
    · intro a ha b hb
      rw [List.eq_of_mem_replicate ha, List.eq_of_mem_replicate hb, dot_one_dim, dot_one_dim]
      nlinarith
  · intro a b ha hb h
    rcases rpData_mem a ha with rfl | rfl <;> rcases rpData_mem b hb with rfl | rfl
    · rfl
    · rw [dot_one_dim, dot_one_dim] at h
      nlinarith
    · rw [dot_one_dim, dot_one_dim] at h
      nlinarith
    · rfl

/-- The tree built over `rpData` when the next sample of the generator is `s > 0`:
the direction is `(s)`, the split value `6 s`, and one sample is consumed. -/
theorem rpData_build (S : StdSort) (g : Gen) (s : ℝ) (hs : 0 < s) (hg : g.samples g.pos = s) :
    RPTreeIndex.build S g rpData
      = (Node.internal (-1) (6 * s) [s] (Node.leaf (List.replicate 50 [-10]))
          (Node.leaf (List.replicate 51 [6])), { g with pos := g.pos + 1 }) := by
  have hlen : rpData.length = 101 := by simp [rpData]
  have hhead : (rpData.headD []).length = 1 := rfl
  have hdraw : g.drawDir 1 = ([s], { g with pos := g.pos + 1 }) := by
    simp [Gen.drawDir, List.range_succ, hg]
  have htake : rpData.take 50 = List.replicate 50 [-10] := by
    unfold rpData
    exact List.take_left' (by simp)
  have hdrop : rpData.drop 50 = List.replicate 51 [6] := by
    unfold rpData
    exact List.drop_left' (by simp)
  have hmid : rpData.getD 50 [] = [6] := rfl
  rw [rp_build_internal S g rpData (by rw [hlen]; decide), hhead, hdraw, hlen]
  simp only [rpData_sortBy S s hs]
  have e50 : 101 / 2 = 50 := rfl
  rw [e50, htake, hdrop, hmid,
    rp_build_leaf S _ (List.replicate 50 [-10]) (by simp),
    rp_build_leaf S _ (List.replicate 51 [6]) (by simp), dot_one_dim]

/-- The search for the nearest neighbor of the origin in that tree: the right
leaf (which holds the nearest points, at distance 6) is visited only when
`6 s < 10`. -/
theorem rpData_search (s : ℝ) (hs : 0 < s) :
    RPTreeIndex.searchKNearest
        (Node.internal (-1) (6 * s) [s] (Node.leaf (List.replicate 50 [-10]))
          (Node.leaf (List.replicate 51 [6]))) [0] 1
      = some (if 6 * s < 10 then [6] else [10]) := by
  have e10 : DataVector.dist [0] [-10] = 10 := by
    rw [dist_one_dim]
    norm_num
  have e6 : DataVector.dist [0] [6] = 6 := by
    rw [dist_one_dim]
    norm_num
  have hl : leafScan [0] 1 (List.replicate 50 [-10]) [] = [10] := by
    rw [leafScan_one_replicate_nil [0] [-10] 49, e10]
  have hr : leafScan [0] 1 (List.replicate 51 [6]) [10] = [6] := by
    rw [leafScan_one_replicate [0] [6] 10 50, e6]
    norm_num
  have hle : DataVector.dot [0] [s] ≤ 6 * s := by
    rw [dot_one_dim]
    nlinarith
  have hgap : |DataVector.dot [0] [s] - 6 * s| = 6 * s := by
    rw [dot_one_dim, zero_mul, zero_sub, abs_neg, abs_of_pos (by nlinarith)]
  unfold RPTreeIndex.searchKNearest
  rw [RPTreeIndex.searchRecursive, if_pos hle, hgap]
  simp only [descend, RPTreeIndex.searchRecursive, hl, hr, Option.some_bind, toSizeT_one,
    List.length_singleton, lt_irrefl, if_false, PQ.top, List.head?_cons]
  split <;> simp

theorem rpData_bruteForce : bruteForceKNN rpData [0] 1 = [6] := by
  have e10 : DataVector.dist [0] [-10] = 10 := by
    rw [dist_one_dim]
    norm_num
  have e6 : DataVector.dist [0] [6] = 6 := by
    rw [dist_one_dim]
    norm_num
  have hk := Keeps.scan (toSizeT_one) [0] rpData [] [] (Keeps.nil 1)
  have hres := Keeps.result hk
  rw [List.append_nil] at hres
  unfold bruteForceKNN
  rw [← hres, leafScan_eq]
  unfold rpData
  rw [List.foldl_append, ← leafScan_eq, ← leafScan_eq,
    leafScan_one_replicate_nil [0] [-10] 49, e10, leafScan_one_replicate [0] [6] 10 50, e6]
  norm_num

/-! ## The RP-tree search is approximate (C16) -/

/-- C16: there are a dataset of more than 100 points, a direction drawn for the
root, a query and a `k ≥ 1` for which `RPTreeIndex::searchKNearest` does not return
the brute-force list. For the 101 points `rpData` (50 times `(-10)`, 51 times
`(6)`), the drawn direction `(2)`, the query `(0)` and `k = 1`, whatever order
`std::sort` gives to equal keys, the search returns `[10]`: the pruning test
compares the unnormalised projection gap `12` with the best distance `10` and
skips the leaf holding the points at distance `6`; brute force gives `[6]`. -/
theorem rp_search_not_exact :
    (100 < rpData.length ∧ (∀ p ∈ rpData, p.length = 1) ∧
      (∀ S : StdSort,
        (RPTreeIndex.Maketree S rpGen rpData).1.projDir = [2] ∧
        RPTreeIndex.searchKNearest (RPTreeIndex.Maketree S rpGen rpData).1 [0] 1
          = some [10]) ∧
      bruteForceKNN rpData [0] 1 = [6]) ∧
    ∃ (dataset : List DataVector) (g : Gen) (q : DataVector) (k : Int),
      100 < dataset.length ∧ 1 ≤ k ∧ ∀ S : StdSort,
        RPTreeIndex.searchKNearest (RPTreeIndex.Maketree S g dataset).1 q k
          ≠ some (bruteForceKNN dataset q k.toNat) := by
  have hlen : rpData.length = 101 := by simp [rpData]
  have hb : ∀ S : StdSort, RPTreeIndex.Maketree S rpGen rpData
      = (Node.internal (-1) (6 * 2) [2] (Node.leaf (List.replicate 50 [-10]))
          (Node.leaf (List.replicate 51 [6])), { rpGen with pos := rpGen.pos + 1 }) :=
    fun S => rpData_build S rpGen 2 (by norm_num) rfl
  have hsearch : ∀ S : StdSort,
      RPTreeIndex.searchKNearest (RPTreeIndex.Maketree S rpGen rpData).1 [0] 1
        = some [10] := by
    intro S
    rw [hb S, rpData_search 2 (by norm_num), if_neg (by norm_num)]
  refine ⟨⟨by rw [hlen]; decide, ?_, fun S => ⟨by rw [hb S]; rfl, hsearch S⟩,
    rpData_bruteForce⟩, rpData, rpGen, [0], 1, by rw [hlen]; decide, le_refl _, ?_⟩
  · intro p hp
    rcases rpData_mem p hp with rfl | rfl <;> rfl
  · intro S
    rw [hsearch S]
    have e : (1 : Int).toNat = 1 := rfl
    rw [e, rpData_bruteForce]
    intro h
    have h2 : ([10] : List ℝ) = [6] := Option.some.inj h
    have h3 : (10 : ℝ) = 6 := List.head_eq_of_cons_eq h2
    norm_num at h3

/-! ## The generator of `RPTreeIndex::build` is shared by all builds (C11) -/

/-- The build over 101 to 200 points draws one direction, for the root. -/
theorem rp_build_small (S : StdSort) (g : Gen) (dataset : List DataVector)
    (hlo : 101 ≤ dataset.length) (hhi : dataset.length ≤ 200) :
    (RPTreeIndex.Maketree S g dataset).1.projDir = (g.drawDir (dataset.headD []).length).1 ∧
    (RPTreeIndex.Maketree S g dataset).2 = (g.drawDir (dataset.headD []).length).2 := by
  unfold RPTreeIndex.Maketree
  rw [rp_build_internal S g dataset (by omega),
    rp_build_leaf S _ (List.take _ _) (by rw [List.length_take]; omega),
    rp_build_leaf S _ (List.drop _ _)
      (by rw [List.length_drop, (S.perm _ _).length_eq]; omega)]
  exact ⟨rfl, rfl⟩

/-- C11 (evaluation at a failing input): the generator of `RPTreeIndex::build` is a
function-local `static`, so a second build continues the stream where the first
build left it. For every dataset of 101 to 200 points of dimension `d` the
root direction of the first build is made of the samples `pos, ..., pos + d - 1`
and that of a second build from the same dataset of the samples
`pos + d, ..., pos + 2 d - 1`. For the 101 points `rpData` and a stream that
starts with `2, 1` the two trees differ and so do the search results for the
query `(0)`, `k = 1`: `[10]` from the first tree, `[6]` from the second. -/
theorem rp_second_build_differs :
    (∀ (S : StdSort) (g : Gen) (dataset : List DataVector),
      101 ≤ dataset.length → dataset.length ≤ 200 →
      (RPTreeIndex.Maketree S g dataset).1.projDir
        = (List.range (dataset.headD []).length).map (fun i => g.samples (g.pos + i)) ∧
      (RPTreeIndex.Maketree S (RPTreeIndex.Maketree S g dataset).2 dataset).1.projDir
        = (List.range (dataset.headD []).length).map
            (fun i => g.samples (g.pos + (dataset.headD []).length + i))) ∧
    (∀ S : StdSort,
      (RPTreeIndex.Maketree S rpGen rpData).1.projDir = [2] ∧
      (RPTreeIndex.Maketree S (RPTreeIndex.Maketree S rpGen rpData).2 rpData).1.projDir
        = [1] ∧
      (RPTreeIndex.Maketree S rpGen rpData).1
        ≠ (RPTreeIndex.Maketree S (RPTreeIndex.Maketree S rpGen rpData).2 rpData).1 ∧
      RPTreeIndex.searchKNearest (RPTreeIndex.Maketree S rpGen rpData).1 [0] 1
        = some [10] ∧
      RPTreeIndex.searchKNearest
          (RPTreeIndex.Maketree S (RPTreeIndex.Maketree S rpGen rpData).2 rpData).1 [0] 1
        = some [6]) := by
  constructor
  · intro S g dataset hlo hhi
    obtain ⟨h1, h2⟩ := rp_build_small S g dataset hlo hhi
    obtain ⟨h3, -⟩ := rp_build_small S (RPTreeIndex.Maketree S g dataset).2 dataset hlo hhi
    refine ⟨h1, ?_⟩
    rw [h3, h2]
    rfl
  · intro S
    have hb1 : RPTreeIndex.Maketree S rpGen rpData
        = (Node.internal (-1) (6 * 2) [2] (Node.leaf (List.replicate 50 [-10]))
            (Node.leaf (List.replicate 51 [6])), { rpGen with pos := rpGen.pos + 1 }) :=
      rpData_build S rpGen 2 (by norm_num) rfl
    have hb2 : RPTreeIndex.Maketree S { rpGen with pos := rpGen.pos + 1 } rpData
        = (Node.internal (-1) (6 * 1) [1] (Node.leaf (List.replicate 50 [-10]))
            (Node.leaf (List.replicate 51 [6])),
          { rpGen with pos := rpGen.pos + 1 + 1 }) :=
      rpData_build S { rpGen with pos := rpGen.pos + 1 } 1 (by norm_num) rfl
    rw [hb1]
    simp only []
    rw [hb2]
    refine ⟨rfl, rfl, ?_, ?_, ?_⟩
    · intro h
      have h2 : ([2] : DataVector) = [1] := congrArg Node.projDir h
      have h3 : (2 : ℝ) = 1 := List.head_eq_of_cons_eq h2
      norm_num at h3
    · rw [rpData_search 2 (by norm_num), if_neg (by norm_num)]
    · rw [rpData_search 1 (by norm_num), if_pos (by norm_num)]

/-! ## What one insertion does to the lists of the older nodes -/

/-- The insertion loop of `buildIndex` for the new node `n`, run over the layers `ls`:
the list of an older node is left as it was or gets `n` appended, the latter
only when it held fewer than `cap` ids; the lists of the layers not in `ls` are
untouched; the entry points handed on are distinct older nodes. -/
theorem insert_fold_effect (layers : Nat → Nat) (n : Nat) (g1 : HNSWGraph)
    (query : DataVector) (hshape : ∀ j, j < n + 1 → g1.HasLayer j (layers j)) :
    ∀ (ls : List Nat) (st : HNSWGraph × List Nat), ls.Pairwise (fun a b => a > b) →
      (∀ l ∈ ls, l ≤ layers n) → Frame g1 st.1 →
      (∀ l ∈ ls, LayerV layers n st.1 l) → st.2.Nodup → st.2 ≠ [] →
      (∀ ep ∈ st.2, ep < n ∧ ∀ l ∈ ls, l ≤ layers ep) →
      (∀ l x, x ≠ n →
        (ls.foldl (HNSWGraph.insertLayer n query) st).1.nbrs l x = st.1.nbrs l x ∨
        ((ls.foldl (HNSWGraph.insertLayer n query) st).1.nbrs l x = st.1.nbrs l x ++ [n] ∧
          ((st.1.nbrs l x).length : Int) + 1 ≤ st.1.cap l)) ∧
      (∀ l, l ∉ ls → ∀ x,
        (ls.foldl (HNSWGraph.insertLayer n query) st).1.nbrs l x = st.1.nbrs l x) ∧
      (ls.foldl (HNSWGraph.insertLayer n query) st).2.Nodup ∧
      (ls.foldl (HNSWGraph.insertLayer n query) st).2 ≠ [] ∧
      (∀ ep ∈ (ls.foldl (HNSWGraph.insertLayer n query) st).2, ep < n) := by
  intro ls
  induction ls with
  | nil =>
    intro st _ _ _ _ hnd hne hep
    exact ⟨fun l x _ => Or.inl rfl, fun l _ x => rfl, hnd, hne, fun ep h => (hep ep h).1⟩
  | cons lc ls ih =>
    intro st hpw hl hf hVn hnd hne hep
    rw [List.foldl_cons]
    rw [List.pairwise_cons] at hpw
    have hlc : lc ≤ layers n := hl lc (List.mem_cons_self _ _)
    have hs := searchLayerGreedy_spec st.1 query st.2 lc 200 (fun x => x < n ∧ lc ≤ layers x)
      (fun c _ x hx => ⟨(hVn lc (List.mem_cons_self _ _) c x hx).1,
        (hVn lc (List.mem_cons_self _ _) c x hx).2.2.1⟩) hnd
      (fun ep h => ⟨(hep ep h).1, (hep ep h).2 lc (List.mem_cons_self _ _)⟩)
    have hlayer : ∀ x, x < n + 1 → lc ≤ layers x → st.1.HasLayer x lc := by
      intro x hx hxl
      rw [hf.hasLayer]
      have := hshape x hx
      unfold HNSWGraph.HasLayer at this ⊢
      exact ⟨this.1, by omega⟩
    have hnb := linkFold_nbrs n lc (st.1.cap lc) (st.1.searchLayerGreedy query st.2 lc 200)
      st.1 hs.1 (hlayer n (by omega) hlc)
      (fun c hc => ⟨by have := (hs.2.1 c hc).1; omega,
        hlayer c (by have := (hs.2.1 c hc).1; omega) (hs.2.1 c hc).2⟩)
    have hst : HNSWGraph.insertLayer n query st lc
        = ((st.1.searchLayerGreedy query st.2 lc 200).foldl
            (HNSWGraph.linkStep n lc (st.1.cap lc)) st.1,
          st.1.searchLayerGreedy query st.2 lc 200) := rfl
    have hfr := linkFold_frame n lc (st.1.cap lc) (st.1.searchLayerGreedy query st.2 lc 200)
      st.1
    have hne2 : st.1.searchLayerGreedy query st.2 lc 200 ≠ [] := by
      intro h0
      have h1 := hs.2.2.1
      rw [h0] at h1
      cases hst2 : st.2 with
      | nil => exact hne hst2
      | cons a t =>
        rw [hst2] at h1
        simp at h1
    have hnotin : ∀ l ∈ ls, l ≠ lc := fun l hl1 => by have := hpw.1 l hl1; omega
    have hlcnot : lc ∉ ls := fun h => hnotin lc h rfl
    rw [hst]
    obtain ⟨i1, i2, i3, i4, i5⟩ := ih
      ((st.1.searchLayerGreedy query st.2 lc 200).foldl
          (HNSWGraph.linkStep n lc (st.1.cap lc)) st.1,
        st.1.searchLayerGreedy query st.2 lc 200)
      hpw.2 (fun l h => hl l (List.mem_cons_of_mem _ h)) (hf.trans hfr)
      (fun l hl1 => (hVn l (List.mem_cons_of_mem _ hl1)).congrV (fun j => by
        show _ = st.1.nbrs l j
        rw [hnb l j, if_neg (fun h => hnotin l hl1 h.1), if_neg (fun h => hnotin l hl1 h.1)]))
      hs.1 hne2
      (fun ep hep1 => ⟨(hs.2.1 ep hep1).1, fun l hl1 => by
        have := hpw.1 l hl1
        have := (hs.2.1 ep hep1).2
        omega⟩)
    refine ⟨?_, ?_, i3, i4, i5⟩
    · intro l x hx
      by_cases hll : l = lc
      · subst hll
        rw [i2 l hlcnot x]
        show _ = st.1.nbrs l x ∨ _ = st.1.nbrs l x ++ [n] ∧ _
        rw [hnb l x, if_neg (fun h => hx h.2)]
        by_cases hxc : x ∈ st.1.searchLayerGreedy query st.2 l 200
        · rw [if_pos ⟨rfl, hxc⟩]
          by_cases hcap : ((st.1.nbrs l x).length : Int) + 1 > st.1.cap l
          · rw [if_pos hcap]
            exact Or.inl rfl
          · rw [if_neg hcap]
            exact Or.inr ⟨rfl, not_lt.1 hcap⟩
        · rw [if_neg (fun h => hxc h.2)]
          exact Or.inl rfl
      · have e : ((st.1.searchLayerGreedy query st.2 lc 200).foldl
            (HNSWGraph.linkStep n lc (st.1.cap lc)) st.1).nbrs l x = st.1.nbrs l x := by
          rw [hnb l x, if_neg (fun h => hll h.1), if_neg (fun h => hll h.1)]
        have hc : ((st.1.searchLayerGreedy query st.2 lc 200).foldl
            (HNSWGraph.linkStep n lc (st.1.cap lc)) st.1).cap l = st.1.cap l := hfr.cap l
        have := i1 l x hx
        simp only [e, hc] at this
        exact this
    · intro l hl1 x
      have hll : l ≠ lc := fun h => hl1 (h ▸ List.mem_cons_self _ _)
      rw [i2 l (fun h => hl1 (List.mem_cons_of_mem _ h)) x]
      show _ = st.1.nbrs l x
      rw [hnb l x, if_neg (fun h => hll h.1), if_neg (fun h => hll h.1)]

/-- The neighbor lists after an insertion are those left by the insertion loop. -/
theorem insertNode_nbrs (dataset : List DataVector) (g : HNSWGraph) (n layer : Nat)
    (h0 : n ≠ 0) (l x : Nat) :
    (HNSWGraph.insertNode dataset g n layer).nbrs l x
      = ((layersDownFrom (min layer g.maxLayer)).foldl
          (HNSWGraph.insertLayer n (dataset.getD n []))
          (g.allocNode n layer,
            (layersAbove g.maxLayer layer).foldl
              ((g.allocNode n layer).descentStep (dataset.getD n [])) [g.entryPoint])).1.nbrs
          l x := by
  unfold HNSWGraph.insertNode
  rw [if_neg h0]
  split <;> rfl

/-- The state in which the insertion loop for node `n ≥ 1` starts. -/
theorem insert_setup (N : Nat) (layers : Nat → Nat) (dataset : List DataVector) (n : Nat)
    (g : HNSWGraph) (h : BuildInv N layers n g) (hn : n < N) (h0 : n ≠ 0) :
    (∀ l x, (g.allocNode n (layers n)).nbrs l x = g.nbrs l x) ∧
    (∀ j, j < n + 1 → (g.allocNode n (layers n)).HasLayer j (layers j)) ∧
    (∀ l, LayerV layers n (g.allocNode n (layers n)) l) ∧
    ((layersAbove g.maxLayer (layers n)).foldl
      ((g.allocNode n (layers n)).descentStep (dataset.getD n [])) [g.entryPoint]).length = 1 ∧
    (∀ ep ∈ (layersAbove g.maxLayer (layers n)).foldl
        ((g.allocNode n (layers n)).descentStep (dataset.getD n [])) [g.entryPoint],
      ep < n ∧ min (layers n) g.maxLayer ≤ layers ep) := by
  have hfresh := h.fresh n (le_refl _)
  have hnbrs := allocNode_nbrs g n (layers n) hfresh
  have hlen : (g.allocNode n (layers n)).nodes.length = N := by
    rw [allocNode_length, h.len]
  have hself := allocNode_getD_self g n (layers n) (by rw [h.len]; exact hn) hfresh
  have hins : ∀ j, j < n + 1 →
      ((g.allocNode n (layers n)).nodes.getD j HNode.empty).neighbors.length
        = layers j + 1 := by
    intro j hj
    by_cases hjn : j = n
    · subst hjn
      rw [hself]
      simp
    · rw [allocNode_getD_ne g n _ j hjn]
      exact (h.inserted j (by omega)).1
  have hV1 : ∀ l, LayerV layers n (g.allocNode n (layers n)) l :=
    fun l => (h.valid l).congrV (fun j => hnbrs l j)
  obtain ⟨he1, he2, he3⟩ := h.entry (by omega)
  have hdesc := descent_fold_spec layers n (min (layers n) g.maxLayer)
    (g.allocNode n (layers n)) (dataset.getD n []) hV1
    (layersAbove g.maxLayer (layers n)) [g.entryPoint] (layersAbove_pairwise _ _)
    (fun l hl => by
      rw [layersAbove_mem] at hl
      omega)
    rfl
    (fun ep hep => by
      rw [List.mem_singleton] at hep
      subst hep
      refine ⟨he1, by omega, fun l hl => ?_⟩
      rw [layersAbove_mem] at hl
      omega)
  exact ⟨hnbrs, fun j hj => ⟨by rw [hlen]; omega, by rw [hins j hj]; omega⟩, hV1, hdesc.1,
    hdesc.2⟩

theorem ne_nil_of_length_one (l : List Nat) (h : l.length = 1) : l ≠ [] := by
  intro h0
  rw [h0] at h
  simp at h

/-- One iteration of the main loop of `buildIndex`, seen from an older node `x`: its
list at a layer is left as it was, or the new node `n` is appended to it; the
latter only when the list held fewer than `cap` ids. -/
theorem insertNode_effect (N : Nat) (layers : Nat → Nat) (dataset : List DataVector) (n : Nat)
    (g : HNSWGraph) (h : BuildInv N layers n g) (hn : n < N) (l x : Nat) (hx : x ≠ n) :
    (HNSWGraph.insertNode dataset g n (layers n)).nbrs l x = g.nbrs l x ∨
    ((HNSWGraph.insertNode dataset g n (layers n)).nbrs l x = g.nbrs l x ++ [n] ∧
      ((g.nbrs l x).length : Int) + 1 ≤ g.cap l) := by
  by_cases h0 : n = 0
  · left
    subst h0
    have hnbrs := allocNode_nbrs g 0 (layers 0) (h.fresh 0 (le_refl _)) l x
    rw [← hnbrs]
    unfold HNSWGraph.insertNode
    rw [if_pos rfl]
    rfl
  · obtain ⟨s1, s2, s3, s4, s5⟩ := insert_setup N layers dataset n g h hn h0
    obtain ⟨e1, -, -, -, -⟩ := insert_fold_effect layers n (g.allocNode n (layers n))
      (dataset.getD n []) s2 (layersDownFrom (min (layers n) g.maxLayer))
      (g.allocNode n (layers n), (layersAbove g.maxLayer (layers n)).foldl
        ((g.allocNode n (layers n)).descentStep (dataset.getD n [])) [g.entryPoint])
      (layersDownFrom_pairwise _)
      (fun l hl => by
        rw [layersDownFrom_mem] at hl
        omega)
      (Frame.refl _) (fun l _ => s3 l) (nodup_of_length_one _ s4) (ne_nil_of_length_one _ s4)
      (fun ep hep => ⟨(s5 ep hep).1, fun l hl => by
        rw [layersDownFrom_mem] at hl
        have := (s5 ep hep).2
        omega⟩)
    rw [insertNode_nbrs dataset g n (layers n) h0]
    have := e1 l x hx
    simp only [s1] at this
    exact this

/-! ## A list that has reached its cap never changes again (C19) -/

/-- C19: during `buildIndex`, once the layer-`l` list of an inserted node `c` holds
`cap` ids or more (at layer 0 `cap` is the stored `maxM0`, the `int` product `M * 2`,
which is `2 M` for `-2^30 ≤ M < 2^30`; above, `cap = maxM = M`), every later
insertion leaves it exactly as it is. In the body of the link loop, when the
list of the candidate holds `cap` ids or more, the list after the two
appends is the old list followed by the new node `i`, and the `pop_back` removes
this `i`: the list is the old one again. -/
theorem hnsw_full_list_frozen (M : Int) (dataset : List DataVector) (layers : Nat → Nat)
    (n m l c : Nat) (hnm : n ≤ m) (hm : m ≤ dataset.length) (hc : c < n)
    (hfull : (if l = 0 then wrapInt32 (M * 2) else M)
      ≤ (((HNSWGraph.init M).buildUpTo dataset layers n).nbrs l c).length) :
    ((HNSWGraph.init M).buildUpTo dataset layers m).nbrs l c
      = ((HNSWGraph.init M).buildUpTo dataset layers n).nbrs l c ∧
    (∀ (g : HNSWGraph) (i lc cand : Nat) (cap : Int), cand ≠ i → g.HasLayer i lc →
      g.HasLayer cand lc → cap ≤ (g.nbrs lc cand).length →
      ((g.updNeighbors i lc fun l => l ++ [cand]).updNeighbors cand lc
        fun l => l ++ [i]).nbrs lc cand = g.nbrs lc cand ++ [i] ∧
      (HNSWGraph.linkStep i lc cap g cand).nbrs lc cand
        = (g.nbrs lc cand ++ [i]).dropLast ∧
      (HNSWGraph.linkStep i lc cap g cand).nbrs lc cand = g.nbrs lc cand) := by
  constructor
  · obtain ⟨k, rfl⟩ : ∃ k, m = n + k := ⟨m - n, by omega⟩
    clear hnm
    induction k with
    | zero => rfl
    | succ k ih =>
      have ih1 := ih (by omega)
      have hinv := buildInv_upTo M dataset layers (n + k) (by omega)
      have hp := buildUpTo_params M dataset layers (n + k)
      have he := insertNode_effect dataset.length layers dataset (n + k) _ hinv (by omega)
        l c (by omega)
      have hs : (HNSWGraph.init M).buildUpTo dataset layers (n + (k + 1))
          = HNSWGraph.insertNode dataset ((HNSWGraph.init M).buildUpTo dataset layers (n + k))
              (n + k) (layers (n + k)) := buildUpTo_succ _ _ _ _
      rw [hs]
      rcases he with he | ⟨-, he⟩
      · rw [he, ih1]
      · exfalso
        unfold HNSWGraph.cap at he
        rw [hp.2.2.1, hp.2.2.2, ih1] at he
        omega
  · intro g i lc cand cap hne hi hcand hcap
    have hc1 : (g.updNeighbors i lc fun l => l ++ [cand]).HasLayer cand lc :=
      ((updNeighbors_frame _ _ _ _).hasLayer cand lc).2 hcand
    have e2 : ((g.updNeighbors i lc fun l => l ++ [cand]).updNeighbors cand lc
        fun l => l ++ [i]).nbrs lc cand = g.nbrs lc cand ++ [i] := by
      rw [nbrs_updNeighbors, if_pos ⟨rfl, rfl, hc1⟩, nbrs_updNeighbors,
        if_neg (fun h => hne h.1)]
    have e3 : (HNSWGraph.linkStep i lc cap g cand).nbrs lc cand = g.nbrs lc cand := by
      rw [linkStep_nbrs i lc cap g cand hne hi hcand, if_neg (fun h => hne h.2),
        if_pos ⟨rfl, rfl⟩, if_pos (by omega)]
    exact ⟨e2, by rw [e3, List.dropLast_concat], e3⟩

/-- An instance of C19: with the default `M = 16` and 34 copies of the point `(0)`
(layers 0), the layer-0 list of node 0 holds `maxM0 = 32` ids after 33
insertions and is the same after the insertion of node 33. -/
theorem hnsw_full_list_frozen_witness :
    ((HNSWGraph.init 16).buildUpTo (List.replicate 34 [0]) (fun _ => 0) 34).nbrs 0 0
      = ((HNSWGraph.init 16).buildUpTo (List.replicate 34 [0]) (fun _ => 0) 33).nbrs 0 0 ∧
    (∀ (g : HNSWGraph) (i lc cand : Nat) (cap : Int), cand ≠ i → g.HasLayer i lc →
      g.HasLayer cand lc → cap ≤ (g.nbrs lc cand).length →
      ((g.updNeighbors i lc fun l => l ++ [cand]).updNeighbors cand lc
        fun l => l ++ [i]).nbrs lc cand = g.nbrs lc cand ++ [i] ∧
      (HNSWGraph.linkStep i lc cap g cand).nbrs lc cand
        = (g.nbrs lc cand ++ [i]).dropLast ∧
      (HNSWGraph.linkStep i lc cap g cand).nbrs lc cand = g.nbrs lc cand) :=
  hnsw_full_list_frozen 16 (List.replicate 34 [0]) (fun _ => 0) 33 34 0 0 (by decide)
    (by simp) (by decide)
    (by
      have hz := (zero_build_complete 16 34 (by decide) (by decide) 33 (by decide)
        (by decide) (by decide)
        (by decide)).2.2 0
      rw [hz]
      decide)

/-! ## The first element returned by `searchLayer` (C20) -/

/-- An invariant of the body of the `while` loop is an invariant of the loop. -/
theorem searchLoop_induct (step : SearchState → Nat → SearchState) (nbrs : Nat → List Nat)
    (Inv : SearchState → Prop)
    (hiter : ∀ s top rest, Inv s → s.candidates = top :: rest → ¬ (-top.1 > s.lowerBound) →
      Inv ((nbrs top.2).foldl step { s with candidates := rest })) :
    ∀ (fuel : Nat) (s : SearchState), Inv s → Inv (searchLoop step nbrs fuel s) := by
  intro fuel
  induction fuel with
  | zero => intro s h; exact h
  | succ fuel ih =>
    intro s h
    cases hc : s.candidates with
    | nil =>
      have e : searchLoop step nbrs (fuel + 1) s = s := by simp [searchLoop, hc]
      rw [e]
      exact h
    | cons top rest =>
      by_cases hb : -top.1 > s.lowerBound
      · have e : searchLoop step nbrs (fuel + 1) s = s := by simp [searchLoop, hc, hb]
        rw [e]
        exact h
      · have e : searchLoop step nbrs (fuel + 1) s
            = searchLoop step nbrs fuel
                ((nbrs top.2).foldl step { s with candidates := rest }) := by
          simp [searchLoop, hc, hb]
        rw [e]
        exact ih _ (hiter s top rest h hc hb)

/-- Pushing a new id with its distance on both heaps keeps the invariant, whatever
becomes of `lowerBound`. -/
theorem MinInv.pushBoth {D : Nat → ℝ} {s : SearchState} (h : MinInv D s) (n : Nat) (lb : ℝ) :
    MinInv D { visited := n :: s.visited
               candidates := maxPush (-(D n), n) s.candidates
               nearest := minPush (D n, n) s.nearest
               lowerBound := lb } := by
  obtain ⟨h1, h2, h3, h4⟩ := h
  refine ⟨minPush_sorted _ _ h1, ?_, ?_, ?_⟩
  · intro x hx
    rcases (mem_minPush _ _ _).1 hx with rfl | hx
    · exact ⟨rfl, List.mem_cons_self _ _⟩
    · exact ⟨(h2 x hx).1, List.mem_cons_of_mem _ (h2 x hx).2⟩
  · intro v hv
    rcases List.mem_cons.1 hv with rfl | hv
    · exact ⟨(D v, v), (mem_minPush _ _ _).2 (Or.inl rfl), le_refl _⟩
    · obtain ⟨y, hy, hle⟩ := h3 v hv
      exact ⟨y, (mem_minPush _ _ _).2 (Or.inr hy), hle⟩
  · intro c hc
    rcases (mem_maxPush _ _ _).1 hc with rfl | hc
    · exact ⟨(D n, n), (mem_minPush _ _ _).2 (Or.inl rfl), by simp⟩
    · obtain ⟨y, hy, hle⟩ := h4 c hc
      exact ⟨y, (mem_minPush _ _ _).2 (Or.inr hy), hle⟩

theorem MinInv.seedFold (g : HNSWGraph) (query : DataVector) :
    ∀ (eps : List Nat) (s : SearchState), MinInv (g.distTo query) s →
      MinInv (g.distTo query) (eps.foldl (g.seedStep query) s) ∧
      ∀ v, v ∈ s.visited ∨ v ∈ eps → v ∈ (eps.foldl (g.seedStep query) s).visited := by
  intro eps
  induction eps with
  | nil =>
    intro s h
    exact ⟨h, fun v hv => hv.elim id (fun h0 => by simp at h0)⟩
  | cons ep eps ih =>
    intro s h
    rw [List.foldl_cons]
    obtain ⟨i1, i2⟩ := ih (g.seedStep query s ep) (h.pushBoth ep _)
    refine ⟨i1, fun v hv => i2 v ?_⟩
    rcases hv with hv | hv
    · exact Or.inl (List.mem_cons_of_mem _ hv)
    · rcases List.mem_cons.1 hv with rfl | hv
      · exact Or.inl (List.mem_cons_self _ _)
      · exact Or.inr hv

/-- The body of the neighbor loop of `searchLayer` keeps the invariant together with
the fact that `lowerBound` is not below the smallest distance in `nearest`. -/
theorem MinInv.expandMin (g : HNSWGraph) (query : DataVector) (s : SearchState) (n : Nat)
    (h : MinInv (g.distTo query) s) (hlb : ∃ y ∈ s.nearest, y.1 ≤ s.lowerBound) :
    MinInv (g.distTo query) (g.expandStep query s n) ∧
    ∃ y ∈ (g.expandStep query s n).nearest, y.1 ≤ (g.expandStep query s n).lowerBound := by
  unfold HNSWGraph.expandStep
  by_cases hv : n ∈ s.visited
  · rw [if_pos hv]
    exact ⟨h, hlb⟩
  · rw [if_neg hv]
    by_cases hadm : g.distTo query n < s.lowerBound ∨ s.nearest.length < toSizeT g.M
    · rw [if_pos hadm]
      refine ⟨h.pushBoth n _, ?_⟩
      obtain ⟨y, hy, hle⟩ := hlb
      by_cases hd : s.lowerBound ≤ g.distTo query n
      · exact ⟨y, (mem_minPush _ _ _).2 (Or.inr hy), by
          show y.1 ≤ min s.lowerBound (g.distTo query n)
          rw [min_eq_left hd]
          exact hle⟩
      · exact ⟨(g.distTo query n, n), (mem_minPush _ _ _).2 (Or.inl rfl), by
          show g.distTo query n ≤ min s.lowerBound (g.distTo query n)
          rw [min_eq_right (le_of_lt (not_le.1 hd))]⟩
    · rw [if_neg hadm]
      obtain ⟨h1, h2, h3, h4⟩ := h
      obtain ⟨y, hy, hle⟩ := hlb
      have hd : s.lowerBound ≤ g.distTo query n := not_lt.1 (fun hh => hadm (Or.inl hh))
      refine ⟨⟨h1, fun x hx => ⟨(h2 x hx).1, List.mem_cons_of_mem _ (h2 x hx).2⟩, ?_, h4⟩,
        y, hy, hle⟩
      intro v hv1
      rcases List.mem_cons.1 hv1 with rfl | hv1
      · exact ⟨y, hy, le_trans hle hd⟩
      · exact h3 v hv1

theorem MinInv.foldMin (g : HNSWGraph) (query : DataVector) :
    ∀ (ns : List Nat) (s : SearchState), MinInv (g.distTo query) s →
      (∃ y ∈ s.nearest, y.1 ≤ s.lowerBound) →
      MinInv (g.distTo query) (ns.foldl (g.expandStep query) s) ∧
      ∀ v ∈ s.visited, v ∈ (ns.foldl (g.expandStep query) s).visited := by
  intro ns
  induction ns with
  | nil => intro s h _; exact ⟨h, fun v hv => hv⟩
  | cons n ns ih =>
    intro s h hlb
    rw [List.foldl_cons]
    obtain ⟨e1, e2⟩ := MinInv.expandMin g query s n h hlb
    obtain ⟨i1, i2⟩ := ih _ e1 e2
    refine ⟨i1, fun v hv => i2 v ?_⟩
    unfold HNSWGraph.expandStep
    split
    · exact hv
    · split
      · exact List.mem_cons_of_mem _ hv
      · exact List.mem_cons_of_mem _ hv

/-- C20: for every graph state (the states reached by `buildIndex` among them),
every query, every layer and every non-empty list of entry points,
`searchLayer` returns a non-empty list in ascending order of distance; its first
element was visited and is at least as close to the query as every node
visited during the search, the entry points included; it is what the body of
the descent loops hands on. -/
theorem searchLayer_first_is_closest (g : HNSWGraph) (query : DataVector) (eps : List Nat)
    (layer : Nat) (hne : eps ≠ []) :
    ∃ best rest, g.searchLayer query eps layer = best :: rest ∧
      ((g.searchLayer query eps layer).map (g.distTo query)).Sorted (fun a b => a ≤ b) ∧
      best ∈ (g.searchLayerState query eps layer).visited ∧
      (∀ ep ∈ eps, ep ∈ (g.searchLayerState query eps layer).visited) ∧
      (∀ v ∈ (g.searchLayerState query eps layer).visited,
        g.distTo query best ≤ g.distTo query v) ∧
      g.descentStep query eps layer = [best] := by
  have hseed := MinInv.seedFold g query eps SearchState.start
    ⟨List.sorted_nil, fun x hx => by simp [SearchState.start] at hx,
      fun v hv => by simp [SearchState.start] at hv,
      fun c hc => by simp [SearchState.start] at hc⟩
  have hloop : MinInv (g.distTo query) (g.searchLayerState query eps layer) ∧
      ∀ v ∈ (eps.foldl (g.seedStep query) SearchState.start).visited,
        v ∈ (g.searchLayerState query eps layer).visited := by
    unfold HNSWGraph.searchLayerState
    apply searchLoop_induct (g.expandStep query) (g.nbrs layer)
      (fun s => MinInv (g.distTo query) s ∧
        ∀ v ∈ (eps.foldl (g.seedStep query) SearchState.start).visited, v ∈ s.visited)
    · intro s top rest hs hc hb
      obtain ⟨⟨h1, h2, h3, h4⟩, hvis⟩ := hs
      obtain ⟨y, hy, hle⟩ := h4 top (by rw [hc]; exact List.mem_cons_self _ _)
      have hf := MinInv.foldMin g query (g.nbrs layer top.2) { s with candidates := rest }
        ⟨h1, h2, h3, fun c hc1 => h4 c (by rw [hc]; exact List.mem_cons_of_mem _ hc1)⟩
        ⟨y, hy, le_trans hle (not_lt.1 hb)⟩
      exact ⟨hf.1, fun v hv => hf.2 v (hvis v hv)⟩
    · exact ⟨hseed.1, fun v hv => hv⟩
  obtain ⟨⟨h1, h2, h3, -⟩, hvis⟩ := hloop
  have hlen := searchLoop_nearest_length (g.expandStep query) (g.nbrs layer)
    (expandStep_nearest_length g query) (g.searchFuel eps layer)
    (eps.foldl (g.seedStep query) SearchState.start)
  rw [seed_nearest_length] at hlen
  have hpos : 0 < eps.length := List.length_pos.2 hne
  have hres : g.searchLayer query eps layer
      = (g.searchLayerState query eps layer).nearest.map Prod.snd := rfl
  cases hnr : (g.searchLayerState query eps layer).nearest with
  | nil =>
    exfalso
    have e : (searchLoop (g.expandStep query) (g.nbrs layer) (g.searchFuel eps layer)
        (eps.foldl (g.seedStep query) SearchState.start)).nearest = [] := hnr
    rw [e] at hlen
    have h0 : SearchState.start.nearest.length = 0 := rfl
    simp only [List.length_nil] at hlen
    omega
  | cons b rest =>
    rw [hnr] at h1 h2 h3
    have hb := h2 b (List.mem_cons_self _ _)
    refine ⟨b.2, rest.map Prod.snd, by rw [hres, hnr]; rfl, ?_, hb.2, ?_, ?_, ?_⟩
    · rw [hres, hnr, List.map_map]
      have e : (b :: rest).map (g.distTo query ∘ Prod.snd) = (b :: rest).map Prod.fst := by
        apply List.map_congr_left
        intro x hx
        exact (h2 x hx).1.symm
      rw [e]
      unfold List.Sorted
      rw [List.pairwise_map]
      exact List.Pairwise.imp (fun {a c} hac => pairLe_fst a c hac) h1
    · intro ep hep
      exact hvis ep (hseed.2 ep (Or.inr hep))
    · intro v hv
      obtain ⟨y, hy, hle⟩ := h3 v hv
      rw [← hb.1]
      rcases List.mem_cons.1 hy with rfl | hy
      · exact hle
      · exact le_trans (pairLe_fst b y (List.rel_of_sorted_cons h1 y hy)) hle
    · unfold HNSWGraph.descentStep
      rw [hres, hnr]
      rfl

/-- An instance of C20: the search at layer 0 of the graph of the points `(2)` and
`(1)` from node 0. -/
theorem searchLayer_first_is_closest_witness :
    ∃ best rest, G2.searchLayer [0] [0] 0 = best :: rest ∧
      ((G2.searchLayer [0] [0] 0).map (G2.distTo [0])).Sorted (fun a b => a ≤ b) ∧
      best ∈ (G2.searchLayerState [0] [0] 0).visited ∧
      (∀ ep ∈ [0], ep ∈ (G2.searchLayerState [0] [0] 0).visited) ∧
      (∀ v ∈ (G2.searchLayerState [0] [0] 0).visited,
        G2.distTo [0] best ≤ G2.distTo [0] v) ∧
      G2.descentStep [0] [0] 0 = [best] :=
  searchLayer_first_is_closest G2 [0] [0] 0 (by simp)

/-! ## The greedy search when all nodes are at distance 0, from any entry points -/

theorem DBL_MAX_nonneg : 0 ≤ DBL_MAX := by
  unfold DBL_MAX
  norm_num

theorem ZeroInv.expandZero (g : HNSWGraph) (query : DataVector) (ef : Int)
    (hz : ∀ id, g.distTo query id = 0) (s : SearchState) (n : Nat) (h : ZeroInv ef s) :
    ZeroInv ef (g.expandStepGreedy query ef s n) ∧
    ∀ v, v ∈ s.visited ∨ v = n → v ∈ (g.expandStepGreedy query ef s n).visited := by
  obtain ⟨h1, h2, h3⟩ := h
  unfold HNSWGraph.expandStepGreedy
  by_cases hv : n ∈ s.visited
  · rw [if_pos hv]
    exact ⟨⟨h1, h2, h3⟩, fun v hvv => hvv.elim id (fun e => e ▸ hv)⟩
  · rw [if_neg hv, hz, h1]
    by_cases hlen : (s.nearest.length : Int) < ef
    · have hno : ¬ ((minPush ((0 : ℝ), n) s.nearest).length : Int) > ef := by
        rw [minPush_length]
        push_cast
        omega
      rw [if_pos (Or.inr hlen), if_neg hno]
      refine ⟨⟨by simp, ?_, ?_⟩, ?_⟩
      · intro c hc
        rcases (mem_maxPush _ _ _).1 hc with rfl | hc
        · simp
        · exact h2 c hc
      · intro v hvv
        left
        rcases List.mem_cons.1 hvv with rfl | hvv
        · exact List.mem_map.2 ⟨(0, v), (mem_minPush _ _ _).2 (Or.inl rfl), rfl⟩
        · rcases h3 v hvv with h4 | h4
          · obtain ⟨y, hy, rfl⟩ := List.mem_map.1 h4
            exact List.mem_map.2 ⟨y, (mem_minPush _ _ _).2 (Or.inr hy), rfl⟩
          · omega
      · intro v hvv
        rcases hvv with hvv | rfl
        · exact List.mem_cons_of_mem _ hvv
        · exact List.mem_cons_self _ _
    · have hcond : ¬ ((0 : ℝ) < 0 ∨ (s.nearest.length : Int) < ef) := by
        intro hh
        rcases hh with hh | hh
        · exact lt_irrefl _ hh
        · exact hlen hh
      rw [if_neg hcond]
      refine ⟨⟨rfl, h2, ?_⟩, ?_⟩
      · intro v hvv
        right
        exact not_lt.1 hlen
      · intro v hvv
        rcases hvv with hvv | rfl
        · exact List.mem_cons_of_mem _ hvv
        · exact List.mem_cons_self _ _

theorem ZeroInv.foldZero (g : HNSWGraph) (query : DataVector) (ef : Int)
    (hz : ∀ id, g.distTo query id = 0) :
    ∀ (ns : List Nat) (s : SearchState), ZeroInv ef s →
      ZeroInv ef (ns.foldl (g.expandStepGreedy query ef) s) ∧
      ∀ v, v ∈ s.visited ∨ v ∈ ns → v ∈ (ns.foldl (g.expandStepGreedy query ef) s).visited := by
  intro ns
  induction ns with
  | nil =>
    intro s h
    exact ⟨h, fun v hv => hv.elim id (fun h0 => by simp at h0)⟩
  | cons n ns ih =>
    intro s h
    rw [List.foldl_cons]
    obtain ⟨e1, e2⟩ := ZeroInv.expandZero g query ef hz s n h
    obtain ⟨i1, i2⟩ := ih _ e1
    refine ⟨i1, fun v hv => i2 v ?_⟩
    rcases hv with hv | hv
    · exact Or.inl (e2 v (Or.inl hv))
    · rcases List.mem_cons.1 hv with rfl | hv
      · exact Or.inl (e2 v (Or.inr rfl))
      · exact Or.inr hv

theorem ZeroInv.seedZero (g : HNSWGraph) (query : DataVector)
    (hz : ∀ id, g.distTo query id = 0) :
    ∀ (eps : List Nat) (s : SearchState), 0 ≤ s.lowerBound →
      (∀ c ∈ s.candidates, c.1 = 0) → (∀ v ∈ s.visited, v ∈ s.nearest.map Prod.snd) →
      0 ≤ (eps.foldl (g.seedStep query) s).lowerBound ∧
      (eps ≠ [] → (eps.foldl (g.seedStep query) s).lowerBound = 0) ∧
      (∀ c ∈ (eps.foldl (g.seedStep query) s).candidates,
        c.1 = 0 ∧ (c ∈ s.candidates ∨ c.2 ∈ eps)) ∧
      (∀ v ∈ (eps.foldl (g.seedStep query) s).visited,
        v ∈ (eps.foldl (g.seedStep query) s).nearest.map Prod.snd) ∧
      (∀ v ∈ eps, v ∈ (eps.foldl (g.seedStep query) s).visited) := by
  intro eps
  induction eps with
  | nil =>
    intro s h1 h2 h3
    exact ⟨h1, fun h => absurd rfl h, fun c hc => ⟨h2 c hc, Or.inl hc⟩, h3,
      fun v hv => by simp at hv⟩
  | cons ep eps ih =>
    intro s h1 h2 h3
    rw [List.foldl_cons]
    have hlb : (g.seedStep query s ep).lowerBound = 0 := by
      show min s.lowerBound (g.distTo query ep) = 0
      rw [hz, min_eq_right h1]
    obtain ⟨i1, i2, i3, i4, i5⟩ := ih (g.seedStep query s ep) (by rw [hlb])
      (fun c hc => by
        rcases (mem_maxPush _ _ _).1 hc with rfl | hc
        · simp [hz]
        · exact h2 c hc)
      (fun v hv => by
        rcases List.mem_cons.1 hv with rfl | hv
        · exact List.mem_map.2 ⟨(g.distTo query v, v), (mem_minPush _ _ _).2 (Or.inl rfl), rfl⟩
        · obtain ⟨y, hy, rfl⟩ := List.mem_map.1 (h3 v hv)
          exact List.mem_map.2 ⟨y, (mem_minPush _ _ _).2 (Or.inr hy), rfl⟩)
    refine ⟨i1, fun _ => ?_, ?_, i4, ?_⟩
    · cases eps with
      | nil => exact hlb
      | cons a t => exact i2 (by simp)
    · intro c hc
      obtain ⟨c1, c2⟩ := i3 c hc
      refine ⟨c1, ?_⟩
      rcases c2 with c2 | c2
      · rcases (mem_maxPush _ _ _).1 c2 with rfl | c2
        · exact Or.inr (List.mem_cons_self _ _)
        · exact Or.inl c2
      · exact Or.inr (List.mem_cons_of_mem _ c2)
    · intro v hv
      rcases List.mem_cons.1 hv with rfl | hv
      · have hmono : ∀ (l : List Nat) (t : SearchState) (w : Nat), w ∈ t.visited →
            w ∈ (l.foldl (g.seedStep query) t).visited := by
          intro l
          induction l with
          | nil => intro t w hw; exact hw
          | cons a l ihl =>
            intro t w hw
            rw [List.foldl_cons]
            exact ihl _ w (List.mem_cons_of_mem _ hw)
        exact hmono eps _ v (List.mem_cons_self _ _)
      · exact i5 v hv

/-- When every node is at distance 0 from the query, `searchLayerGreedy` from a
non-empty list of entry points returns every entry point and every neighbor of
one of the entry points, unless it returns `ef` ids or more. -/
theorem searchGreedy_zero_reach (g : HNSWGraph) (query : DataVector) (eps : List Nat)
    (layer : Nat) (ef : Int) (hz : ∀ id, g.distTo query id = 0) (hne : eps ≠ []) :
    ∃ e ∈ eps, ∀ x, x ∈ eps ∨ x ∈ g.nbrs layer e →
      x ∈ g.searchLayerGreedy query eps layer ef ∨
      ef ≤ ((g.searchLayerGreedy query eps layer ef).length : Int) := by
  obtain ⟨s1, s2, s3, s4, s5⟩ := ZeroInv.seedZero g query hz eps SearchState.start
    DBL_MAX_nonneg (fun c hc => by simp [SearchState.start] at hc)
    (fun v hv => by simp [SearchState.start] at hv)
  have hlb := s2 hne
  have hclen := seed_candidates_length g query eps SearchState.start
  obtain ⟨k, hk⟩ : ∃ k, g.searchFuel eps layer = k + 1 :=
    ⟨eps.length + (g.nodes.map fun nd => (nd.neighbors.getD layer []).length).sum, rfl⟩
  cases hc : (eps.foldl (g.seedStep query) SearchState.start).candidates with
  | nil =>
    exfalso
    rw [hc] at hclen
    have := List.length_pos.2 hne
    simp only [List.length_nil] at hclen
    omega
  | cons top rest =>
    have htop := s3 top (by rw [hc]; exact List.mem_cons_self _ _)
    have he : top.2 ∈ eps := by
      rcases htop.2 with h | h
      · simp [SearchState.start] at h
      · exact h
    have hnb : ¬ (-top.1 > (eps.foldl (g.seedStep query) SearchState.start).lowerBound) := by
      rw [hlb, htop.1]
      simp
    have hz0 : ZeroInv ef { (eps.foldl (g.seedStep query) SearchState.start) with
        candidates := rest } :=
      ⟨hlb, fun c hc1 => (s3 c (by rw [hc]; exact List.mem_cons_of_mem _ hc1)).1,
        fun v hv => Or.inl (s4 v hv)⟩
    obtain ⟨f1, f2⟩ := ZeroInv.foldZero g query ef hz (g.nbrs layer top.2) _ hz0
    have e1 : searchLoop (g.expandStepGreedy query ef) (g.nbrs layer) (k + 1)
        (eps.foldl (g.seedStep query) SearchState.start)
        = searchLoop (g.expandStepGreedy query ef) (g.nbrs layer) k
            ((g.nbrs layer top.2).foldl (g.expandStepGreedy query ef)
              { (eps.foldl (g.seedStep query) SearchState.start) with candidates := rest }) := by
      simp [searchLoop, hc, hnb]
    have hfin := searchLoop_induct (g.expandStepGreedy query ef) (g.nbrs layer)
      (fun s => ZeroInv ef s ∧ ∀ v, v ∈ eps ∨ v ∈ g.nbrs layer top.2 → v ∈ s.visited)
      (fun s t r hs hcs _ => by
        obtain ⟨⟨z1, z2, z3⟩, hvis⟩ := hs
        obtain ⟨g1, g2⟩ := ZeroInv.foldZero g query ef hz (g.nbrs layer t.2)
          { s with candidates := r }
          ⟨z1, fun c hc1 => z2 c (by rw [hcs]; exact List.mem_cons_of_mem _ hc1), z3⟩
        exact ⟨g1, fun v hv => g2 v (Or.inl (hvis v hv))⟩)
      k _ ⟨f1, fun v hv => by
        rcases hv with hv | hv
        · exact f2 v (Or.inl (s5 v hv))
        · exact f2 v (Or.inr hv)⟩
    refine ⟨top.2, he, fun x hx => ?_⟩
    unfold HNSWGraph.searchLayerGreedy
    rw [hk, e1, List.length_map]
    exact hfin.1.2.2 x (hfin.2 x hx)

/-! ## The last step of the insertion loop: layer 0 -/

theorem layersDownFrom_eq (hi : Nat) : layersDownFrom hi = layersAbove hi 0 ++ [0] := by
  unfold layersDownFrom layersAbove
  rw [List.range_eq_range', List.range'_succ, List.reverse_cons]
  simp

/-- The body of the insertion loop at layer 0, in terms of the layer-0 lists of
a graph `g` with which the current graph agrees at layer 0. -/
theorem insertLayer_zero_nbrs (n : Nat) (query : DataVector) (mid : HNSWGraph × List Nat)
    (g : HNSWGraph) (hm0 : ∀ x, mid.1.nbrs 0 x = g.nbrs 0 x) (hcap : mid.1.maxM0 = g.maxM0)
    (hnd : (mid.1.searchLayerGreedy query mid.2 0 200).Nodup)
    (hlt : ∀ c ∈ mid.1.searchLayerGreedy query mid.2 0 200, c < n)
    (hlayer : ∀ x, x < n + 1 → mid.1.HasLayer x 0) (hnew : g.nbrs 0 n = []) (x : Nat) :
    (HNSWGraph.insertLayer n query mid 0).1.nbrs 0 x =
      if x = n then mid.1.searchLayerGreedy query mid.2 0 200
      else if x ∈ mid.1.searchLayerGreedy query mid.2 0 200 then
        (if ((g.nbrs 0 x).length : Int) + 1 > g.maxM0 then g.nbrs 0 x
          else g.nbrs 0 x ++ [n])
      else g.nbrs 0 x := by
  have hnb := linkFold_nbrs n 0 g.maxM0 _ _ hnd (hlayer n (by omega))
    (fun c hc => ⟨by have hcn : c < n := hlt c hc; omega,
      hlayer c (by have hcn : c < n := hlt c hc; omega)⟩)
  have hstep : (HNSWGraph.insertLayer n query mid 0).1
      = (mid.1.searchLayerGreedy query mid.2 0 200).foldl
          (HNSWGraph.linkStep n 0 g.maxM0) mid.1 := by
    unfold HNSWGraph.insertLayer
    rw [if_pos rfl, hcap]
  rw [hstep, hnb 0 x]
  by_cases hxn : x = n
  · rw [if_pos ⟨rfl, hxn⟩, if_pos hxn, hm0, hnew, List.nil_append]
  · rw [if_neg (fun hh => hxn hh.2), if_neg hxn]
    by_cases hxc : x ∈ mid.1.searchLayerGreedy query mid.2 0 200
    · rw [if_pos ⟨rfl, hxc⟩, if_pos hxc, hm0]
    · rw [if_neg (fun hh => hxc hh.2), if_neg hxc, hm0]

/-- The layer-0 lists after the insertion of node `n ≥ 1`: the new node lists the
candidates `cs` that the layer-0 search returns (distinct older nodes), and a
candidate gets `n` appended unless its list holds `maxM0` ids or more. The
search runs on a graph `gm` with the layer-0 lists of `g`, from distinct older
nodes `eps`. -/
theorem insertNode_layer0 (N : Nat) (layers : Nat → Nat) (dataset : List DataVector) (n : Nat)
    (g : HNSWGraph) (h : BuildInv N layers n g) (hn : n < N) (h0 : n ≠ 0) :
    ∃ (gm : HNSWGraph) (eps : List Nat),
      gm.data = g.data ∧ (∀ x, gm.nbrs 0 x = g.nbrs 0 x) ∧ eps ≠ [] ∧ eps.Nodup ∧
      (∀ ep ∈ eps, ep < n) ∧
      (gm.searchLayerGreedy (dataset.getD n []) eps 0 200).Nodup ∧
      (∀ c ∈ gm.searchLayerGreedy (dataset.getD n []) eps 0 200, c < n) ∧
      ∀ x, (HNSWGraph.insertNode dataset g n (layers n)).nbrs 0 x =
        if x = n then gm.searchLayerGreedy (dataset.getD n []) eps 0 200
        else if x ∈ gm.searchLayerGreedy (dataset.getD n []) eps 0 200 then
          (if ((g.nbrs 0 x).length : Int) + 1 > g.maxM0 then g.nbrs 0 x
            else g.nbrs 0 x ++ [n])
        else g.nbrs 0 x := by
  obtain ⟨s1, s2, s3, s4, s5⟩ := insert_setup N layers dataset n g h hn h0
  have hup := insert_fold_effect layers n (g.allocNode n (layers n))
    (dataset.getD n []) s2 (layersAbove (min (layers n) g.maxLayer) 0)
    (g.allocNode n (layers n), (layersAbove g.maxLayer (layers n)).foldl
      ((g.allocNode n (layers n)).descentStep (dataset.getD n [])) [g.entryPoint])
    (layersAbove_pairwise _ _)
    (fun l hl => by
      rw [layersAbove_mem] at hl
      omega)
    (Frame.refl _) (fun l _ => s3 l) (nodup_of_length_one _ s4) (ne_nil_of_length_one _ s4)
    (fun ep hep => ⟨(s5 ep hep).1, fun l hl => by
      rw [layersAbove_mem] at hl
      have := (s5 ep hep).2
      omega⟩)
  have hfr := insertFold_frame n (dataset.getD n [])
    (layersAbove (min (layers n) g.maxLayer) 0)
    (g.allocNode n (layers n), (layersAbove g.maxLayer (layers n)).foldl
      ((g.allocNode n (layers n)).descentStep (dataset.getD n [])) [g.entryPoint])
  obtain ⟨-, u2, u3, u4, u5⟩ := hup
  have hm0 : ∀ x, ((layersAbove (min (layers n) g.maxLayer) 0).foldl
      (HNSWGraph.insertLayer n (dataset.getD n []))
      (g.allocNode n (layers n), (layersAbove g.maxLayer (layers n)).foldl
        ((g.allocNode n (layers n)).descentStep (dataset.getD n [])) [g.entryPoint])).1.nbrs 0 x
      = g.nbrs 0 x := by
    intro x
    rw [u2 0 (fun hl => by
      rw [layersAbove_mem] at hl
      omega) x]
    exact s1 0 x
  refine ⟨_, _, hfr.2.2.1, hm0, u4, u3, u5, ?_⟩
  have hV0 : LayerV layers n ((layersAbove (min (layers n) g.maxLayer) 0).foldl
      (HNSWGraph.insertLayer n (dataset.getD n []))
      (g.allocNode n (layers n), (layersAbove g.maxLayer (layers n)).foldl
        ((g.allocNode n (layers n)).descentStep (dataset.getD n [])) [g.entryPoint])).1 0 :=
    (h.valid 0).congrV (fun j => hm0 j)
  have hs := searchLayerGreedy_spec _ (dataset.getD n []) _ 0 200 (fun x => x < n)
    (fun c _ x hx => (hV0 c x hx).1) u3 u5
  have hlayer : ∀ x, x < n + 1 → ((layersAbove (min (layers n) g.maxLayer) 0).foldl
      (HNSWGraph.insertLayer n (dataset.getD n []))
      (g.allocNode n (layers n), (layersAbove g.maxLayer (layers n)).foldl
        ((g.allocNode n (layers n)).descentStep (dataset.getD n [])) [g.entryPoint])).1.HasLayer
        x 0 := by
    intro x hx
    rw [hfr.hasLayer]
    show (g.allocNode n (layers n)).HasLayer x 0
    have := s2 x hx
    unfold HNSWGraph.HasLayer at this ⊢
    exact ⟨this.1, by omega⟩
  have hnew : g.nbrs 0 n = [] := by
    unfold HNSWGraph.nbrs
    rw [h.fresh n (le_refl _)]
    rfl
  refine ⟨hs.1, hs.2.1, ?_⟩
  intro x
  rw [insertNode_nbrs dataset g n (layers n) h0, layersDownFrom_eq, List.foldl_append,
    List.foldl_cons, List.foldl_nil]
  exact insertLayer_zero_nbrs n (dataset.getD n []) _ g hm0 hfr.2.2.2.2.2.1 hs.1 hs.2.1
    hlayer hnew x

/-! ## The build on 200 copies of the origin, for all layer draws (C14) -/

theorem dist_zero4 (p : DataVector) (hp : p = [0, 0, 0, 0] ∨ p = []) :
    DataVector.dist [0, 0, 0, 0] p = 0 := by
  rcases hp with rfl | rfl <;> simp [DataVector.dist, List.range_succ]

theorem zeros200_getD (i : Nat) :
    zeros200.getD i [] = [0, 0, 0, 0] ∨ zeros200.getD i [] = [] := by
  unfold zeros200
  rw [List.getD_eq_getElem?_getD, List.getElem?_replicate]
  split
  · left; rfl
  · right; rfl

theorem distTo_zeros200 (g : HNSWGraph) (hd : g.data = zeros200) (id : Nat) :
    g.distTo [0, 0, 0, 0] id = 0 := by
  unfold HNSWGraph.distTo
  rw [hd]
  exact dist_zero4 _ (zeros200_getD id)

/-- One insertion keeps `FirstFive`, whatever layer is drawn. -/
theorem firstFive_step (layers : Nat → Nat) (n : Nat) (g : HNSWGraph)
    (h : BuildInv 200 layers n g) (hn : n < 200) (hd : g.data = zeros200)
    (hM : g.maxM0 = 32) (hf : FirstFive n g) :
    FirstFive (n + 1) (HNSWGraph.insertNode zeros200 g n (layers n)) := by
  obtain ⟨hf1, hf2⟩ := hf
  by_cases h0 : n = 0
  · subst h0
    have hnb : ∀ l x, (HNSWGraph.insertNode zeros200 g 0 (layers 0)).nbrs l x = g.nbrs l x := by
      intro l x
      rw [← allocNode_nbrs g 0 (layers 0) (h.fresh 0 (le_refl _)) l x]
      unfold HNSWGraph.insertNode
      rw [if_pos rfl]
      rfl
    refine ⟨fun j hj x hx hxj => ?_, fun j => ?_⟩
    · exfalso
      have : min (0 + 1) 5 = 1 := rfl
      rw [this] at hx
      omega
    · rw [hnb]
      exact le_trans (hf2 j) (Nat.le_succ _)
  · obtain ⟨gm, eps, m1, m2, m3, m4, m5, m6, m7, m8⟩ :=
      insertNode_layer0 200 layers zeros200 n g h hn h0
    have hq : zeros200.getD n [] = [0, 0, 0, 0] := by
      unfold zeros200
      rw [List.getD_eq_getElem?_getD, List.getElem?_replicate, if_pos hn]
      rfl
    rw [hq] at m6 m7 m8
    have hz : ∀ id, gm.distTo [0, 0, 0, 0] id = 0 :=
      fun id => distTo_zeros200 gm (m1.trans hd) id
    obtain ⟨e, he, hreach⟩ := searchGreedy_zero_reach gm [0, 0, 0, 0] eps 0 200 hz m3
    have hlen : (gm.searchLayerGreedy [0, 0, 0, 0] eps 0 200).length ≤ n :=
      nodup_bounded_length _ n m6 m7
    have hin : ∀ x, x ∈ eps ∨ x ∈ gm.nbrs 0 e →
        x ∈ gm.searchLayerGreedy [0, 0, 0, 0] eps 0 200 := by
      intro x hx
      rcases hreach x hx with h1 | h1
      · exact h1
      · omega
    have hcs5 : ∀ x, x < min n 5 → x ∈ gm.searchLayerGreedy [0, 0, 0, 0] eps 0 200 := by
      intro x hx
      by_cases hxe : x = e
      · exact hin x (Or.inl (hxe ▸ he))
      · refine hin x (Or.inr ?_)
        rw [m2]
        exact hf1 e (m5 e he) x hx hxe
    refine ⟨fun j hj x hx hxj => ?_, fun j => ?_⟩
    · rw [m8 j]
      by_cases hjn : j = n
      · rw [if_pos hjn]
        exact hcs5 x (by
          simp only [lt_min_iff] at hx ⊢
          omega)
      · rw [if_neg hjn]
        have hjlt : j < n := by omega
        by_cases hxn : x = n
        · have hn5 : n < 5 := by
            simp only [lt_min_iff] at hx
            omega
          have hjc := hcs5 j (by
            simp only [lt_min_iff]
            omega)
          have hl := hf2 j
          rw [if_pos hjc, if_neg (by rw [hM]; omega), hxn]
          exact List.mem_append_right _ (List.mem_singleton_self _)
        · have hold : x ∈ g.nbrs 0 j := hf1 j hjlt x (by
            simp only [lt_min_iff] at hx ⊢
            omega) hxj
          split
          · split
            · exact hold
            · exact List.mem_append_left _ hold
          · exact hold
    · rw [m8 j]
      have hl := hf2 j
      split
      · omega
      · split
        · split
          · omega
          · rw [List.length_append, List.length_singleton]
            omega
        · omega

/-- The invariant `FirstFive` holds after every insertion of the build on
`zeros200` with `M = 16`, for all layer draws. -/
theorem firstFive_upTo (layers : Nat → Nat) :
    ∀ n, n ≤ 200 → FirstFive n ((HNSWGraph.init 16).buildUpTo zeros200 layers n) := by
  have hlen : zeros200.length = 200 := List.length_replicate _ _
  intro n
  induction n with
  | zero =>
    intro _
    have hinv := buildInv_upTo 16 zeros200 layers 0 (Nat.zero_le _)
    refine ⟨fun j hj => by omega, fun j => ?_⟩
    have : ((HNSWGraph.init 16).buildUpTo zeros200 layers 0).nbrs 0 j = [] := by
      apply List.eq_nil_iff_forall_not_mem.2
      intro x hx
      have := hinv.valid 0 j x hx
      omega
    rw [this]
    exact le_refl _
  | succ n ih =>
    intro hn
    have hinv := buildInv_upTo 16 zeros200 layers n (by rw [hlen]; omega)
    rw [hlen] at hinv
    have hp := buildUpTo_params 16 zeros200 layers n
    rw [buildUpTo_succ]
    exact firstFive_step layers n _ hinv (by omega) hp.1
      (by rw [buildUpTo_maxM0 16 zeros200 layers n (by decide) (by decide)]; decide)
      (ih (by omega))

/-- In a state that satisfies the build invariant the entry point is an inserted
node with a list at `maxLayer`, and every id stored in a list of layer `l` is an
inserted node with a list at layer `l`, stored in the list of such a node:
the accesses `nodes[id].neighbors[l]` are in range. -/
theorem BuildInv.inRange {N : Nat} {layers : Nat → Nat} {n : Nat} {g : HNSWGraph}
    (h : BuildInv N layers n g) :
    (0 < n → g.entryPoint < n ∧ g.HasLayer g.entryPoint g.maxLayer) ∧
    ∀ l j x, x ∈ g.nbrs l j → x < n ∧ j < n ∧ g.HasLayer x l ∧ g.HasLayer j l := by
  have hle := h.le
  have hlen := h.len
  refine ⟨fun hn => ?_, fun l j x hx => ?_⟩
  · obtain ⟨e1, e2, -⟩ := h.entry hn
    refine ⟨e1, ?_⟩
    unfold HNSWGraph.HasLayer
    rw [(h.inserted _ e1).1]
    omega
  · obtain ⟨v1, v2, v3, -⟩ := h.valid l j x hx
    refine ⟨v1, v2, ?_, ?_⟩
    · unfold HNSWGraph.HasLayer
      rw [(h.inserted x v1).1]
      omega
    · by_contra hc
      rw [nbrs_empty_of_not_hasLayer g j l hc] at hx
      simp at hx

theorem five_le_length (cs : List Nat) (h : ∀ x, x < 5 → x ∈ cs) :
    5 ≤ cs.length := by
  have hsub : List.range 5 ⊆ cs := fun x hx => h x (List.mem_range.1 hx)
  have := (List.subperm_of_subset (List.nodup_range 5) hsub).length_le
  simpa using this

/-- C14: for the dataset of 200 copies of the origin of dimension 4, `M = 16` and
every sequence of layer draws: after each insertion of `buildIndex` the graph has
200 nodes and 200 data points, the entry point is an inserted node with a list
at `maxLayer`, and every stored id is an inserted node with a list at the layer
where it is stored (the accesses of the build and of the searches are in
range); and `searchKNearest(q, 5, 50)` with `q` the origin returns
`[0, 0, 0, 0, 0]`. -/
theorem hnsw_zero_dataset (layers : Nat → Nat) :
    (∀ n, n ≤ 200 →
      ((HNSWGraph.init 16).buildUpTo zeros200 layers n).nodes.length = 200 ∧
      ((HNSWGraph.init 16).buildUpTo zeros200 layers n).data.length = 200 ∧
      (0 < n →
        ((HNSWGraph.init 16).buildUpTo zeros200 layers n).entryPoint < n ∧
        ((HNSWGraph.init 16).buildUpTo zeros200 layers n).HasLayer
          ((HNSWGraph.init 16).buildUpTo zeros200 layers n).entryPoint
          ((HNSWGraph.init 16).buildUpTo zeros200 layers n).maxLayer) ∧
      ∀ l j x, x ∈ ((HNSWGraph.init 16).buildUpTo zeros200 layers n).nbrs l j →
        x < n ∧ j < n ∧
        ((HNSWGraph.init 16).buildUpTo zeros200 layers n).HasLayer x l ∧
        ((HNSWGraph.init 16).buildUpTo zeros200 layers n).HasLayer j l) ∧
    ((HNSWGraph.init 16).buildIndex zeros200 layers).searchKNearest [0, 0, 0, 0] 5 50
      = [0, 0, 0, 0, 0] := by
  have hlen : zeros200.length = 200 := List.length_replicate _ _
  constructor
  · intro n hn
    have hinv := buildInv_upTo 16 zeros200 layers n (by rw [hlen]; exact hn)
    have hp := buildUpTo_params 16 zeros200 layers n
    rw [hlen] at hinv
    exact ⟨hinv.len, by rw [hp.1, hlen], hinv.inRange.1, hinv.inRange.2⟩
  · have hinv := buildInv_upTo 16 zeros200 layers 200 (by rw [hlen])
    rw [hlen] at hinv
    have hp := buildUpTo_params 16 zeros200 layers 200
    have hff := firstFive_upTo layers 200 (le_refl _)
    obtain ⟨e1, e2, e3⟩ := hinv.entry (by decide)
    have hdesc := descent_fold_spec layers 200 0
      ((HNSWGraph.init 16).buildUpTo zeros200 layers 200) [0, 0, 0, 0] hinv.valid
      (layersAbove ((HNSWGraph.init 16).buildUpTo zeros200 layers 200).maxLayer 0)
      [((HNSWGraph.init 16).buildUpTo zeros200 layers 200).entryPoint]
      (layersAbove_pairwise _ _) (fun l _ => Nat.zero_le _) rfl
      (fun ep hep => by
        rw [List.mem_singleton] at hep
        subst hep
        refine ⟨e1, Nat.zero_le _, fun l hl => ?_⟩
        rw [layersAbove_mem] at hl
        omega)
    have hz : ∀ id, ((HNSWGraph.init 16).buildUpTo zeros200 layers 200).distTo
        [0, 0, 0, 0] id = 0 := fun id => distTo_zeros200 _ hp.1 id
    obtain ⟨e, he, hreach⟩ := searchGreedy_zero_reach
      ((HNSWGraph.init 16).buildUpTo zeros200 layers 200) [0, 0, 0, 0] _ 0 50 hz
      (ne_nil_of_length_one _ hdesc.1)
    have h5 : 5 ≤ (((HNSWGraph.init 16).buildUpTo zeros200 layers 200).searchLayerGreedy
        [0, 0, 0, 0]
        ((layersAbove ((HNSWGraph.init 16).buildUpTo zeros200 layers 200).maxLayer 0).foldl
          (((HNSWGraph.init 16).buildUpTo zeros200 layers 200).descentStep [0, 0, 0, 0])
          [((HNSWGraph.init 16).buildUpTo zeros200 layers 200).entryPoint]) 0 50).length := by
      by_cases hbig : (50 : Int) ≤ ((((HNSWGraph.init 16).buildUpTo zeros200 layers
          200).searchLayerGreedy [0, 0, 0, 0]
          ((layersAbove ((HNSWGraph.init 16).buildUpTo zeros200 layers 200).maxLayer 0).foldl
            (((HNSWGraph.init 16).buildUpTo zeros200 layers 200).descentStep [0, 0, 0, 0])
            [((HNSWGraph.init 16).buildUpTo zeros200 layers 200).entryPoint]) 0 50).length : Int)
      · omega
      · apply five_le_length
        intro x hx
        have hx5 : x < min 200 5 := by
          simp only [lt_min_iff]
          omega
        by_cases hxe : x = e
        · rcases hreach x (Or.inl (hxe ▸ he)) with h1 | h1
          · exact h1
          · exact absurd h1 hbig
        · rcases hreach x (Or.inr (hff.1 e (hdesc.2 e he).1 x hx5 hxe)) with h1 | h1
          · exact h1
          · exact absurd h1 hbig
    unfold HNSWGraph.buildIndex
    rw [hlen]
    unfold HNSWGraph.searchKNearest
    have hmax : max (50 : Int) 5 = 50 := by decide
    rw [hmax]
    have hmap : ∀ l : List Nat,
        l.map (((HNSWGraph.init 16).buildUpTo zeros200 layers 200).distTo [0, 0, 0, 0])
          = List.replicate l.length 0 := by
      intro l
      rw [List.eq_replicate_iff]
      refine ⟨List.length_map _ _, fun b hb => ?_⟩
      obtain ⟨a, -, rfl⟩ := List.mem_map.1 hb
      exact hz a
    rw [hmap, List.length_take]
    have hcount : min (min (5 : Int) ((((HNSWGraph.init 16).buildUpTo zeros200 layers
        200).searchLayerGreedy [0, 0, 0, 0]
        ((layersAbove ((HNSWGraph.init 16).buildUpTo zeros200 layers 200).maxLayer 0).foldl
          (((HNSWGraph.init 16).buildUpTo zeros200 layers 200).descentStep [0, 0, 0, 0])
          [((HNSWGraph.init 16).buildUpTo zeros200 layers 200).entryPoint]) 0 50).length : Int)).toNat
        (((HNSWGraph.init 16).buildUpTo zeros200 layers 200).searchLayerGreedy [0, 0, 0, 0]
        ((layersAbove ((HNSWGraph.init 16).buildUpTo zeros200 layers 200).maxLayer 0).foldl
          (((HNSWGraph.init 16).buildUpTo zeros200 layers 200).descentStep [0, 0, 0, 0])
          [((HNSWGraph.init 16).buildUpTo zeros200 layers 200).entryPoint]) 0 50).length = 5 := by
      omega
    rw [hcount]
    rfl

/-! ## The size of the result of `searchLayerGreedy` -/

theorem expandStepGreedy_length_le (g : HNSWGraph) (query : DataVector) (ef : Int)
    (s : SearchState) (n : Nat) (B : Int) (hB : ef ≤ B) (h : (s.nearest.length : Int) ≤ B) :
    ((g.expandStepGreedy query ef s n).nearest.length : Int) ≤ B := by
  unfold HNSWGraph.expandStepGreedy
  split
  · exact h
  · split
    · split
      · simp only [List.length_tail, minPush_length, Nat.add_sub_cancel]
        exact h
      · rename_i hno
        exact le_trans (not_lt.1 hno) hB
    · exact h

theorem foldGreedy_length_le (g : HNSWGraph) (query : DataVector) (ef : Int) (B : Int)
    (hB : ef ≤ B) :
    ∀ (ns : List Nat) (s : SearchState), (s.nearest.length : Int) ≤ B →
      (((ns.foldl (g.expandStepGreedy query ef) s).nearest.length : Nat) : Int) ≤ B := by
  intro ns
  induction ns with
  | nil => intro s h; exact h
  | cons n ns ih =>
    intro s h
    rw [List.foldl_cons]
    exact ih _ (expandStepGreedy_length_le g query ef s n B hB h)

/-- The search `searchLayerGreedy` returns at most `max(|entryPoints|, ef)` ids. -/
theorem searchGreedy_length_le (g : HNSWGraph) (query : DataVector) (eps : List Nat)
    (layer : Nat) (ef : Int) :
    ((g.searchLayerGreedy query eps layer ef).length : Int) ≤ max (eps.length : Int) ef := by
  unfold HNSWGraph.searchLayerGreedy
  rw [List.length_map]
  apply searchLoop_induct (g.expandStepGreedy query ef) (g.nbrs layer)
    (fun s => (s.nearest.length : Int) ≤ max (eps.length : Int) ef)
  · intro s top rest hs _ _
    exact foldGreedy_length_le g query ef _ (le_max_right _ _) _ _ hs
  · rw [seed_nearest_length]
    have h0 : SearchState.start.nearest.length = 0 := rfl
    rw [h0, Nat.zero_add]
    exact le_max_left _ _

/-! ## The lists of the new node -/

/-- The insertion loop of `buildIndex` for the new node `n`, run over the layers `ls`
from at most 200 entry points: at every layer the list of `n` is left as it
was or gets the candidates of that layer appended, which are at most 200
distinct older nodes. -/
theorem insert_fold_new (layers : Nat → Nat) (n : Nat) (g1 : HNSWGraph)
    (query : DataVector) (hshape : ∀ j, j < n + 1 → g1.HasLayer j (layers j)) :
    ∀ (ls : List Nat) (st : HNSWGraph × List Nat), ls.Pairwise (fun a b => a > b) →
      (∀ l ∈ ls, l ≤ layers n) → Frame g1 st.1 →
      (∀ l ∈ ls, LayerV layers n st.1 l) → st.2.Nodup → st.2 ≠ [] → st.2.length ≤ 200 →
      (∀ ep ∈ st.2, ep < n ∧ ∀ l ∈ ls, l ≤ layers ep) →
      ∀ l, (ls.foldl (HNSWGraph.insertLayer n query) st).1.nbrs l n = st.1.nbrs l n ∨
        ∃ cs : List Nat,
          (ls.foldl (HNSWGraph.insertLayer n query) st).1.nbrs l n = st.1.nbrs l n ++ cs ∧
          cs.Nodup ∧ (∀ c ∈ cs, c < n) ∧ cs.length ≤ 200 := by
  intro ls
  induction ls with
  | nil =>
    intro st _ _ _ _ _ _ _ _ l
    exact Or.inl rfl
  | cons lc ls ih =>
    intro st hpw hl hf hVn hnd hne hlen200 hep l
    rw [List.foldl_cons]
    rw [List.pairwise_cons] at hpw
    have hlc : lc ≤ layers n := hl lc (List.mem_cons_self _ _)
    have hs := searchLayerGreedy_spec st.1 query st.2 lc 200 (fun x => x < n ∧ lc ≤ layers x)
      (fun c _ x hx => ⟨(hVn lc (List.mem_cons_self _ _) c x hx).1,
        (hVn lc (List.mem_cons_self _ _) c x hx).2.2.1⟩) hnd
      (fun ep h => ⟨(hep ep h).1, (hep ep h).2 lc (List.mem_cons_self _ _)⟩)
    have hcslen : (st.1.searchLayerGreedy query st.2 lc 200).length ≤ 200 := by
      have := searchGreedy_length_le st.1 query st.2 lc 200
      have h2 : max ((st.2.length : Nat) : Int) 200 = 200 := max_eq_right (by omega)
      rw [h2] at this
      omega
    have hlayer : ∀ x, x < n + 1 → lc ≤ layers x → st.1.HasLayer x lc := by
      intro x hx hxl
      rw [hf.hasLayer]
      have := hshape x hx
      unfold HNSWGraph.HasLayer at this ⊢
      exact ⟨this.1, by omega⟩
    have hnb := linkFold_nbrs n lc (st.1.cap lc) (st.1.searchLayerGreedy query st.2 lc 200)
      st.1 hs.1 (hlayer n (by omega) hlc)
      (fun c hc => ⟨by have := (hs.2.1 c hc).1; omega,
        hlayer c (by have := (hs.2.1 c hc).1; omega) (hs.2.1 c hc).2⟩)
    have hst : HNSWGraph.insertLayer n query st lc
        = ((st.1.searchLayerGreedy query st.2 lc 200).foldl
            (HNSWGraph.linkStep n lc (st.1.cap lc)) st.1,
          st.1.searchLayerGreedy query st.2 lc 200) := rfl
    have hfr := linkFold_frame n lc (st.1.cap lc) (st.1.searchLayerGreedy query st.2 lc 200)
      st.1
    have hne2 : st.1.searchLayerGreedy query st.2 lc 200 ≠ [] := by
      intro h0
      have h1 := hs.2.2.1
      rw [h0] at h1
      cases hst2 : st.2 with
      | nil => exact hne hst2
      | cons a t =>
        rw [hst2] at h1
        simp at h1
    have hnotin : ∀ l ∈ ls, l ≠ lc := fun l hl1 => by have := hpw.1 l hl1; omega
    have hlcnot : lc ∉ ls := fun h => hnotin lc h rfl
    have hVn2 : ∀ l ∈ ls, LayerV layers n ((st.1.searchLayerGreedy query st.2 lc 200).foldl
        (HNSWGraph.linkStep n lc (st.1.cap lc)) st.1) l :=
      fun l hl1 => (hVn l (List.mem_cons_of_mem _ hl1)).congrV (fun j => by
        rw [hnb l j, if_neg (fun h => hnotin l hl1 h.1), if_neg (fun h => hnotin l hl1 h.1)])
    have hep2 : ∀ ep ∈ st.1.searchLayerGreedy query st.2 lc 200,
        ep < n ∧ ∀ l ∈ ls, l ≤ layers ep :=
      fun ep hep1 => ⟨(hs.2.1 ep hep1).1, fun l hl1 => by
        have := hpw.1 l hl1
        have := (hs.2.1 ep hep1).2
        omega⟩
    rw [hst]
    have i1 := ih
      ((st.1.searchLayerGreedy query st.2 lc 200).foldl
          (HNSWGraph.linkStep n lc (st.1.cap lc)) st.1,
        st.1.searchLayerGreedy query st.2 lc 200)
      hpw.2 (fun l h => hl l (List.mem_cons_of_mem _ h)) (hf.trans hfr) hVn2 hs.1 hne2 hcslen
      hep2 l
    obtain ⟨-, e2, -, -, -⟩ := insert_fold_effect layers n g1 query hshape ls
      ((st.1.searchLayerGreedy query st.2 lc 200).foldl
          (HNSWGraph.linkStep n lc (st.1.cap lc)) st.1,
        st.1.searchLayerGreedy query st.2 lc 200)
      hpw.2 (fun l h => hl l (List.mem_cons_of_mem _ h)) (hf.trans hfr) hVn2 hs.1 hne2 hep2
    by_cases hll : l = lc
    · subst hll
      right
      refine ⟨st.1.searchLayerGreedy query st.2 l 200, ?_, hs.1,
        fun c hc => (hs.2.1 c hc).1, hcslen⟩
      rw [e2 l hlcnot n]
      show ((st.1.searchLayerGreedy query st.2 l 200).foldl
        (HNSWGraph.linkStep n l (st.1.cap l)) st.1).nbrs l n = _
      rw [hnb l n, if_pos ⟨rfl, rfl⟩]
    · have e : ((st.1.searchLayerGreedy query st.2 lc 200).foldl
          (HNSWGraph.linkStep n lc (st.1.cap lc)) st.1).nbrs l n = st.1.nbrs l n := by
        rw [hnb l n, if_neg (fun h => hll h.1), if_neg (fun h => hll h.1)]
      simp only [e] at i1
      exact i1

/-! ## No duplicates and bounded length of the neighbor lists (C23) -/

/-- One iteration of the main loop of `buildIndex` keeps `NbrsOK`. -/
theorem nbrsOK_step (N : Nat) (layers : Nat → Nat) (dataset : List DataVector) (n : Nat)
    (g : HNSWGraph) (h : BuildInv N layers n g) (hn : n < N) (hok : NbrsOK g) :
    NbrsOK (HNSWGraph.insertNode dataset g n (layers n)) := by
  have hpar := insertNode_params dataset g n (layers n)
  have hcap : ∀ l, (HNSWGraph.insertNode dataset g n (layers n)).cap l = g.cap l := by
    intro l
    unfold HNSWGraph.cap
    rw [hpar.2.2.1, hpar.2.2.2]
  have hnew : ∀ l, g.nbrs l n = [] := by
    intro l
    unfold HNSWGraph.nbrs
    rw [h.fresh n (le_refl _)]
    rfl
  intro l j
  rw [hcap]
  by_cases hjn : j = n
  · subst hjn
    by_cases h0 : j = 0
    · subst h0
      have e : (HNSWGraph.insertNode dataset g 0 (layers 0)).nbrs l 0 = g.nbrs l 0 := by
        rw [← allocNode_nbrs g 0 (layers 0) (h.fresh 0 (le_refl _)) l 0]
        unfold HNSWGraph.insertNode
        rw [if_pos rfl]
        rfl
      rw [e]
      exact hok l 0
    · obtain ⟨s1, s2, s3, s4, s5⟩ := insert_setup N layers dataset j g h hn h0
      have hfold := insert_fold_new layers j (g.allocNode j (layers j))
        (dataset.getD j []) s2 (layersDownFrom (min (layers j) g.maxLayer))
        (g.allocNode j (layers j), (layersAbove g.maxLayer (layers j)).foldl
          ((g.allocNode j (layers j)).descentStep (dataset.getD j [])) [g.entryPoint])
        (layersDownFrom_pairwise _)
        (fun l hl => by
          rw [layersDownFrom_mem] at hl
          omega)
        (Frame.refl _) (fun l _ => s3 l) (nodup_of_length_one _ s4)
        (ne_nil_of_length_one _ s4) (by rw [s4]; decide)
        (fun ep hep => ⟨(s5 ep hep).1, fun l hl => by
          rw [layersDownFrom_mem] at hl
          have := (s5 ep hep).2
          omega⟩) l
      rw [insertNode_nbrs dataset g j (layers j) h0]
      have e0 : (g.allocNode j (layers j)).nbrs l j = [] := by rw [s1, hnew]
      rcases hfold with hf | ⟨cs, hf, c1, -, c3⟩
      · rw [hf]
        show ((g.allocNode j (layers j)).nbrs l j).Nodup ∧ _
        rw [e0]
        exact ⟨List.nodup_nil, by
          simp only [List.length_nil, Nat.cast_zero]
          exact le_trans (by decide) (le_max_right _ _)⟩
      · rw [hf]
        show ((g.allocNode j (layers j)).nbrs l j ++ cs).Nodup ∧ _
        rw [e0, List.nil_append]
        exact ⟨c1, le_trans (by omega) (le_max_right _ _)⟩
  · rcases insertNode_effect N layers dataset n g h hn l j hjn with he | ⟨he, hle⟩
    · rw [he]
      exact hok l j
    · rw [he]
      refine ⟨?_, ?_⟩
      · apply List.Nodup.append (hok l j).1 (List.nodup_singleton n)
        intro x hx hxn
        rw [List.mem_singleton] at hxn
        have := (h.valid l j x hx).1
        omega
      · rw [List.length_append, List.length_singleton]
        push_cast
        exact le_trans hle (le_max_left _ _)

/-- The lists are without duplicates and bounded after every insertion of a
build on a new graph. -/
theorem nbrsOK_upTo (M : Int) (dataset : List DataVector) (layers : Nat → Nat) :
    ∀ n, n ≤ dataset.length → NbrsOK ((HNSWGraph.init M).buildUpTo dataset layers n) := by
  intro n
  induction n with
  | zero =>
    intro _ l j
    have hinv := buildInv_upTo M dataset layers 0 (Nat.zero_le _)
    have : ((HNSWGraph.init M).buildUpTo dataset layers 0).nbrs l j = [] := by
      apply List.eq_nil_iff_forall_not_mem.2
      intro x hx
      have := hinv.valid l j x hx
      omega
    rw [this]
    exact ⟨List.nodup_nil, by
      simp only [List.length_nil, Nat.cast_zero]
      exact le_trans (by decide) (le_max_right _ _)⟩
  | succ n ih =>
    intro hn
    rw [buildUpTo_succ]
    exact nbrsOK_step dataset.length layers dataset n _
      (buildInv_upTo M dataset layers n (by omega)) (by omega) (ih (by omega))

/-- C23: after `buildIndex` on any dataset, for every `M` and every sequence of layer
draws, every neighbor list holds no id twice and at most `max(cap, 200)` ids,
where `cap` is the stored `maxM0` at layer 0 (the `int` product `M * 2`, which is
`2 M` for `-2^30 ≤ M < 2^30` and at most `2 M` for every `M ≥ -2^30`) and
`cap = maxM = M` above. The reasons, in
their general form: `searchLayerGreedy` with `ef = 200` from distinct entry points,
at most 200 of them, returns distinct ids, at most 200 of them; and the
list of an inserted node never grows beyond the larger of `cap` and the
length it had at an earlier time. -/
theorem hnsw_lists_nodup_bounded (M : Int) (dataset : List DataVector)
    (layers : Nat → Nat) :
    (∀ l j, (((HNSWGraph.init M).buildIndex dataset layers).nbrs l j).Nodup ∧
      ((((HNSWGraph.init M).buildIndex dataset layers).nbrs l j).length : Int)
        ≤ max (if l = 0 then wrapInt32 (M * 2) else M) 200) ∧
    (∀ (g : HNSWGraph) (query : DataVector) (eps : List Nat) (layer : Nat),
      eps.Nodup → eps.length ≤ 200 →
      (g.searchLayerGreedy query eps layer 200).Nodup ∧
      (g.searchLayerGreedy query eps layer 200).length ≤ 200) ∧
    (∀ n k l c, n + k ≤ dataset.length → c < n →
      ((((HNSWGraph.init M).buildUpTo dataset layers (n + k)).nbrs l c).length : Int)
        ≤ max (if l = 0 then wrapInt32 (M * 2) else M)
          (((HNSWGraph.init M).buildUpTo dataset layers n).nbrs l c).length) ∧
    (-2 ^ 30 ≤ M → ∀ l j,
      ((((HNSWGraph.init M).buildIndex dataset layers).nbrs l j).length : Int)
        ≤ max (if l = 0 then M * 2 else M) 200) := by
  have hall : ∀ l j, (((HNSWGraph.init M).buildIndex dataset layers).nbrs l j).Nodup ∧
      ((((HNSWGraph.init M).buildIndex dataset layers).nbrs l j).length : Int)
        ≤ max (if l = 0 then wrapInt32 (M * 2) else M) 200 := by
    intro l j
    have h := nbrsOK_upTo M dataset layers dataset.length (le_refl _) l j
    have hp := buildUpTo_params M dataset layers dataset.length
    unfold HNSWGraph.cap at h
    rw [hp.2.2.1, hp.2.2.2] at h
    exact h
  refine ⟨hall, ?_, ?_, ?_⟩
  rotate_left 2
  · intro hlo l j
    refine le_trans (hall l j).2 (max_le_max ?_ (le_refl _))
    by_cases hl : l = 0
    · rw [if_pos hl, if_pos hl]
      exact wrapInt32_two_mul_le M hlo
    · rw [if_neg hl, if_neg hl]
  · intro g query eps layer hnd hlen
    refine ⟨(searchLayerGreedy_spec g query eps layer 200 (fun _ => True)
      (fun _ _ _ _ => trivial) hnd (fun _ _ => trivial)).1, ?_⟩
    have := searchGreedy_length_le g query eps layer 200
    have h2 : max ((eps.length : Nat) : Int) 200 = 200 := max_eq_right (by omega)
    rw [h2] at this
    omega
  · intro n k l c
    induction k with
    | zero =>
      intro _ _
      exact le_max_right _ _
    | succ k ih =>
      intro hm hc
      have ih1 := ih (by omega) hc
      have hinv := buildInv_upTo M dataset layers (n + k) (by omega)
      have hp := buildUpTo_params M dataset layers (n + k)
      have he := insertNode_effect dataset.length layers dataset (n + k) _ hinv (by omega)
        l c (by omega)
      have hs : (HNSWGraph.init M).buildUpTo dataset layers (n + (k + 1))
          = HNSWGraph.insertNode dataset ((HNSWGraph.init M).buildUpTo dataset layers (n + k))
              (n + k) (layers (n + k)) := buildUpTo_succ _ _ _ _
      rw [hs]
      rcases he with he | ⟨he, hle⟩
      · rw [he]
        exact ih1
      · rw [he, List.length_append, List.length_singleton]
        unfold HNSWGraph.cap at hle
        rw [hp.2.2.1, hp.2.2.2] at hle
        push_cast
        exact le_trans hle (le_max_left _ _)

/-! ## What the RP-tree search returns (C22) -/

/-- A sorted list that is a sub-multiset of another sorted list is, position by
position, at least as large. -/
theorem sorted_subperm_ge (R S : List ℝ) (hR : R.Sorted (fun a b => a ≤ b))
    (hS : S.Sorted (fun a b => a ≤ b)) (hsub : R.Subperm S) (i : Nat) (hi : i < R.length) :
    S.getD i 0 ≤ R.getD i 0 := by
  have hiS : i < S.length := lt_of_lt_of_le hi hsub.length_le
  rw [List.getD_eq_getElem _ _ hi, List.getD_eq_getElem _ _ hiS]
  by_contra hlt
  have hlt : R[i] < S[i] := not_le.1 hlt
  have hRd : R = R.take i ++ (R[i] :: R.drop (i + 1)) := by
    rw [← List.drop_eq_getElem_cons hi, List.take_append_drop]
  have hSd : S = S.take i ++ (S[i] :: S.drop (i + 1)) := by
    rw [← List.drop_eq_getElem_cons hiS, List.take_append_drop]
  have hR1 : ∀ x ∈ R.take i, x ≤ R[i] := by
    intro x hx
    rw [hRd] at hR
    exact (List.pairwise_append.1 hR).2.2 x hx R[i] (List.mem_cons_self _ _)
  have hS2 : ∀ x ∈ S[i] :: S.drop (i + 1), S[i] ≤ x := by
    intro x hx
    rw [hSd] at hS
    rcases List.mem_cons.1 hx with rfl | hx
    · exact le_refl _
    · exact List.rel_of_sorted_cons (List.pairwise_append.1 hS).2.1 x hx
  have hcR : i + 1 ≤ R.countP (fun x => decide (x ≤ R[i])) := by
    have h1 : (R.take i).countP (fun x => decide (x ≤ R[i])) = (R.take i).length :=
      List.countP_eq_length.2 (fun x hx => by simpa using hR1 x hx)
    have h2 : 1 ≤ (R[i] :: R.drop (i + 1)).countP (fun x => decide (x ≤ R[i])) := by
      rw [List.countP_cons_of_pos _ _ (by simp)]
      omega
    have h3 : R.countP (fun x => decide (x ≤ R[i]))
        = (R.take i).countP (fun x => decide (x ≤ R[i]))
          + (R[i] :: R.drop (i + 1)).countP (fun x => decide (x ≤ R[i])) := by
      rw [← List.countP_append, ← hRd]
    rw [h3, h1, List.length_take]
    omega
  have hcS : S.countP (fun x => decide (x ≤ R[i])) ≤ i := by
    have h2 : (S[i] :: S.drop (i + 1)).countP (fun x => decide (x ≤ R[i])) = 0 :=
      List.countP_eq_zero.2 (fun x hx => by
        have := hS2 x hx
        simp only [decide_eq_true_eq, not_le]
        exact lt_of_lt_of_le hlt this)
    have h3 : S.countP (fun x => decide (x ≤ R[i]))
        = (S.take i).countP (fun x => decide (x ≤ R[i]))
          + (S[i] :: S.drop (i + 1)).countP (fun x => decide (x ≤ R[i])) := by
      rw [← List.countP_append, ← hSd]
    rw [h3, h2, Nat.add_zero]
    exact le_trans (List.countP_le_length _) (by rw [List.length_take]; omega)
  have := hsub.countP_le (fun x => decide (x ≤ R[i]))
  omega

/-- Removing the top of a queue whose elements are the distances of the points
`pts` leaves the distances of a sub-multiset of `pts`. -/
theorem pop_sub (q : DataVector) (pq : PQ) (pts : List DataVector)
    (h : pq.Perm (pts.map q.dist)) (hne : pq ≠ []) :
    ∃ pts1 : List DataVector, (PQ.pop pq).Perm (pts1.map q.dist) ∧ pts1.Sublist pts := by
  cases pq with
  | nil => exact absurd rfl hne
  | cons t rest =>
    have ht : t ∈ pts.map q.dist := h.mem_iff.1 (List.mem_cons_self _ _)
    obtain ⟨p, hp, hpt⟩ := List.mem_map.1 ht
    obtain ⟨s1, s2, rfl⟩ := List.append_of_mem hp
    refine ⟨s1 ++ s2, ?_, ?_⟩
    · have h1 : (t :: rest).Perm (t :: (s1 ++ s2).map q.dist) := by
        refine h.trans ?_
        rw [List.map_append, List.map_cons, hpt, List.map_append]
        exact List.perm_middle
      exact h1.cons_inv
    · exact List.Sublist.append (List.Sublist.refl _) (List.sublist_cons_self _ _)

theorem leafStep_sub (q : DataVector) (k : Int) (pq : PQ) (pts : List DataVector)
    (p : DataVector) (h : pq.Perm (pts.map q.dist)) :
    ∃ pts1 : List DataVector, (leafStep q k pq p).Perm (pts1.map q.dist) ∧
      pts1.Subperm (pts ++ [p]) := by
  have hpush : (PQ.push (q.dist p) pq).Perm ((p :: pts).map q.dist) :=
    (PQ.push_perm _ _).trans (List.Perm.cons _ h)
  have hcons : (p :: pts).Perm (pts ++ [p]) := (List.perm_append_singleton p pts).symm
  unfold leafStep
  split
  · obtain ⟨pts1, h1, h2⟩ := pop_sub q _ _ hpush (by
      intro h0
      have := (PQ.push_perm (q.dist p) pq).length_eq
      rw [h0] at this
      simp at this)
    exact ⟨pts1, h1, h2.subperm.trans hcons.subperm⟩
  · exact ⟨p :: pts, hpush, hcons.subperm⟩

theorem leafScan_sub (q : DataVector) (k : Int) :
    ∀ (points : List DataVector) (pq : PQ) (pts : List DataVector),
      pq.Perm (pts.map q.dist) →
      ∃ pts1 : List DataVector, (leafScan q k points pq).Perm (pts1.map q.dist) ∧
        pts1.Subperm (pts ++ points) := by
  intro points
  induction points with
  | nil =>
    intro pq pts h
    exact ⟨pts, h, by rw [List.append_nil]⟩
  | cons p points ih =>
    intro pq pts h
    obtain ⟨pts1, h1, h2⟩ := leafStep_sub q k pq pts p h
    obtain ⟨pts2, h3, h4⟩ := ih (leafStep q k pq p) pts1 h1
    refine ⟨pts2, ?_, ?_⟩
    · rw [leafScan_eq, List.foldl_cons, ← leafScan_eq]
      exact h3
    · refine h4.trans ?_
      have : pts ++ p :: points = (pts ++ [p]) ++ points := by simp
      rw [this]
      exact (List.subperm_append_right points).2 h2

theorem descend_sub (q : DataVector) (k : Int) (gap : ℝ) (near far : PQ → Option PQ)
    (A B : List DataVector)
    (hnear : ∀ (pq pq1 : PQ) (pts : List DataVector), pq.Perm (pts.map q.dist) →
      near pq = some pq1 →
      ∃ pts1 : List DataVector, pq1.Perm (pts1.map q.dist) ∧ pts1.Subperm (pts ++ A))
    (hfar : ∀ (pq pq1 : PQ) (pts : List DataVector), pq.Perm (pts.map q.dist) →
      far pq = some pq1 →
      ∃ pts1 : List DataVector, pq1.Perm (pts1.map q.dist) ∧ pts1.Subperm (pts ++ B))
    (pq pq2 : PQ) (pts : List DataVector) (hp : pq.Perm (pts.map q.dist))
    (h : descend k gap near far pq = some pq2) :
    ∃ pts2 : List DataVector, pq2.Perm (pts2.map q.dist) ∧
      pts2.Subperm (pts ++ (A ++ B)) := by
  unfold descend at h
  cases hn : near pq with
  | none => rw [hn] at h; simp at h
  | some pq1 =>
    rw [hn, Option.some_bind] at h
    obtain ⟨pts1, h1, h2⟩ := hnear pq pq1 pts hp hn
    have hfar2 : far pq1 = some pq2 →
        ∃ pts2 : List DataVector, pq2.Perm (pts2.map q.dist) ∧
          pts2.Subperm (pts ++ (A ++ B)) := by
      intro hf
      obtain ⟨pts2, h3, h4⟩ := hfar pq1 pq2 pts1 h1 hf
      refine ⟨pts2, h3, h4.trans ?_⟩
      rw [← List.append_assoc]
      exact (List.subperm_append_right B).2 h2
    have hstop : some pq1 = some pq2 →
        ∃ pts2 : List DataVector, pq2.Perm (pts2.map q.dist) ∧
          pts2.Subperm (pts ++ (A ++ B)) := by
      intro he
      simp only [Option.some.injEq] at he
      rw [← he]
      refine ⟨pts1, h1, h2.trans ?_⟩
      rw [← List.append_assoc]
      exact (List.sublist_append_left _ _).subperm
    split at h
    · exact hfar2 h
    · split at h
      · simp at h
      · split at h
        · exact hfar2 h
        · exact hstop h

/-- The queue that `RPTreeIndex::searchRecursive` leaves holds the distances of
a sub-multiset of the points met so far and the points below the node. -/
theorem rp_searchRecursive_sub (q : DataVector) (k : Int) :
    ∀ (node : Node) (pq pq1 : PQ) (pts : List DataVector), pq.Perm (pts.map q.dist) →
      RPTreeIndex.searchRecursive node q k pq = some pq1 →
      ∃ pts1 : List DataVector, pq1.Perm (pts1.map q.dist) ∧
        pts1.Subperm (pts ++ node.leafPoints) := by
  intro node
  induction node with
  | null =>
    intro pq pq1 pts hp h
    simp only [RPTreeIndex.searchRecursive, Option.some.injEq] at h
    rw [← h]
    exact ⟨pts, hp, (List.sublist_append_left _ _).subperm⟩
  | leaf points =>
    intro pq pq1 pts hp h
    simp only [RPTreeIndex.searchRecursive, Option.some.injEq] at h
    rw [← h]
    exact leafScan_sub q k points pq pts hp
  | internal splitDim splitVal projDir left right ihl ihr =>
    intro pq pq1 pts hp h
    simp only [RPTreeIndex.searchRecursive] at h
    simp only [Node.leafPoints]
    split at h
    · exact descend_sub q k _ _ _ _ _ ihl ihr pq pq1 pts hp h
    · obtain ⟨pts2, h1, h2⟩ := descend_sub q k _ _ _ _ _ ihr ihl pq pq1 pts hp h
      refine ⟨pts2, h1, h2.trans ?_⟩
      exact (List.Perm.append_left pts List.perm_append_comm).subperm

theorem subperm_map {α β : Type} (f : α → β) {l1 l2 : List α} (h : l1.Subperm l2) :
    (l1.map f).Subperm (l2.map f) := by
  obtain ⟨l, hl, hsl⟩ := h
  exact ⟨l.map f, hl.map f, hsl.map f⟩

theorem bruteForce_full (dataset : List DataVector) (q : DataVector) (K : Nat)
    (hK : dataset.length ≤ K) :
    bruteForceKNN dataset q K = (dataset.map q.dist).insertionSort (fun a b => a ≤ b) := by
  unfold bruteForceKNN kSmallest
  apply List.take_of_length_le
  rw [List.length_insertionSort, List.length_map]
  exact hK

/-- C22: for every dataset, every state of the direction generator, every query and
every `k ≥ 1`, `RPTreeIndex::searchKNearest` returns a list `res` that is, as a
multiset, the distances from the query to a sub-multiset `pts` of the points of
the dataset (each stored point contributes at most once); `res` is in ascending
order; its `i`-th element is at least the `i`-th smallest of all distances; and
for `k ≥ N` it is the full sorted brute-force list. -/
theorem rp_search_sub_multiset (S : StdSort) (g : Gen) (dataset : List DataVector)
    (q : DataVector) (k : Int) (hk : 1 ≤ k) (hk31 : k < 2 ^ 31) :
    ∃ (res : List ℝ) (pts : List DataVector),
      RPTreeIndex.searchKNearest (RPTreeIndex.Maketree S g dataset).1 q k = some res ∧
      pts.Subperm dataset ∧ res.Perm (pts.map q.dist) ∧
      res.Sorted (fun a b => a ≤ b) ∧
      (∀ i, i < res.length →
        (bruteForceKNN dataset q dataset.length).getD i 0 ≤ res.getD i 0) ∧
      ((dataset.length : Int) ≤ k →
        res = bruteForceKNN dataset q k.toNat ∧
        res = bruteForceKNN dataset q dataset.length) := by
  have hK : toSizeT k = k.toNat := toSizeT_of_nonneg (by omega) (by omega)
  obtain ⟨pq1, h1, hl1⟩ := rp_searchRecursive_length hK (by omega) q
    (RPTreeIndex.build S g dataset).1 [] (by simp)
  have hsort := rp_searchRecursive_sorted q k _ [] pq1 List.sorted_nil h1
  obtain ⟨pts1, hp1, hs1⟩ := rp_searchRecursive_sub q k _ [] pq1 [] (List.Perm.refl _) h1
  have hleaf := rp_build_leafPoints S _ g dataset rfl
  rw [List.nil_append] at hs1
  have hsub : pts1.Subperm dataset := hs1.trans hleaf.subperm
  have hres : pq1.reverse.Perm (pts1.map q.dist) := (List.reverse_perm pq1).trans hp1
  have hrs : pq1.reverse.Sorted (fun a b => a ≤ b) := reverse_sorted_of_desc pq1 hsort
  have hS : ((dataset.map q.dist).insertionSort (fun a b => a ≤ b)).Sorted
      (fun a b => a ≤ b) := List.sorted_insertionSort _ _
  have hsubS : pq1.reverse.Subperm ((dataset.map q.dist).insertionSort (fun a b => a ≤ b)) :=
    (hres.subperm.trans (subperm_map q.dist hsub)).trans
      (List.perm_insertionSort _ _).symm.subperm
  refine ⟨pq1.reverse, pts1, ?_, hsub, hres, hrs, ?_, ?_⟩
  · unfold RPTreeIndex.searchKNearest RPTreeIndex.Maketree
    rw [h1, Option.map_some']
  · intro i hi
    rw [bruteForce_full dataset q dataset.length (le_refl _)]
    exact sorted_subperm_ge _ _ hrs hS hsubS i hi
  · intro hN
    have hlen : pq1.reverse.length = dataset.length := by
      rw [List.length_reverse, hl1, hleaf.length_eq]
      simp only [List.length_nil, Nat.zero_add]
      omega
    have hperm : pq1.reverse.Perm ((dataset.map q.dist).insertionSort (fun a b => a ≤ b)) :=
      hsubS.perm_of_length_le (by
        rw [List.length_insertionSort, List.length_map, hlen])
    have heq : pq1.reverse = (dataset.map q.dist).insertionSort (fun a b => a ≤ b) :=
      List.eq_of_perm_of_sorted hperm hrs hS
    rw [bruteForce_full dataset q k.toNat (by omega),
      bruteForce_full dataset q dataset.length (le_refl _)]
    exact ⟨heq, heq⟩

/-- An instance of C22: three points on a line, `k = 5`. -/
theorem rp_search_sub_multiset_witness :
    ∃ (res : List ℝ) (pts : List DataVector),
      RPTreeIndex.searchKNearest
        (RPTreeIndex.Maketree StdSort.insertion ⟨fun _ => 1, 0⟩ [[0], [1], [2]]).1 [0] 5
        = some res ∧
      pts.Subperm [[0], [1], [2]] ∧ res.Perm (pts.map (DataVector.dist [0])) ∧
      res.Sorted (fun a b => a ≤ b) ∧
      (∀ i, i < res.length →
        (bruteForceKNN [[0], [1], [2]] [0] ([[0], [1], [2]] : List DataVector).length).getD i 0
          ≤ res.getD i 0) ∧
      ((([[0], [1], [2]] : List DataVector).length : Int) ≤ 5 →
        res = bruteForceKNN [[0], [1], [2]] [0] (5 : Int).toNat ∧
        res = bruteForceKNN [[0], [1], [2]] [0] ([[0], [1], [2]] : List DataVector).length) :=
  rp_search_sub_multiset StdSort.insertion ⟨fun _ => 1, 0⟩ [[0], [1], [2]] [0] 5
    (by decide) (by decide)

/-! ## The accesses of the layer searches are in range (C21) -/

theorem stepDataReads_mem (step : SearchState → Nat → SearchState) :
    ∀ (ns : List Nat) (s : SearchState), ∀ id ∈ stepDataReads step ns s, id ∈ ns := by
  intro ns
  induction ns with
  | nil => intro s id h; simp [stepDataReads] at h
  | cons n ns ih =>
    intro s id h
    unfold stepDataReads at h
    split at h
    · exact List.mem_cons_of_mem _ (ih _ id h)
    · rcases List.mem_cons.1 h with rfl | h
      · exact List.mem_cons_self _ _
      · exact List.mem_cons_of_mem _ (ih _ id h)

/-- Under the invariant of the layer searches every id whose list or data the
`while` loop reads has the property `P`. -/
theorem loopReads_spec (step : SearchState → Nat → SearchState) (nbrs : Nat → List Nat)
    (D : Nat → ℝ) (P : Nat → Prop)
    (hstep : ∀ s n, SearchInv D P s → P n → SearchInv D P (step s n))
    (hP : ∀ c, P c → ∀ n ∈ nbrs c, P n) :
    ∀ (fuel : Nat) (s : SearchState), SearchInv D P s →
      (∀ id ∈ loopListReads step nbrs fuel s, P id) ∧
      (∀ id ∈ loopDataReads step nbrs fuel s, P id) := by
  intro fuel
  induction fuel with
  | zero =>
    intro s _
    exact ⟨fun id h => by simp [loopListReads] at h, fun id h => by simp [loopDataReads] at h⟩
  | succ fuel ih =>
    intro s h
    cases hc : s.candidates with
    | nil =>
      exact ⟨fun id hi => by simp [loopListReads, hc] at hi,
        fun id hi => by simp [loopDataReads, hc] at hi⟩
    | cons top rest =>
      by_cases hb : -top.1 > s.lowerBound
      · exact ⟨fun id hi => by simp [loopListReads, hc, hb] at hi,
          fun id hi => by simp [loopDataReads, hc, hb] at hi⟩
      · obtain ⟨h1, h2, h3, h4, h5, h6⟩ := h
        have htop : P top.2 := h6 top (by rw [hc]; exact List.mem_cons_self _ _)
        have hnext : SearchInv D P ((nbrs top.2).foldl step { s with candidates := rest }) :=
          SearchInv.foldl step D P hstep _ _
            ⟨h1, h2, h3, h4, h5, fun x hx => h6 x (by rw [hc]; exact List.mem_cons_of_mem _ hx)⟩
            (hP top.2 htop)
        obtain ⟨i1, i2⟩ := ih _ hnext
        have e1 : loopListReads step nbrs (fuel + 1) s
            = top.2 :: loopListReads step nbrs fuel
                ((nbrs top.2).foldl step { s with candidates := rest }) := by
          simp [loopListReads, hc, hb]
        have e2 : loopDataReads step nbrs (fuel + 1) s
            = stepDataReads step (nbrs top.2) { s with candidates := rest } ++
              loopDataReads step nbrs fuel
                ((nbrs top.2).foldl step { s with candidates := rest }) := by
          simp [loopDataReads, hc, hb]
        rw [e1, e2]
        refine ⟨fun id hi => ?_, fun id hi => ?_⟩
        · rcases List.mem_cons.1 hi with rfl | hi
          · exact htop
          · exact i1 id hi
        · rcases List.mem_append.1 hi with hi | hi
          · exact hP top.2 htop id (stepDataReads_mem step _ _ id hi)
          · exact i2 id hi

/-- A call with the facts `CallOK` runs on a graph whose stored ids are valid, and
all its accesses are in range. -/
theorem CallOK.accessesInRange {N : Nat} {layers : Nat → Nat} {m n : Nat} {c : SearchCall}
    (h : CallOK N layers m n c) : c.graph.StoredOK ∧ c.InRange := by
  obtain ⟨hlen, hdata, hnm, hmN, hshape, hV, hVn, hnd, hep⟩ := h
  have hlayer : ∀ x l, x < m → l ≤ layers x → c.graph.HasLayer x l := by
    intro x l hx hl
    unfold HNSWGraph.HasLayer
    rw [(hshape x hx).1, hlen]
    omega
  have hreads : ∀ fuel,
      (∀ id ∈ c.listReads fuel, id < n ∧ c.layer ≤ layers id) ∧
      (∀ id ∈ loopDataReads c.step (c.graph.nbrs c.layer) fuel
        (c.entryPoints.foldl (c.graph.seedStep c.query) SearchState.start),
        id < n ∧ c.layer ≤ layers id) := by
    intro fuel
    have hseed := SearchInv.seeds c.graph c.query (fun x => x < n ∧ c.layer ≤ layers x)
      c.entryPoints _ (SearchInv.start _ _) hnd
      (fun ep h => ⟨by simp [SearchState.start], hep ep h⟩)
    apply loopReads_spec c.step (c.graph.nbrs c.layer) (c.graph.distTo c.query)
      (fun x => x < n ∧ c.layer ≤ layers x)
    · intro s x hs hx
      unfold SearchCall.step
      cases c.ef with
      | none => exact SearchInv.expand c.graph c.query _ s hs x hx
      | some ef => exact SearchInv.expandGreedy c.graph c.query ef _ s hs x hx
    · intro x _ y hy
      exact ⟨(hVn x y hy).1, (hVn x y hy).2.2.1⟩
    · exact hseed
  refine ⟨?_, ?_, ?_, ?_⟩
  · intro l j x hx
    obtain ⟨v1, -, v3, v4⟩ := hV l j x hx
    exact ⟨v4, hlayer x l v1 v3, by rw [(hshape x v1).2]; exact v3, by rw [hdata]; omega⟩
  · intro ep he
    obtain ⟨e1, e2⟩ := hep ep he
    exact ⟨hlayer ep c.layer (by omega) e2, by rw [(hshape ep (by omega)).2]; exact e2,
      by rw [hdata]; omega⟩
  · intro fuel id hid
    obtain ⟨r1, r2⟩ := (hreads fuel).1 id hid
    exact hlayer id c.layer (by omega) r2
  · intro fuel id hid
    rw [hdata]
    unfold SearchCall.dataReads at hid
    rcases List.mem_append.1 hid with hid | hid
    · have := (hep id hid).1
      omega
    · have := ((hreads fuel).2 id hid).1
      omega

/-- The calls of a descent loop on a graph whose stored ids are among the first
`n` nodes satisfy `CallOK`. -/
theorem descentCalls_spec (N : Nat) (layers : Nat → Nat) (m n : Nat) (g : HNSWGraph)
    (query : DataVector) (hlen : g.nodes.length = N) (hdata : g.data.length = N)
    (hnm : n ≤ m) (hmN : m ≤ N)
    (hshape : ∀ j, j < m → (g.nodes.getD j HNode.empty).neighbors.length = layers j + 1 ∧
      (g.nodes.getD j HNode.empty).maxLayer = layers j)
    (hVm : ∀ l, LayerV layers m g l) (hV : ∀ l, LayerV layers n g l) :
    ∀ (ls : List Nat) (eps : List Nat), ls.Pairwise (fun a b => a > b) → eps.length = 1 →
      (∀ ep ∈ eps, ep < n ∧ ∀ l ∈ ls, l ≤ layers ep) →
      ∀ c ∈ g.descentCalls query ls eps, CallOK N layers m n c := by
  intro ls
  induction ls with
  | nil =>
    intro eps _ _ _ c hc
    simp [HNSWGraph.descentCalls] at hc
  | cons lc ls ih =>
    intro eps hpw h1 h2 c hc
    rw [List.pairwise_cons] at hpw
    unfold HNSWGraph.descentCalls at hc
    rcases List.mem_cons.1 hc with rfl | hc
    · exact ⟨hlen, hdata, hnm, hmN, hshape, hVm, hV lc, nodup_of_length_one _ h1,
        fun ep hep => ⟨(h2 ep hep).1, (h2 ep hep).2 lc (List.mem_cons_self _ _)⟩⟩
    · have hs := descentStep_spec g query eps lc (fun x => x < n ∧ lc ≤ layers x)
        (fun c _ x hx => ⟨(hV lc c x hx).1, (hV lc c x hx).2.2.1⟩) h1
        (fun ep hep => ⟨(h2 ep hep).1, (h2 ep hep).2 lc (List.mem_cons_self _ _)⟩)
      apply ih _ hpw.2 hs.1 _ c hc
      intro ep hep
      obtain ⟨e1, e2⟩ := hs.2 ep hep
      exact ⟨e1, fun l hl => le_trans (le_of_lt (hpw.1 l hl)) e2⟩

/-- The calls of the insertion loop for the new node `n` satisfy `CallOK`. -/
theorem insertCalls_spec (N : Nat) (layers : Nat → Nat) (n : Nat) (g1 : HNSWGraph)
    (query : DataVector) (hlen : g1.nodes.length = N) (hdata : g1.data.length = N)
    (hnN : n + 1 ≤ N)
    (hins : ∀ j, j < n + 1 →
      (g1.nodes.getD j HNode.empty).neighbors.length = layers j + 1 ∧
      (g1.nodes.getD j HNode.empty).maxLayer = layers j) :
    ∀ (ls : List Nat) (st : HNSWGraph × List Nat), ls.Pairwise (fun a b => a > b) →
      (∀ l ∈ ls, l ≤ layers n) → Frame g1 st.1 →
      (∀ l, LayerV layers (n + 1) st.1 l) → (∀ l ∈ ls, LayerV layers n st.1 l) →
      (∀ l, LayerA st.1 l) → (∀ l, LayerB st.1 l) → st.2.Nodup → st.2 ≠ [] →
      (∀ ep ∈ st.2, ep < n ∧ ∀ l ∈ ls, l ≤ layers ep) →
      ∀ c ∈ insertCalls n query ls st, CallOK N layers (n + 1) n c := by
  have hshape : ∀ j, j < n + 1 → g1.HasLayer j (layers j) := by
    intro j hj
    unfold HNSWGraph.HasLayer
    rw [(hins j hj).1, hlen]
    omega
  intro ls
  induction ls with
  | nil =>
    intro st _ _ _ _ _ _ _ _ _ _ c hc
    simp [insertCalls] at hc
  | cons lc ls ih =>
    intro st hpw hl hf hV hVn hA hB hnd hne hep c hc
    unfold insertCalls at hc
    rcases List.mem_cons.1 hc with rfl | hc
    · refine ⟨hf.1.trans hlen, by rw [hf.2.2.1]; exact hdata, Nat.le_succ _, hnN, ?_, hV,
        hVn lc (List.mem_cons_self _ _), hnd,
        fun ep he => ⟨(hep ep he).1, (hep ep he).2 lc (List.mem_cons_self _ _)⟩⟩
      intro j hj
      show (st.1.nodes.getD j HNode.empty).neighbors.length = layers j + 1 ∧
        (st.1.nodes.getD j HNode.empty).maxLayer = layers j
      rw [(hf.2.1 j).1, (hf.2.1 j).2]
      exact hins j hj
    · rw [List.pairwise_cons] at hpw
      have hs := searchLayerGreedy_spec st.1 query st.2 lc 200
        (fun x => x < n ∧ lc ≤ layers x)
        (fun c _ x hx => ⟨(hVn lc (List.mem_cons_self _ _) c x hx).1,
          (hVn lc (List.mem_cons_self _ _) c x hx).2.2.1⟩) hnd
        (fun ep h => ⟨(hep ep h).1, (hep ep h).2 lc (List.mem_cons_self _ _)⟩)
      have hone : [lc].Pairwise (fun a b => a > b) := List.pairwise_singleton _ _
      have hl1 : ∀ l ∈ [lc], l ≤ layers n := fun l h => by
        rw [List.mem_singleton] at h
        rw [h]
        exact hl lc (List.mem_cons_self _ _)
      have hVn1 : ∀ l ∈ [lc], LayerV layers n st.1 l := fun l h => by
        rw [List.mem_singleton] at h
        rw [h]
        exact hVn lc (List.mem_cons_self _ _)
      have hep1 : ∀ ep ∈ st.2, ep < n ∧ ∀ l ∈ [lc], l ≤ layers ep := fun ep he =>
        ⟨(hep ep he).1, fun l h => by
          rw [List.mem_singleton] at h
          rw [h]
          exact (hep ep he).2 lc (List.mem_cons_self _ _)⟩
      obtain ⟨f1, f2, f3, f4⟩ := insert_fold_spec layers n g1 query hshape [lc] st hone hl1 hf
        hV hVn1 hA hB hnd hep1
      obtain ⟨-, e2, e3, e4, -⟩ := insert_fold_effect layers n g1 query hshape [lc] st hone hl1
        hf hVn1 hnd hne hep1
      simp only [List.foldl_cons, List.foldl_nil] at f1 f2 f3 f4 e2 e3 e4
      apply ih (HNSWGraph.insertLayer n query st lc) hpw.2
        (fun l h => hl l (List.mem_cons_of_mem _ h)) f1 f2 _ f3 f4 e3 e4 _ c hc
      · intro l hl2
        have hne2 : l ∉ [lc] := by
          rw [List.mem_singleton]
          have := hpw.1 l hl2
          omega
        exact (hVn l (List.mem_cons_of_mem _ hl2)).congrV (fun j => e2 l hne2 j)
      · intro ep he
        have h1 := hs.2.1 ep he
        exact ⟨h1.1, fun l hl2 => by
          have := hpw.1 l hl2
          have := h1.2
          omega⟩

/-- The layer searches called by one iteration of the main loop of `buildIndex`
satisfy `CallOK`. -/
theorem insertNodeCalls_spec (N : Nat) (layers : Nat → Nat) (dataset : List DataVector)
    (n : Nat) (g : HNSWGraph) (h : BuildInv N layers n g) (hn : n < N)
    (hdata : g.data.length = N) :
    ∀ c ∈ g.insertNodeCalls dataset n (layers n), CallOK N layers (n + 1) n c := by
  intro c hc
  unfold HNSWGraph.insertNodeCalls at hc
  by_cases h0 : n = 0
  · rw [if_pos h0] at hc
    simp at hc
  · rw [if_neg h0] at hc
    obtain ⟨s1, s2, s3, s4, s5⟩ := insert_setup N layers dataset n g h hn h0
    have hfresh := h.fresh n (le_refl _)
    have hlen : (g.allocNode n (layers n)).nodes.length = N := by
      rw [allocNode_length, h.len]
    have hself := allocNode_getD_self g n (layers n) (by rw [h.len]; exact hn) hfresh
    have hins : ∀ j, j < n + 1 →
        ((g.allocNode n (layers n)).nodes.getD j HNode.empty).neighbors.length = layers j + 1 ∧
        ((g.allocNode n (layers n)).nodes.getD j HNode.empty).maxLayer = layers j := by
      intro j hj
      by_cases hjn : j = n
      · subst hjn
        rw [hself]
        simp
      · rw [allocNode_getD_ne g n _ j hjn]
        exact h.inserted j (by omega)
    have hcap : ∀ l, (g.allocNode n (layers n)).cap l = g.cap l := fun l => rfl
    have hA1 : ∀ l, LayerA (g.allocNode n (layers n)) l :=
      fun l => (h.fwd l).congrA (fun j => s1 l j)
    have hB1 : ∀ l, LayerB (g.allocNode n (layers n)) l :=
      fun l => (h.bwd l).congrB (fun j => s1 l j) (hcap l)
    obtain ⟨he1, he2, he3⟩ := h.entry (by omega)
    rcases List.mem_append.1 hc with hc | hc
    · exact descentCalls_spec N layers (n + 1) n (g.allocNode n (layers n))
        (dataset.getD n []) hlen hdata (Nat.le_succ _) hn hins (fun l => (s3 l).mono) s3
        (layersAbove g.maxLayer (layers n)) [g.entryPoint] (layersAbove_pairwise _ _) rfl
        (fun ep hep => by
          rw [List.mem_singleton] at hep
          subst hep
          refine ⟨he1, fun l hl => ?_⟩
          rw [layersAbove_mem] at hl
          omega) c hc
    · exact insertCalls_spec N layers n (g.allocNode n (layers n)) (dataset.getD n [])
        hlen hdata hn hins (layersDownFrom (min (layers n) g.maxLayer))
        (g.allocNode n (layers n), (layersAbove g.maxLayer (layers n)).foldl
          ((g.allocNode n (layers n)).descentStep (dataset.getD n [])) [g.entryPoint])
        (layersDownFrom_pairwise _)
        (fun l hl => by
          rw [layersDownFrom_mem] at hl
          omega)
        (Frame.refl _) (fun l => (s3 l).mono) (fun l _ => s3 l) hA1 hB1
        (nodup_of_length_one _ s4) (ne_nil_of_length_one _ s4)
        (fun ep hep => ⟨(s5 ep hep).1, fun l hl => by
          rw [layersDownFrom_mem] at hl
          have := (s5 ep hep).2
          omega⟩) c hc

/-- C21: for a dataset of `N ≥ 1` points, every `M` and every sequence of layer draws:
after each insertion of `buildIndex` every id stored in a list `neighbors(j, l)` is
an inserted node other than `j` whose `maxLayer` is at least `l` (it has a list at
layer `l`); and for every layer search called by `buildIndex` and by a later
`searchKNearest`, on the graph as it is at the time of the call, the stored ids
are valid in that way, the entry points have `maxLayer` at least the layer of the
call, and every access `nodes[curr].neighbors[layer]` and `data[id]` of the
search is in range, however long its loop runs; the ids that `searchKNearest`
reads from `data` for its result are in range as well. -/
theorem hnsw_accesses_in_range (M : Int) (dataset : List DataVector) (layers : Nat → Nat)
    (q : DataVector) (k ef : Int) (hN : 1 ≤ dataset.length) :
    (∀ n, n ≤ dataset.length → ∀ l j x,
      x ∈ ((HNSWGraph.init M).buildUpTo dataset layers n).nbrs l j →
      x < n ∧ x ≠ j ∧
      l ≤ (((HNSWGraph.init M).buildUpTo dataset layers n).nodes.getD x HNode.empty).maxLayer ∧
      ((HNSWGraph.init M).buildUpTo dataset layers n).HasLayer x l) ∧
    (∀ c ∈ (HNSWGraph.init M).buildCalls dataset layers, c.graph.StoredOK ∧ c.InRange) ∧
    (∀ c ∈ ((HNSWGraph.init M).buildIndex dataset layers).queryCalls q k ef,
      c.graph = (HNSWGraph.init M).buildIndex dataset layers ∧ c.graph.StoredOK ∧
      c.InRange) ∧
    (∀ id ∈ ((HNSWGraph.init M).buildIndex dataset layers).searchLayerGreedy q
        ((layersAbove ((HNSWGraph.init M).buildIndex dataset layers).maxLayer 0).foldl
          (((HNSWGraph.init M).buildIndex dataset layers).descentStep q)
          [((HNSWGraph.init M).buildIndex dataset layers).entryPoint]) 0 (max ef k),
      id < ((HNSWGraph.init M).buildIndex dataset layers).data.length) := by
  have hfin := buildInv_upTo M dataset layers dataset.length (le_refl _)
  have hpf := buildUpTo_params M dataset layers dataset.length
  obtain ⟨e1, e2, e3⟩ := hfin.entry (by omega)
  have hdesc := descent_fold_spec layers dataset.length 0
    ((HNSWGraph.init M).buildUpTo dataset layers dataset.length) q hfin.valid
    (layersAbove ((HNSWGraph.init M).buildUpTo dataset layers dataset.length).maxLayer 0)
    [((HNSWGraph.init M).buildUpTo dataset layers dataset.length).entryPoint]
    (layersAbove_pairwise _ _) (fun l _ => Nat.zero_le _) rfl
    (fun ep hep => by
      rw [List.mem_singleton] at hep
      subst hep
      refine ⟨e1, Nat.zero_le _, fun l hl => ?_⟩
      rw [layersAbove_mem] at hl
      omega)
  refine ⟨?_, ?_, ?_, ?_⟩
  · intro n hn l j x hx
    have hinv := buildInv_upTo M dataset layers n hn
    obtain ⟨v1, -, v3, v4⟩ := hinv.valid l j x hx
    exact ⟨v1, v4, by rw [(hinv.inserted x v1).2]; exact v3, (hinv.inRange.2 l j x hx).2.2.1⟩
  · intro c hc
    unfold HNSWGraph.buildCalls at hc
    obtain ⟨cs, hcs, hc1⟩ := List.mem_flatten.1 hc
    obtain ⟨i, hi, rfl⟩ := List.mem_map.1 hcs
    rw [List.mem_range] at hi
    exact (insertNodeCalls_spec dataset.length layers dataset i _
      (buildInv_upTo M dataset layers i (by omega)) hi
      (by rw [(buildUpTo_params M dataset layers i).1]) c hc1).accessesInRange
  · intro c hc
    unfold HNSWGraph.queryCalls HNSWGraph.buildIndex at hc
    have hall : ∀ c ∈ ((HNSWGraph.init M).buildUpTo dataset layers dataset.length).descentCalls
        q (layersAbove ((HNSWGraph.init M).buildUpTo dataset layers dataset.length).maxLayer 0)
        [((HNSWGraph.init M).buildUpTo dataset layers dataset.length).entryPoint],
        CallOK dataset.length layers dataset.length dataset.length c :=
      descentCalls_spec dataset.length layers dataset.length dataset.length _ q hfin.len
        (by rw [hpf.1]) (le_refl _) (le_refl _) hfin.inserted hfin.valid hfin.valid _ _
        (layersAbove_pairwise _ _) rfl
        (fun ep hep => by
          rw [List.mem_singleton] at hep
          subst hep
          refine ⟨e1, fun l hl => ?_⟩
          rw [layersAbove_mem] at hl
          omega)
    have hgraph : ∀ (ls eps : List Nat),
        ∀ c ∈ ((HNSWGraph.init M).buildUpTo dataset layers dataset.length).descentCalls q ls eps,
        c.graph = (HNSWGraph.init M).buildUpTo dataset layers dataset.length := by
      intro ls
      induction ls with
      | nil => intro eps c hc; simp [HNSWGraph.descentCalls] at hc
      | cons lc ls ih =>
        intro eps c hc
        unfold HNSWGraph.descentCalls at hc
        rcases List.mem_cons.1 hc with rfl | hc
        · rfl
        · exact ih _ c hc
    rcases List.mem_append.1 hc with hc | hc
    · exact ⟨hgraph _ _ c hc, (hall c hc).accessesInRange⟩
    · rw [List.mem_singleton] at hc
      subst hc
      have hcall : CallOK dataset.length layers dataset.length dataset.length
          ⟨(HNSWGraph.init M).buildUpTo dataset layers dataset.length, q,
            (layersAbove ((HNSWGraph.init M).buildUpTo dataset layers
                dataset.length).maxLayer 0).foldl
              (((HNSWGraph.init M).buildUpTo dataset layers dataset.length).descentStep q)
              [((HNSWGraph.init M).buildUpTo dataset layers dataset.length).entryPoint],
            0, some (max ef k)⟩ :=
        ⟨hfin.len, by rw [hpf.1], le_refl _, le_refl _, hfin.inserted, hfin.valid,
          hfin.valid 0, nodup_of_length_one _ hdesc.1,
          fun ep hep => ⟨(hdesc.2 ep hep).1, Nat.zero_le _⟩⟩
      exact ⟨rfl, hcall.accessesInRange⟩
  · intro id hid
    have hs := searchLayerGreedy_spec
      ((HNSWGraph.init M).buildUpTo dataset layers dataset.length) q _ 0 (max ef k)
      (fun x => x < dataset.length) (fun c _ x hx => (hfin.valid 0 c x hx).1)
      (nodup_of_length_one _ hdesc.1) (fun ep hep => (hdesc.2 ep hep).1)
    have := hs.2.1 id hid
    unfold HNSWGraph.buildIndex
    rw [hpf.1]
    exact this

/-- An instance of C21: the graph of the points `(2)` and `(1)` with the default
`M = 16`, query `(0)`, `k = 1`, `ef = 1`. -/
theorem hnsw_accesses_in_range_witness :
    (∀ n, n ≤ farNear.length → ∀ l j x,
      x ∈ ((HNSWGraph.init 16).buildUpTo farNear (fun _ => 0) n).nbrs l j →
      x < n ∧ x ≠ j ∧
      l ≤ (((HNSWGraph.init 16).buildUpTo farNear (fun _ => 0) n).nodes.getD x
        HNode.empty).maxLayer ∧
      ((HNSWGraph.init 16).buildUpTo farNear (fun _ => 0) n).HasLayer x l) ∧
    (∀ c ∈ (HNSWGraph.init 16).buildCalls farNear (fun _ => 0),
      c.graph.StoredOK ∧ c.InRange) ∧
    (∀ c ∈ ((HNSWGraph.init 16).buildIndex farNear (fun _ => 0)).queryCalls [0] 1 1,
      c.graph = (HNSWGraph.init 16).buildIndex farNear (fun _ => 0) ∧ c.graph.StoredOK ∧
      c.InRange) ∧
    (∀ id ∈ ((HNSWGraph.init 16).buildIndex farNear (fun _ => 0)).searchLayerGreedy [0]
        ((layersAbove ((HNSWGraph.init 16).buildIndex farNear (fun _ => 0)).maxLayer 0).foldl
          (((HNSWGraph.init 16).buildIndex farNear (fun _ => 0)).descentStep [0])
          [((HNSWGraph.init 16).buildIndex farNear (fun _ => 0)).entryPoint]) 0 (max 1 1),
      id < ((HNSWGraph.init 16).buildIndex farNear (fun _ => 0)).data.length) :=
  hnsw_accesses_in_range 16 farNear (fun _ => 0) [0] 1 1 (by decide)

end
